import Mathlib

/-!
SingleLinkedList (single-linked-list.h): a shallow embedding.

The C++ container is a chain of heap nodes behind a sentinel node.  The
embedding keeps the pointer structure: a heap of cells addressed by natural
numbers, a null pointer, and every member function as a function on
(heap, list object) that either returns the new state or a fault.

* `new` returns the next unused address and throws `bad_alloc` once the
  64-bit address space is used up; `delete` frees a cell.
* dereferencing a null or freed pointer is a fault (`badAccess`),
  a tripped `assert` is a fault (`assertion`).
* `size_` is a `size_t`: increments and decrements are taken modulo `2^64`.
* loops over an unknown number of nodes take a fuel argument and report
  `Fault.fuel` when it runs out.
-/

namespace SLL

/-! ## Memory model -/

/-- Number of addresses, and modulus of `size_t`. -/
def addrSpace : Nat := 2 ^ 64

/-- A node pointer: `none` is `nullptr`. -/
abbrev Ptr := Option Nat

/-- The struct `Node`: a value and the pointer to the next node. -/
structure Node (α : Type) where
  value : α
  next_node : Ptr
deriving DecidableEq

/-- The heap: cell `a` is `some n` while a node lives at address `a`, and
`none` once it has been deleted.  Addresses past the end are unused. -/
structure Heap (α : Type) where
  cells : List (Option (Node α))
  inRange : cells.length ≤ addrSpace

inductive Fault where
  | assertion
  | badAccess
  | badAlloc
  | fuel
deriving DecidableEq

/-- The node living at address `a`, if any. -/
def Heap.read {α : Type} (h : Heap α) (a : Nat) : Option (Node α) :=
  (h.cells[a]?).join

/-- Overwrite cell `a`. -/
def Heap.write {α : Type} (h : Heap α) (a : Nat) (c : Option (Node α)) : Heap α :=
  ⟨h.cells.set a c, by rw [List.length_set]; exact h.inRange⟩

/-- The heap without any cell. -/
def Heap.empty {α : Type} : Heap α := ⟨[], Nat.zero_le _⟩

/-- Pointer dereference `p->`: a fault on `nullptr` and on a dead cell. -/
def deref {α : Type} (h : Heap α) (p : Ptr) : Except Fault (Node α) :=
  match p with
  | none => .error .badAccess
  | some a =>
    match h.read a with
    | some n => .ok n
    | none => .error .badAccess

/-- The assignment `p->next_node = nx`. -/
def setNext {α : Type} (h : Heap α) (p : Ptr) (nx : Ptr) : Except Fault (Heap α) :=
  match p with
  | none => .error .badAccess
  | some a =>
    match h.read a with
    | some n => .ok (h.write a (some { n with next_node := nx }))
    | none => .error .badAccess

/-- The heap with one more cell, holding `n`. -/
def Heap.push {α : Type} (h : Heap α) (n : Node α) (hlt : h.cells.length < addrSpace) : Heap α :=
  ⟨h.cells ++ [some n], by rw [List.length_append]; exact hlt⟩

/-- The expression `new Node(...)`: the node is placed at the first unused
address; `bad_alloc` when there is none. -/
def new {α : Type} (h : Heap α) (n : Node α) : Except Fault (Heap α × Nat) :=
  if hlt : h.cells.length < addrSpace then .ok (h.push n hlt, h.cells.length)
  else .error .badAlloc

/-- The statement `delete p`: nothing for `nullptr`, a fault for a dead cell. -/
def delete {α : Type} (h : Heap α) (p : Ptr) : Except Fault (Heap α) :=
  match p with
  | none => .ok h
  | some a =>
    match h.read a with
    | some _ => .ok (h.write a none)
    | none => .error .badAccess

/-- Pre-increment of a `size_t`. -/
def incr (s : Nat) : Nat := (s + 1) % addrSpace

/-- Pre-decrement of a `size_t`. -/
def decr (s : Nat) : Nat := (s + (addrSpace - 1)) % addrSpace

/-! ## Iterators -/

/-- The class `BasicIterator`: a pointer to a node. -/
structure BasicIterator where
  node_ : Ptr
deriving DecidableEq

/-- Iterator `operator==`. -/
def BasicIterator.eq (a b : BasicIterator) : Bool := a.node_ == b.node_

/-- Iterator `operator!=`. -/
def BasicIterator.ne (a b : BasicIterator) : Bool := a.node_ != b.node_

/-- Iterator `operator++`: `node_ = node_ ? node_->next_node : nullptr`. -/
def BasicIterator.inc {α : Type} (h : Heap α) (it : BasicIterator) : Except Fault BasicIterator :=
  match it.node_ with
  | none => .ok ⟨none⟩
  | some a => do
    let n ← deref h (some a)
    pure ⟨n.next_node⟩

/-- Iterator `operator*`: asserts `node_ != nullptr`. -/
def BasicIterator.star {α : Type} (h : Heap α) (it : BasicIterator) : Except Fault α :=
  match it.node_ with
  | none => .error .assertion
  | some a => do
    let n ← deref h (some a)
    pure n.value

/-! ## The list object -/

/-- The data members of `SingleLinkedList`. -/
structure SingleLinkedList where
  head_ : Ptr
  size_ : Nat
deriving DecidableEq

/-- The default constructor: `head_(new Node), size_(0)`. -/
def SingleLinkedList.ctor {α : Type} [Inhabited α] (h : Heap α) :
    Except Fault (Heap α × SingleLinkedList) := do
  let (h1, a) ← new h ⟨default, none⟩
  pure (h1, ⟨some a, 0⟩)

def SingleLinkedList.before_begin (l : SingleLinkedList) : BasicIterator := ⟨l.head_⟩

def SingleLinkedList.begin {α : Type} (h : Heap α) (l : SingleLinkedList) :
    Except Fault BasicIterator := do
  let hd ← deref h l.head_
  pure ⟨hd.next_node⟩

/-- The member `end()`: the null iterator. -/
def SingleLinkedList.end_ (_l : SingleLinkedList) : BasicIterator := ⟨none⟩

def SingleLinkedList.GetSize (l : SingleLinkedList) : Nat := l.size_

def SingleLinkedList.IsEmpty (l : SingleLinkedList) : Bool := l.size_ == 0

def SingleLinkedList.PushFront {α : Type} (h : Heap α) (l : SingleLinkedList) (value : α) :
    Except Fault (Heap α × SingleLinkedList) := do
  let hd ← deref h l.head_
  let (h1, a) ← new h ⟨value, hd.next_node⟩
  let h2 ← setNext h1 l.head_ (some a)
  pure (h2, { l with size_ := incr l.size_ })

def SingleLinkedList.InsertAfter {α : Type} (h : Heap α) (l : SingleLinkedList)
    (pos : BasicIterator) (value : α) :
    Except Fault (Heap α × SingleLinkedList × BasicIterator) :=
  if pos.node_ = none then .error .assertion
  else do
    let n ← deref h pos.node_
    let (h1, new_node) ← new h ⟨value, n.next_node⟩
    let h2 ← setNext h1 pos.node_ (some new_node)
    pure (h2, { l with size_ := incr l.size_ }, ⟨some new_node⟩)

def SingleLinkedList.PopFront {α : Type} (h : Heap α) (l : SingleLinkedList) :
    Except Fault (Heap α × SingleLinkedList) :=
  if l.size_ > 0 then do
    let hd ← deref h l.head_
    let front_node := hd.next_node
    let fn ← deref h front_node
    let h1 ← setNext h l.head_ fn.next_node
    let h2 ← delete h1 front_node
    pure (h2, { l with size_ := decr l.size_ })
  else pure (h, l)

def SingleLinkedList.EraseAfter {α : Type} (h : Heap α) (l : SingleLinkedList)
    (pos : BasicIterator) :
    Except Fault (Heap α × SingleLinkedList × BasicIterator) :=
  if pos.node_ = none then .error .assertion
  else do
    let n ← deref h pos.node_
    if n.next_node = none then .error .assertion
    else do
      let erase_node := n.next_node
      let en ← deref h erase_node
      let h1 ← setNext h pos.node_ en.next_node
      let h2 ← delete h1 erase_node
      let n2 ← deref h2 pos.node_
      pure (h2, { l with size_ := decr l.size_ }, ⟨n2.next_node⟩)

/-- The loop of `Clear()`; the third component counts the `PopFront` calls. -/
def SingleLinkedList.ClearLoop {α : Type} :
    Nat → Heap α → SingleLinkedList → Except Fault (Heap α × SingleLinkedList × Nat)
  | 0, _, _ => .error .fuel
  | fuel + 1, h, l =>
    if l.size_ > 0 then do
      let (h1, l1) ← SingleLinkedList.PopFront h l
      let (h2, l2, k) ← SingleLinkedList.ClearLoop fuel h1 l1
      pure (h2, l2, k + 1)
    else pure (h, l, 0)

def SingleLinkedList.Clear {α : Type} (fuel : Nat) (h : Heap α) (l : SingleLinkedList) :
    Except Fault (Heap α × SingleLinkedList) := do
  let (h1, l1, _) ← SingleLinkedList.ClearLoop fuel h l
  pure (h1, l1)

/-- The member `PopFront()` called `n` times in a row. -/
def SingleLinkedList.PopFrontN {α : Type} :
    Nat → Heap α → SingleLinkedList → Except Fault (Heap α × SingleLinkedList)
  | 0, h, l => pure (h, l)
  | n + 1, h, l => do
    let (h1, l1) ← SingleLinkedList.PopFront h l
    SingleLinkedList.PopFrontN n h1 l1

/-- The destructor: `Clear(); delete head_;`. -/
def SingleLinkedList.dtor {α : Type} (fuel : Nat) (h : Heap α) (l : SingleLinkedList) :
    Except Fault (Heap α) := do
  let (h1, l1) ← SingleLinkedList.Clear fuel h l
  delete h1 l1.head_

/-- The loop of `Reverse()`, returning the final `prev`. -/
def SingleLinkedList.ReverseLoop {α : Type} :
    Nat → Heap α → Ptr → Ptr → Except Fault (Heap α × Ptr)
  | 0, _, _, _ => .error .fuel
  | fuel + 1, h, cur, prev =>
    match cur with
    | none => pure (h, prev)
    | some c => do
      let n ← deref h (some c)
      let tmp := n.next_node
      let h1 ← setNext h (some c) prev
      SingleLinkedList.ReverseLoop fuel h1 tmp (some c)

def SingleLinkedList.Reverse {α : Type} (fuel : Nat) (h : Heap α) (l : SingleLinkedList) :
    Except Fault (Heap α × SingleLinkedList) := do
  let hd ← deref h l.head_
  let (h1, prev) ← SingleLinkedList.ReverseLoop fuel h hd.next_node none
  let h2 ← setNext h1 l.head_ prev
  pure (h2, l)

/-- What the range constructor needs of its template parameter `It`. -/
structure InputIt (α : Type) (I : Type) where
  ne : I → I → Bool
  inc : Heap α → I → Except Fault I
  star : Heap α → I → Except Fault α

/-- The `for` loop of the range constructor. -/
def SingleLinkedList.rangeLoop {α I : Type} (ops : InputIt α I) :
    Nat → Heap α → SingleLinkedList → I → I → Except Fault (Heap α × SingleLinkedList)
  | 0, _, _, _, _ => .error .fuel
  | fuel + 1, h, l, it, second =>
    if ops.ne it second then do
      let v ← ops.star h it
      let (h1, l1) ← SingleLinkedList.PushFront h l v
      let it1 ← ops.inc h1 it
      SingleLinkedList.rangeLoop ops fuel h1 l1 it1 second
    else pure (h, l)

/-- The constructor `SingleLinkedList(It first, It second)`. -/
def SingleLinkedList.rangeCtor {α I : Type} [Inhabited α] (ops : InputIt α I) (fuel : Nat)
    (h : Heap α) (first second : I) : Except Fault (Heap α × SingleLinkedList) := do
  let (h0, l0) ← SingleLinkedList.ctor h
  let (h1, l1) ← SingleLinkedList.rangeLoop ops fuel h0 l0 first second
  SingleLinkedList.Reverse fuel h1 l1

/-- Pointers into the array of a `std::initializer_list` holding `values`. -/
def arrayIt {α : Type} (values : List α) : InputIt α Nat where
  ne := fun i j => i != j
  inc := fun _ i => .ok (i + 1)
  star := fun _ i =>
    match values[i]? with
    | some v => .ok v
    | none => .error .badAccess

/-- The list's own iterators as the template parameter `It`. -/
def listIt {α : Type} : InputIt α BasicIterator where
  ne := BasicIterator.ne
  inc := BasicIterator.inc
  star := BasicIterator.star

/-- The constructor from `std::initializer_list<Type>`. -/
def SingleLinkedList.initCtor {α : Type} [Inhabited α] (fuel : Nat) (h : Heap α)
    (values : List α) : Except Fault (Heap α × SingleLinkedList) :=
  SingleLinkedList.rangeCtor (arrayIt values) fuel h 0 values.length

/-- The copy constructor. -/
def SingleLinkedList.copyCtor {α : Type} [Inhabited α] (fuel : Nat) (h : Heap α)
    (other : SingleLinkedList) : Except Fault (Heap α × SingleLinkedList) := do
  let first ← SingleLinkedList.begin h other
  SingleLinkedList.rangeCtor listIt fuel h first other.end_

/-- The member `swap`: the result is the new (`this`, `other`). -/
def SingleLinkedList.swap (l other : SingleLinkedList) : SingleLinkedList × SingleLinkedList :=
  (⟨other.head_, other.size_⟩, ⟨l.head_, l.size_⟩)

/-- Copy assignment `*this = rhs`: copy, swap, and destroy the temporary.
The result is the heap and the new `*this`. -/
def SingleLinkedList.assign {α : Type} [Inhabited α] (fuel : Nat) (h : Heap α)
    (l rhs : SingleLinkedList) : Except Fault (Heap α × SingleLinkedList) := do
  let (h1, list) ← SingleLinkedList.copyCtor fuel h rhs
  let (l1, list1) := SingleLinkedList.swap l list
  let h2 ← SingleLinkedList.dtor fuel h1 list1
  pure (h2, l1)

/-- A traversal `for (it = first; it != last; ++it)` collecting `*it`. -/
def iterate {α : Type} :
    Nat → Heap α → BasicIterator → BasicIterator → Except Fault (List α)
  | 0, _, _, _ => .error .fuel
  | fuel + 1, h, it, last =>
    if it.ne last then do
      let v ← it.star h
      let it1 ← it.inc h
      let vs ← iterate fuel h it1 last
      pure (v :: vs)
    else pure []

/-- The elements met from `begin()` to `end()`. -/
def SingleLinkedList.elements {α : Type} (fuel : Nat) (h : Heap α) (l : SingleLinkedList) :
    Except Fault (List α) := do
  let first ← SingleLinkedList.begin h l
  iterate fuel h first l.end_

/-- The algorithm `std::equal(first1, last1, first2, last2)` of the standard
library on forward iterators: walk both ranges while neither is at its end,
return false at the first pair of unequal elements, and at the end tell
whether both ranges are exhausted. -/
def std_equal {α : Type} [BEq α] :
    Nat → Heap α → BasicIterator → BasicIterator → BasicIterator → BasicIterator →
      Except Fault Bool
  | 0, _, _, _, _, _ => .error .fuel
  | fuel + 1, h, first1, last1, first2, last2 =>
    if first1.ne last1 && first2.ne last2 then do
      let x ← first1.star h
      let y ← first2.star h
      if !(x == y) then pure false
      else do
        let next1 ← first1.inc h
        let next2 ← first2.inc h
        std_equal fuel h next1 last1 next2 last2
    else pure (first1.eq last1 && first2.eq last2)

/-- The free function `operator==` on two lists. -/
def operator_eq {α : Type} [BEq α] (fuel : Nat) (h : Heap α) (lhs rhs : SingleLinkedList) :
    Except Fault Bool := do
  let first1 ← SingleLinkedList.begin h lhs
  let first2 ← SingleLinkedList.begin h rhs
  std_equal fuel h first1 lhs.end_ first2 rhs.end_

/-- The free function `operator!=`. -/
def operator_ne {α : Type} [BEq α] (fuel : Nat) (h : Heap α) (lhs rhs : SingleLinkedList) :
    Except Fault Bool := do
  let e ← operator_eq fuel h lhs rhs
  pure (!e)

/-- The algorithm `std::lexicographical_compare(first1, last1, first2, last2)`
of the standard library: walk both ranges while neither is at its end, return
true at the first pair with `*first1 < *first2` and false at the first pair
with `*first2 < *first1`; at the end tell whether only the first range is
exhausted.  The element type's `operator<` is the argument `lt`. -/
def std_lexicographical_compare {α : Type} (lt : α → α → Bool) :
    Nat → Heap α → BasicIterator → BasicIterator → BasicIterator → BasicIterator →
      Except Fault Bool
  | 0, _, _, _, _, _ => .error .fuel
  | fuel + 1, h, first1, last1, first2, last2 =>
    if first1.ne last1 && first2.ne last2 then do
      let x ← first1.star h
      let y ← first2.star h
      if lt x y then pure true
      else if lt y x then pure false
      else do
        let next1 ← first1.inc h
        let next2 ← first2.inc h
        std_lexicographical_compare lt fuel h next1 last1 next2 last2
    else pure (first1.eq last1 && first2.ne last2)

/-- The free function `operator<` on two lists. -/
def operator_lt {α : Type} (lt : α → α → Bool) (fuel : Nat) (h : Heap α)
    (lhs rhs : SingleLinkedList) : Except Fault Bool := do
  let first1 ← SingleLinkedList.begin h lhs
  let first2 ← SingleLinkedList.begin h rhs
  std_lexicographical_compare lt fuel h first1 lhs.end_ first2 rhs.end_

/-- The free function `operator<=`: `lhs < rhs || lhs == rhs`. -/
def operator_le {α : Type} [BEq α] (lt : α → α → Bool) (fuel : Nat) (h : Heap α)
    (lhs rhs : SingleLinkedList) : Except Fault Bool := do
  let b ← operator_lt lt fuel h lhs rhs
  if b then pure true else operator_eq fuel h lhs rhs

/-- The free function `operator>`: `rhs < lhs`. -/
def operator_gt {α : Type} (lt : α → α → Bool) (fuel : Nat) (h : Heap α)
    (lhs rhs : SingleLinkedList) : Except Fault Bool :=
  operator_lt lt fuel h rhs lhs

/-- The free function `operator>=`: `rhs < lhs || lhs == rhs`. -/
def operator_ge {α : Type} [BEq α] (lt : α → α → Bool) (fuel : Nat) (h : Heap α)
    (lhs rhs : SingleLinkedList) : Except Fault Bool := do
  let b ← operator_lt lt fuel h rhs lhs
  if b then pure true else operator_eq fuel h lhs rhs

/-- The list objects of a program, by variable number; two references may
name the same variable. -/
abbrev Store := Nat → SingleLinkedList

/-- Assignment to the variable `i`. -/
def Store.set (σ : Store) (i : Nat) (l : SingleLinkedList) : Store :=
  fun j => if j = i then l else σ j

/-- The member `swap` on references: `this` is the variable `i` and `other`
the variable `j`.  Each `std::swap(x, y)` is `tmp = x; x = y; y = tmp`. -/
def Store.swap (σ : Store) (i j : Nat) : Store :=
  let tmp := (σ i).head_
  let σ1 := σ.set i { σ i with head_ := (σ j).head_ }
  let σ2 := σ1.set j { σ1 j with head_ := tmp }
  let tmp2 := (σ2 i).size_
  let σ3 := σ2.set i { σ2 i with size_ := (σ2 j).size_ }
  σ3.set j { σ3 j with size_ := tmp2 }

/-- The free function `swap(lhs, rhs)`: `lhs.swap(rhs)`. -/
def swap (σ : Store) (lhs rhs : Nat) : Store := σ.swap lhs rhs

/-- A call of one of the mutating member functions. -/
inductive Mutation (α : Type) where
  | pushFront (value : α)
  | popFront
  | insertAfter (pos : BasicIterator) (value : α)
  | eraseAfter (pos : BasicIterator)
  | clear
  | reverse

/-- Run a mutating call on the list object `l`. -/
def Mutation.run {α : Type} (fuel : Nat) (h : Heap α) (l : SingleLinkedList) :
    Mutation α → Except Fault (Heap α × SingleLinkedList)
  | .pushFront v => SingleLinkedList.PushFront h l v
  | .popFront => SingleLinkedList.PopFront h l
  | .insertAfter pos v => (SingleLinkedList.InsertAfter h l pos v).map (fun r => (r.1, r.2.1))
  | .eraseAfter pos => (SingleLinkedList.EraseAfter h l pos).map (fun r => (r.1, r.2.1))
  | .clear => SingleLinkedList.Clear fuel h l
  | .reverse => SingleLinkedList.Reverse fuel h l

/-! ## Representation predicates -/

/-- The nodes `ns` (address and value, in order) are linked from `p` up to `q`. -/
def Seg {α : Type} (h : Heap α) : Ptr → List (Nat × α) → Ptr → Prop
  | p, [], q => p = q
  | p, (a, x) :: ns, q => p = some a ∧ ∃ nx, h.read a = some ⟨x, nx⟩ ∧ Seg h nx ns q

/-- The list object `l` owns the sentinel and, behind it, exactly the real
nodes `ns`, and `size_` counts them. -/
def Rep {α : Type} (h : Heap α) (l : SingleLinkedList) (ns : List (Nat × α)) : Prop :=
  ∃ hd sv, l.head_ = some hd ∧ Seg h (some hd) ((hd, sv) :: ns) none ∧ l.size_ = ns.length

/-- The addresses of a run of nodes. -/
def addrs {α : Type} (ns : List (Nat × α)) : List Nat := ns.map Prod.fst

/-- The values of a run of nodes. -/
def vals {α : Type} (ns : List (Nat × α)) : List α := ns.map Prod.snd

/-- The list invariant: the stored count equals the number of real nodes
reachable from the sentinel, and the sentinel's next edge is null exactly
when the count is zero. -/
def Inv {α : Type} (h : Heap α) (l : SingleLinkedList) : Prop :=
  ∃ hd sn, ∃ ns : List (Nat × α), l.head_ = some hd ∧ h.read hd = some sn
    ∧ Seg h sn.next_node ns none ∧ l.size_ = ns.length
    ∧ (sn.next_node = none ↔ l.size_ = 0)

/-- The cells a list object owns: its sentinel and its real nodes. -/
def footprint {α : Type} (l : SingleLinkedList) (ns : List (Nat × α)) : List Nat :=
  l.head_.toList ++ addrs ns

/-- From `h` to `h2` no cell was freed or moved, and the cells that lived in
`h` outside `F` are unchanged. -/
def Frame {α : Type} (h h2 : Heap α) (F : List Nat) : Prop :=
  h.cells.length ≤ h2.cells.length ∧
    ∀ c, c < h.cells.length → c ∉ F → h2.read c = h.read c

/-- The iterator to the real node of index `k` (from 0); `end()` when there is none. -/
def iterTo {α : Type} (ns : List (Nat × α)) (k : Nat) : BasicIterator :=
  ⟨(ns[k]?).map Prod.fst⟩

/-- The position that lies after exactly `k` elements: `before_begin()` for
`k = 0`, else the iterator to the real node of index `k - 1`. -/
def posAfter {α : Type} (l : SingleLinkedList) (ns : List (Nat × α)) : Nat → BasicIterator
  | 0 => l.before_begin
  | k + 1 => iterTo ns k

/-- The order `<` of the elements lifted to sequences: decided at the first
index where one element is less than the other, else the shorter sequence
is less. -/
def lexLess {α : Type} (lt : α → α → Bool) : List α → List α → Bool
  | [], [] => false
  | [], _ :: _ => true
  | _ :: _, [] => false
  | x :: xs, y :: ys => if lt x y then true else if lt y x then false else lexLess lt xs ys

/-- Two sequences have the same length and elements that are `==` index by index. -/
def seqEq {α : Type} [BEq α] : List α → List α → Bool
  | [], [] => true
  | x :: xs, y :: ys => (x == y) && seqEq xs ys
  | _, _ => false

/-- An element type whose `==` is not reflexive: `nan` is equal to nothing,
itself included, as the NaN of `double`; the other values compare by their
number. -/
inductive Num where
  | nan
  | val (n : Nat)
deriving DecidableEq

/-- The `operator==` of `Num`. -/
def Num.eq : Num → Num → Bool
  | .val m, .val n => m == n
  | _, _ => false

instance instBEqNum : BEq Num := ⟨Num.eq⟩

instance instInhabitedNum : Inhabited Num := ⟨Num.val 0⟩

/-- The order `<` of `Nat` as an element `operator<`. -/
def natLt (x y : Nat) : Bool := decide (x < y)

/-- A call takes a position of the list it is made on, one that satisfies
the precondition of the call. -/
def Mutation.valid {α : Type} (l : SingleLinkedList) (ns : List (Nat × α)) :
    Mutation α → Prop
  | .insertAfter pos _ => ∃ k, k ≤ ns.length ∧ pos = posAfter l ns k
  | .eraseAfter pos => ∃ k, k < ns.length ∧ pos = posAfter l ns k
  | _ => True

/-- A heap holding one list, `[1, 2, 3]`: the sentinel at address 0 and the
real nodes at the addresses 3, 2, 1, as three `PushFront` calls leave them. -/
def heap123 : Heap Nat :=
  ⟨[some ⟨0, some 3⟩, some ⟨3, none⟩, some ⟨2, some 1⟩, some ⟨1, some 2⟩], by decide⟩

/-- The list object of `heap123`. -/
def list123 : SingleLinkedList := ⟨some 0, 3⟩

/-- The real nodes of `list123`. -/
def nodes123 : List (Nat × Nat) := [(3, 1), (2, 2), (1, 3)]

/-- A heap holding one empty list: only the sentinel, at address 0. -/
def heapNil : Heap Nat := ⟨[some ⟨0, none⟩], by decide⟩

/-- The list object of `heapNil`. -/
def listNil : SingleLinkedList := ⟨some 0, 0⟩

/-- A heap holding two lists: `[1, 2]` behind the sentinel at address 0 and
`[7]` behind the sentinel at address 3. -/
def heapTwo : Heap Nat :=
  ⟨[some ⟨0, some 1⟩, some ⟨1, some 2⟩, some ⟨2, none⟩, some ⟨0, some 4⟩, some ⟨7, none⟩],
    by decide⟩

def listA : SingleLinkedList := ⟨some 0, 2⟩

def nodesA : List (Nat × Nat) := [(1, 1), (2, 2)]

def listB : SingleLinkedList := ⟨some 3, 1⟩

def nodesB : List (Nat × Nat) := [(4, 7)]

/-- A store whose variable 0 is `listA` and whose other variables are `listB`. -/
def storeAB : Store := fun i => if i = 0 then listA else listB

open SingleLinkedList

/-! ## Lemmas on the memory model -/

theorem Heap.read_lt {α : Type} (h : Heap α) (a : Nat) (n : Node α)
    (hr : h.read a = some n) : a < h.cells.length := by
  by_contra hge
  have : h.cells[a]? = none := List.getElem?_eq_none (Nat.le_of_not_lt hge)
  simp [Heap.read, this] at hr

theorem Heap.read_ge {α : Type} (h : Heap α) (a : Nat) (hge : h.cells.length ≤ a) :
    h.read a = none := by
  simp [Heap.read, List.getElem?_eq_none hge]

theorem Heap.length_write {α : Type} (h : Heap α) (a : Nat) (c : Option (Node α)) :
    (h.write a c).cells.length = h.cells.length := by
  simp [Heap.write]

theorem Heap.read_write_same {α : Type} (h : Heap α) (a : Nat) (c : Option (Node α))
    (ha : a < h.cells.length) : (h.write a c).read a = c := by
  simp [Heap.read, Heap.write, List.getElem?_set_self, ha]

theorem Heap.read_write_other {α : Type} (h : Heap α) (a b : Nat) (c : Option (Node α))
    (hne : b ≠ a) : (h.write a c).read b = h.read b := by
  simp [Heap.read, Heap.write, List.getElem?_set_ne (Ne.symm hne)]

theorem Heap.length_push {α : Type} (h : Heap α) (n : Node α)
    (hlt : h.cells.length < addrSpace) :
    (h.push n hlt).cells.length = h.cells.length + 1 := by
  simp [Heap.push]

theorem Heap.read_push_new {α : Type} (h : Heap α) (n : Node α)
    (hlt : h.cells.length < addrSpace) :
    (h.push n hlt).read h.cells.length = some n := by
  simp [Heap.read, Heap.push]

theorem Heap.read_push_old {α : Type} (h : Heap α) (n : Node α)
    (hlt : h.cells.length < addrSpace) (b : Nat) (hb : b ≠ h.cells.length) :
    (h.push n hlt).read b = h.read b := by
  rcases Nat.lt_or_ge b h.cells.length with hl | hg
  · simp [Heap.read, Heap.push, List.getElem?_append_left hl]
  · have hgt : h.cells.length + 1 ≤ b := by omega
    rw [Heap.read_ge h b hg]
    apply Heap.read_ge
    rw [Heap.length_push]; exact hgt

theorem deref_of_read {α : Type} (h : Heap α) (a : Nat) (n : Node α)
    (hr : h.read a = some n) : deref h (some a) = .ok n := by
  simp [deref, hr]

theorem setNext_of_read {α : Type} (h : Heap α) (a : Nat) (n : Node α) (nx : Ptr)
    (hr : h.read a = some n) :
    setNext h (some a) nx = .ok (h.write a (some ⟨n.value, nx⟩)) := by
  simp [setNext, hr]

theorem delete_of_read {α : Type} (h : Heap α) (a : Nat) (n : Node α)
    (hr : h.read a = some n) : delete h (some a) = .ok (h.write a none) := by
  simp [delete, hr]

theorem new_of_lt {α : Type} (h : Heap α) (n : Node α) (hlt : h.cells.length < addrSpace) :
    new h n = .ok (h.push n hlt, h.cells.length) := by
  simp [new, hlt]

/-! ## Lemmas on linked runs of nodes -/

theorem Seg_frame {α : Type} (h h2 : Heap α) (ns : List (Nat × α)) (p q : Ptr)
    (hfr : ∀ a ∈ addrs ns, h2.read a = h.read a) (hs : Seg h p ns q) : Seg h2 p ns q := by
  induction ns generalizing p with
  | nil => exact hs
  | cons n ns ih =>
    obtain ⟨a, x⟩ := n
    obtain ⟨hp, nx, hr, htl⟩ := hs
    refine ⟨hp, nx, ?_, ih nx ?_ htl⟩
    · rw [hfr a (by simp [addrs])]; exact hr
    · intro b hb
      exact hfr b (by simp only [addrs, List.map_cons, List.mem_cons]; right; exact hb)

theorem Seg_append {α : Type} (h : Heap α) (ns ms : List (Nat × α)) (p q : Ptr) :
    Seg h p (ns ++ ms) q ↔ ∃ m, Seg h p ns m ∧ Seg h m ms q := by
  induction ns generalizing p with
  | nil =>
    constructor
    · intro hs; exact ⟨p, rfl, hs⟩
    · rintro ⟨m, hm, hs⟩
      have : p = m := hm
      subst this; exact hs
  | cons n ns ih =>
    obtain ⟨a, x⟩ := n
    constructor
    · rintro ⟨hp, nx, hr, htl⟩
      obtain ⟨m, h1, h2⟩ := (ih nx).1 htl
      exact ⟨m, ⟨hp, nx, hr, h1⟩, h2⟩
    · rintro ⟨m, ⟨hp, nx, hr, h1⟩, h2⟩
      exact ⟨hp, nx, hr, (ih nx).2 ⟨m, h1, h2⟩⟩

theorem Seg_addr_lt {α : Type} (h : Heap α) (ns : List (Nat × α)) (p q : Ptr)
    (hs : Seg h p ns q) : ∀ a ∈ addrs ns, a < h.cells.length := by
  induction ns generalizing p with
  | nil => intro a ha; simp [addrs] at ha
  | cons n ns ih =>
    obtain ⟨b, x⟩ := n
    obtain ⟨_, nx, hr, htl⟩ := hs
    intro a ha
    simp only [addrs, List.map_cons, List.mem_cons] at ha
    rcases ha with rfl | ha
    · exact Heap.read_lt h _ _ hr
    · exact ih nx htl a ha

/-- A null-terminated run is determined by its first pointer. -/
theorem Seg_unique {α : Type} (h : Heap α) (ns ms : List (Nat × α)) (p : Ptr)
    (h1 : Seg h p ns none) (h2 : Seg h p ms none) : ns = ms := by
  induction ns generalizing p ms with
  | nil =>
    have hp : p = none := h1
    cases ms with
    | nil => rfl
    | cons m ms =>
      obtain ⟨b, y⟩ := m
      obtain ⟨hq, _⟩ := h2
      rw [hp] at hq; cases hq
  | cons n ns ih =>
    obtain ⟨a, x⟩ := n
    obtain ⟨hp, nx, hr, htl⟩ := h1
    cases ms with
    | nil =>
      have hq : p = none := h2
      rw [hp] at hq; cases hq
    | cons m ms =>
      obtain ⟨b, y⟩ := m
      obtain ⟨hq, ny, hr2, htl2⟩ := h2
      rw [hp] at hq
      have hab : a = b := Option.some.inj hq
      subst hab
      rw [hr] at hr2
      have hn : (⟨x, nx⟩ : Node α) = ⟨y, ny⟩ := Option.some.inj hr2
      have hx : x = y := congrArg Node.value hn
      have hnx : nx = ny := congrArg Node.next_node hn
      subst hx; subst hnx
      rw [ih ms nx htl htl2]

/-- A null-terminated run visits no address twice. -/
theorem Seg_nodup {α : Type} (h : Heap α) (ns : List (Nat × α)) (p : Ptr)
    (hs : Seg h p ns none) : (addrs ns).Nodup := by
  induction ns generalizing p with
  | nil => simp [addrs]
  | cons n ns ih =>
    obtain ⟨a, x⟩ := n
    obtain ⟨hp, nx, hr, htl⟩ := hs
    simp only [addrs, List.map_cons, List.nodup_cons]
    refine ⟨?_, ih nx htl⟩
    intro hmem
    obtain ⟨⟨a2, y⟩, hin, ha2⟩ := List.mem_map.1 hmem
    simp only at ha2
    subst ha2
    obtain ⟨l1, l2, hsplit⟩ := List.append_of_mem hin
    rw [hsplit] at htl
    obtain ⟨m, _, hm2⟩ := (Seg_append h l1 ((a2, y) :: l2) nx none).1 htl
    obtain ⟨_, ny, hr2, htl2⟩ := hm2
    rw [hr] at hr2
    have hnx : nx = ny := congrArg Node.next_node (Option.some.inj hr2)
    subst hnx
    have hsame := Seg_unique h l2 ns nx htl2 (by
      have := (Seg_append h l1 ((a2, y) :: l2) nx none).2 ⟨m, by assumption, ⟨by assumption, nx, by rw [hr]; exact hr2 ▸ rfl, htl2⟩⟩
      rw [← hsplit] at this; exact this)
    have hlen := congrArg List.length hsplit
    rw [← hsame] at hlen
    simp at hlen
    omega

/-! ## The member functions on a well-formed chain -/

theorem nodup_length_le (l : List Nat) (N : Nat) (hnd : l.Nodup) (hlt : ∀ a ∈ l, a < N) :
    l.length ≤ N := by
  have hsub : l ⊆ List.range N := fun a ha => List.mem_range.2 (hlt a ha)
  have := (List.subperm_of_subset hnd hsub).length_le
  simpa using this

theorem iterate_Seg {α : Type} (h : Heap α) (ns : List (Nat × α)) (p : Ptr) (fuel : Nat)
    (hs : Seg h p ns none) (hf : ns.length < fuel) :
    iterate fuel h ⟨p⟩ ⟨none⟩ = .ok (vals ns) := by
  induction ns generalizing p fuel with
  | nil =>
    have hp : p = none := hs
    subst hp
    cases fuel with
    | zero => simp at hf
    | succ k => simp [iterate, BasicIterator.ne, vals, pure, Except.pure]
  | cons n ns ih =>
    obtain ⟨a, x⟩ := n
    obtain ⟨hp, nx, hr, htl⟩ := hs
    subst hp
    cases fuel with
    | zero => simp at hf
    | succ k =>
      have hk : ns.length < k := by simpa using hf
      simp [iterate, BasicIterator.ne, BasicIterator.star, BasicIterator.inc,
        deref_of_read h a _ hr, ih nx k htl hk, vals, bind, Except.bind, pure, Except.pure]

theorem nodup_mid {α : Type} (pre post : List (Nat × α)) (a : Nat) (x : α)
    (hnd : (addrs (pre ++ (a, x) :: post)).Nodup) : a ∉ addrs pre ∧ a ∉ addrs post := by
  simp only [addrs, List.map_append, List.map_cons] at hnd
  have h1 := List.nodup_middle.1 hnd
  rw [List.nodup_cons] at h1
  simp only [List.mem_append, not_or] at h1
  exact h1.1

theorem InsertAfter_run {α : Type} (h : Heap α) (l : SingleLinkedList) (p : Ptr)
    (pre post : List (Nat × α)) (a : Nat) (x v : α)
    (hs : Seg h p (pre ++ (a, x) :: post) none) (hroom : h.cells.length < addrSpace) :
    ∃ h2, InsertAfter h l ⟨some a⟩ v
        = .ok (h2, { l with size_ := incr l.size_ }, ⟨some h.cells.length⟩)
      ∧ Seg h2 p (pre ++ (a, x) :: (h.cells.length, v) :: post) none
      ∧ h2.cells.length = h.cells.length + 1
      ∧ ∀ c, c < h.cells.length → c ≠ a → h2.read c = h.read c := by
  have hnd := Seg_nodup h _ p hs
  have hlt := Seg_addr_lt h _ p none hs
  obtain ⟨m, hpre, hmid⟩ := (Seg_append h pre _ p none).1 hs
  obtain ⟨hm, nx, hr, hpost⟩ := hmid
  have ha : a < h.cells.length := Heap.read_lt h a _ hr
  have hr1 : (h.push ⟨v, nx⟩ hroom).read a = some ⟨x, nx⟩ := by
    rw [Heap.read_push_old h _ hroom a (Nat.ne_of_lt ha)]; exact hr
  refine ⟨(h.push ⟨v, nx⟩ hroom).write a (some ⟨x, some h.cells.length⟩), ?_, ?_, ?_, ?_⟩
  · simp [InsertAfter, deref_of_read h a _ hr, new_of_lt h _ hroom,
      setNext_of_read _ a _ _ hr1, bind, Except.bind, pure, Except.pure]
  · have hfr : ∀ c, c < h.cells.length → c ≠ a →
        ((h.push ⟨v, nx⟩ hroom).write a (some ⟨x, some h.cells.length⟩)).read c = h.read c := by
      intro c hc hca
      rw [Heap.read_write_other _ a c _ hca, Heap.read_push_old h _ hroom c (Nat.ne_of_lt hc)]
    obtain ⟨hapre, hapost⟩ := nodup_mid pre post a x hnd
    refine (Seg_append _ pre _ p none).2 ⟨m, ?_, hm, some h.cells.length, ?_, rfl, nx, ?_, ?_⟩
    · refine Seg_frame h _ pre p m (fun c hc => hfr c (hlt c ?_) ?_) hpre
      · simp only [addrs, List.map_append, List.mem_append]; left; exact hc
      · rintro rfl; exact hapre hc
    · rw [Heap.read_write_same]
      rw [Heap.length_push]; omega
    · rw [Heap.read_write_other _ a _ _ (Nat.ne_of_gt ha), Heap.read_push_new]
    · refine Seg_frame h _ post nx none (fun c hc => hfr c (hlt c ?_) ?_) hpost
      · simp only [addrs, List.map_append, List.map_cons, List.mem_append, List.mem_cons]
        right; right; exact hc
      · rintro rfl; exact hapost hc
  · rw [Heap.length_write, Heap.length_push]
  · intro c hc hca
    rw [Heap.read_write_other _ a c _ hca, Heap.read_push_old h _ hroom c (Nat.ne_of_lt hc)]

theorem Seg_first {α : Type} (h : Heap α) (ns : List (Nat × α)) (p q : Ptr)
    (hs : Seg h p ns q) (hne : ns ≠ []) : p = (ns.head?).map Prod.fst := by
  cases ns with
  | nil => exact absurd rfl hne
  | cons n ns =>
    obtain ⟨a, x⟩ := n
    exact hs.1

theorem Seg_first_null {α : Type} (h : Heap α) (ns : List (Nat × α)) (p : Ptr)
    (hs : Seg h p ns none) : p = (ns.head?).map Prod.fst := by
  cases ns with
  | nil => exact hs
  | cons n ns => exact Seg_first h _ p none hs (by simp)

theorem EraseAfter_run {α : Type} (h : Heap α) (l : SingleLinkedList) (p : Ptr)
    (pre post : List (Nat × α)) (a b : Nat) (x y : α)
    (hs : Seg h p (pre ++ (a, x) :: (b, y) :: post) none) :
    ∃ h2, EraseAfter h l ⟨some a⟩
        = .ok (h2, { l with size_ := decr l.size_ }, ⟨(post.head?).map Prod.fst⟩)
      ∧ Seg h2 p (pre ++ (a, x) :: post) none
      ∧ h2.cells.length = h.cells.length
      ∧ h2.read b = none
      ∧ ∀ c, c ≠ a → c ≠ b → h2.read c = h.read c := by
  have hnd := Seg_nodup h _ p hs
  obtain ⟨m, hpre, hmid⟩ := (Seg_append h pre _ p none).1 hs
  obtain ⟨hm, nx, hr, hmid2⟩ := hmid
  obtain ⟨hnx, nxb, hrb, hpost⟩ := hmid2
  subst hnx
  have ha : a < h.cells.length := Heap.read_lt h a _ hr
  have hb : b < h.cells.length := Heap.read_lt h b _ hrb
  obtain ⟨hapre, hapost⟩ := nodup_mid pre ((b, y) :: post) a x hnd
  have hba : b ≠ a := by
    rintro rfl; exact hapost (by simp [addrs])
  have hnd2 : (addrs ((pre ++ [(a, x)]) ++ (b, y) :: post)).Nodup := by
    simpa using hnd
  obtain ⟨hbpre, hbpost⟩ := nodup_mid (pre ++ [(a, x)]) post b y hnd2
  have hr1 : (h.write a (some ⟨x, nxb⟩)).read b = some ⟨y, nxb⟩ := by
    rw [Heap.read_write_other _ a b _ hba]; exact hrb
  have hr2 : ((h.write a (some ⟨x, nxb⟩)).write b none).read a = some ⟨x, nxb⟩ := by
    rw [Heap.read_write_other _ b a _ (Ne.symm hba), Heap.read_write_same _ _ _ ha]
  have hfr : ∀ c, c ≠ a → c ≠ b →
      ((h.write a (some ⟨x, nxb⟩)).write b none).read c = h.read c := by
    intro c hca hcb
    rw [Heap.read_write_other _ b c _ hcb, Heap.read_write_other _ a c _ hca]
  have hit : nxb = (post.head?).map Prod.fst := Seg_first_null h post nxb hpost
  refine ⟨(h.write a (some ⟨x, nxb⟩)).write b none, ?_, ?_, ?_, ?_, hfr⟩
  · rw [← hit]
    simp [EraseAfter, deref_of_read h a _ hr, deref_of_read h b _ hrb,
      setNext_of_read h a _ nxb hr, delete_of_read _ b _ hr1, deref_of_read _ a _ hr2,
      bind, Except.bind, pure, Except.pure]
  · refine (Seg_append _ pre _ p none).2 ⟨m, ?_, hm, nxb, hr2, ?_⟩
    · refine Seg_frame h _ pre p m (fun c hc => hfr c ?_ ?_) hpre
      · rintro rfl; exact hapre hc
      · rintro rfl; exact hbpre (by simp only [addrs, List.map_append, List.mem_append]; left; exact hc)
    · refine Seg_frame h _ post nxb none (fun c hc => hfr c ?_ ?_) hpost
      · rintro rfl
        exact hapost (by simp only [addrs, List.map_cons, List.mem_cons]; right; exact hc)
      · rintro rfl; exact hbpost hc
  · rw [Heap.length_write, Heap.length_write]
  · rw [Heap.read_write_same]
    rw [Heap.length_write]; exact hb

theorem Rep_room {α : Type} (h : Heap α) (l : SingleLinkedList) (ns : List (Nat × α))
    (hrep : Rep h l ns) : ns.length + 1 ≤ h.cells.length := by
  obtain ⟨hd, sv, _, hs, _⟩ := hrep
  have h1 := nodup_length_le _ h.cells.length (Seg_nodup h _ _ hs) (Seg_addr_lt h _ _ _ hs)
  simpa [addrs] using h1

theorem incr_of_lt (s : Nat) (hs : s + 1 < addrSpace) : incr s = s + 1 := by
  unfold incr; exact Nat.mod_eq_of_lt hs

theorem decr_succ (s : Nat) (hs : s + 1 < addrSpace) : decr (s + 1) = s := by
  unfold decr
  have h1 : s + 1 + (addrSpace - 1) = s + addrSpace := by omega
  rw [h1, Nat.add_mod_right]
  exact Nat.mod_eq_of_lt (by omega)

theorem ctor_Rep {α : Type} [Inhabited α] (h : Heap α) (hroom : h.cells.length < addrSpace) :
    ∃ h2 : Heap α, SingleLinkedList.ctor h = .ok (h2, ⟨some h.cells.length, 0⟩)
      ∧ Rep h2 ⟨some h.cells.length, 0⟩ ([] : List (Nat × α))
      ∧ h2.cells.length = h.cells.length + 1
      ∧ Frame h h2 [] := by
  refine ⟨h.push ⟨default, none⟩ hroom, ?_, ?_, Heap.length_push _ _ _, ?_, ?_⟩
  · simp [SingleLinkedList.ctor, new_of_lt h _ hroom, bind, Except.bind, pure, Except.pure]
  · exact ⟨h.cells.length, default, rfl, ⟨rfl, none, Heap.read_push_new _ _ _, rfl⟩, rfl⟩
  · rw [Heap.length_push]; omega
  · intro c hc _
    exact Heap.read_push_old h _ hroom c (Nat.ne_of_lt hc)

theorem InsertAfter_Rep {α : Type} (h : Heap α) (l : SingleLinkedList) (ns : List (Nat × α))
    (k : Nat) (v : α) (hrep : Rep h l ns) (hk : k ≤ ns.length)
    (hroom : h.cells.length < addrSpace) :
    ∃ h2 l2, InsertAfter h l (posAfter l ns k) v = .ok (h2, l2, ⟨some h.cells.length⟩)
      ∧ Rep h2 l2 (ns.take k ++ (h.cells.length, v) :: ns.drop k)
      ∧ l2.size_ = l.size_ + 1 ∧ l2.head_ = l.head_
      ∧ h2.cells.length = h.cells.length + 1
      ∧ Frame h h2 (footprint l ns) := by
  have hlen := Rep_room h l ns hrep
  obtain ⟨hd, sv, hl, hs, hsz⟩ := hrep
  have hincr : incr l.size_ = l.size_ + 1 := incr_of_lt _ (by omega)
  cases k with
  | zero =>
    obtain ⟨h2, hrun, hseg, hlen2, hfr⟩ :=
      InsertAfter_run h l (some hd) [] ns hd sv v hs hroom
    refine ⟨h2, { l with size_ := incr l.size_ }, ?_, ⟨hd, sv, hl, hseg, ?_⟩, hincr, rfl,
      hlen2, ?_, ?_⟩
    · have hpos : posAfter l ns 0 = ⟨some hd⟩ := by simp [posAfter, before_begin, hl]
      rw [hpos]; exact hrun
    · show incr l.size_ = _
      rw [hincr, hsz]; simp
    · omega
    · intro c hc hnot
      refine hfr c hc ?_
      rintro rfl
      exact hnot (by simp [footprint, hl])
  | succ j =>
    have hj : j < ns.length := hk
    have hsplit : ns = ns.take j ++ ns[j] :: ns.drop (j + 1) := by
      rw [← List.drop_eq_getElem_cons hj, List.take_append_drop]
    have hs2 : Seg h (some hd) (((hd, sv) :: ns.take j) ++ (ns[j].1, ns[j].2) :: ns.drop (j + 1))
        none := by
      have : ((hd, sv) :: ns.take j) ++ (ns[j].1, ns[j].2) :: ns.drop (j + 1) = (hd, sv) :: ns := by
        rw [List.cons_append, ← hsplit]
      rw [this]; exact hs
    obtain ⟨h2, hrun, hseg, hlen2, hfr⟩ :=
      InsertAfter_run h l (some hd) ((hd, sv) :: ns.take j) (ns.drop (j + 1)) ns[j].1 ns[j].2 v
        hs2 hroom
    refine ⟨h2, { l with size_ := incr l.size_ }, ?_, ⟨hd, sv, hl, ?_, ?_⟩, hincr, rfl,
      hlen2, ?_, ?_⟩
    · simp only [posAfter, iterTo, List.getElem?_eq_getElem hj, Option.map_some']; exact hrun
    · have : (hd, sv) :: (ns.take (j + 1) ++ (h.cells.length, v) :: ns.drop (j + 1))
          = ((hd, sv) :: ns.take j) ++ (ns[j].1, ns[j].2) :: (h.cells.length, v)
              :: ns.drop (j + 1) := by
        rw [List.take_succ, List.getElem?_eq_getElem hj]
        simp only [Option.toList, List.append_assoc, List.cons_append, List.singleton_append,
          List.nil_append]
      rw [this]; exact hseg
    · simp only [List.length_append, List.length_take, List.length_cons, List.length_drop]
      rw [hincr, hsz]; omega
    · omega
    · intro c hc hnot
      refine hfr c hc ?_
      rintro rfl
      apply hnot
      simp only [footprint, addrs, List.mem_append, List.mem_map]
      right
      exact ⟨ns[j], List.getElem_mem hj, rfl⟩

theorem PushFront_eq_InsertAfter {α : Type} (h : Heap α) (l : SingleLinkedList) (v : α)
    (hd : Nat) (hl : l.head_ = some hd) :
    PushFront h l v = (InsertAfter h l l.before_begin v).map (fun r => (r.1, r.2.1)) := by
  simp only [PushFront, InsertAfter, before_begin, hl]
  cases deref h (some hd) with
  | error e => rfl
  | ok n =>
    simp only [bind, Except.bind]
    cases new h ⟨v, n.next_node⟩ with
    | error e => rfl
    | ok r =>
      obtain ⟨h1, a⟩ := r
      simp only
      cases setNext h1 (some hd) (some a) with
      | error e => rfl
      | ok h2 => rfl

theorem PushFront_Rep {α : Type} (h : Heap α) (l : SingleLinkedList) (ns : List (Nat × α))
    (v : α) (hrep : Rep h l ns) (hroom : h.cells.length < addrSpace) :
    ∃ h2 l2, PushFront h l v = .ok (h2, l2)
      ∧ Rep h2 l2 ((h.cells.length, v) :: ns)
      ∧ l2.size_ = l.size_ + 1 ∧ l2.head_ = l.head_
      ∧ h2.cells.length = h.cells.length + 1
      ∧ Frame h h2 (footprint l ns) := by
  obtain ⟨h2, l2, hrun, hrep2, hsz, hhd, hlen, hfr⟩ :=
    InsertAfter_Rep h l ns 0 v hrep (Nat.zero_le _) hroom
  obtain ⟨hd, _, hl, _, _⟩ := hrep
  refine ⟨h2, l2, ?_, by simpa using hrep2, hsz, hhd, hlen, hfr⟩
  rw [PushFront_eq_InsertAfter h l v hd hl]
  simp only [posAfter] at hrun
  rw [hrun]; rfl

theorem split_two {β : Type} (xs : List β) (k : Nat) (hk : k + 1 < xs.length) :
    xs = xs.take k ++ xs[k] :: xs[k + 1] :: xs.drop (k + 2) := by
  have h1 : xs.drop k = xs[k] :: xs.drop (k + 1) := List.drop_eq_getElem_cons (by omega)
  have h2 : xs.drop (k + 1) = xs[k + 1] :: xs.drop (k + 2) := List.drop_eq_getElem_cons hk
  rw [← h2, ← h1, List.take_append_drop]

theorem posAfter_node {α : Type} (l : SingleLinkedList) (ns : List (Nat × α)) (hd : Nat) (sv : α)
    (k : Nat) (hl : l.head_ = some hd) (hk : k < ((hd, sv) :: ns).length) :
    posAfter l ns k = ⟨some (((hd, sv) :: ns)[k]).1⟩ := by
  cases k with
  | zero => simp [posAfter, before_begin, hl]
  | succ j =>
    have hj : j < ns.length := by simpa using hk
    simp [posAfter, iterTo, List.getElem?_eq_getElem hj]

theorem EraseAfter_Rep {α : Type} (h : Heap α) (l : SingleLinkedList) (ns : List (Nat × α))
    (k : Nat) (hrep : Rep h l ns) (hk : k < ns.length) :
    ∃ h2 l2, EraseAfter h l (posAfter l ns k) = .ok (h2, l2, iterTo ns (k + 1))
      ∧ Rep h2 l2 (ns.take k ++ ns.drop (k + 1))
      ∧ l2.size_ + 1 = l.size_ ∧ l2.head_ = l.head_
      ∧ h2.cells.length = h.cells.length
      ∧ h2.read ns[k].1 = none
      ∧ Frame h h2 (footprint l ns) := by
  have hlen := Rep_room h l ns hrep
  have hin := h.inRange
  obtain ⟨hd, sv, hl, hs, hsz⟩ := hrep
  have hk1 : k + 1 < ((hd, sv) :: ns).length := by simpa using hk
  have hdecr : decr l.size_ + 1 = l.size_ := by
    obtain ⟨m, hm⟩ : ∃ m, ns.length = m + 1 := ⟨ns.length - 1, by omega⟩
    rw [hsz, hm, decr_succ m (by omega)]
  have hsplit := split_two ((hd, sv) :: ns) k hk1
  have hb : ((hd, sv) :: ns)[k + 1] = ns[k] := by simp
  rw [hsplit] at hs
  obtain ⟨h2, hrun, hseg, hlen2, hdead, hfr⟩ :=
    EraseAfter_run h l (some hd) (((hd, sv) :: ns).take k) (((hd, sv) :: ns).drop (k + 2))
      (((hd, sv) :: ns)[k]).1 (((hd, sv) :: ns)[k + 1]).1 (((hd, sv) :: ns)[k]).2
      (((hd, sv) :: ns)[k + 1]).2 hs
  refine ⟨h2, { l with size_ := decr l.size_ }, ?_, ⟨hd, sv, hl, ?_, ?_⟩, hdecr, rfl, hlen2,
    ?_, ?_, ?_⟩
  · rw [posAfter_node l ns hd sv k hl (by omega), hrun]
    simp [iterTo, List.head?_drop]
  · have : (hd, sv) :: (ns.take k ++ ns.drop (k + 1))
        = ((hd, sv) :: ns).take k ++ ((((hd, sv) :: ns)[k]).1, (((hd, sv) :: ns)[k]).2)
            :: ((hd, sv) :: ns).drop (k + 2) := by
      have h3 : ((hd, sv) :: ns).take (k + 1) = ((hd, sv) :: ns).take k ++ [((hd, sv) :: ns)[k]] := by
        rw [List.take_succ, List.getElem?_eq_getElem (by omega)]; rfl
      have h4 : ((hd, sv) :: ns).take (k + 1) = (hd, sv) :: ns.take k := rfl
      have h5 : ((hd, sv) :: ns).drop (k + 2) = ns.drop (k + 1) := rfl
      rw [h5, ← List.cons_append, ← h4, h3]
      simp only [List.append_assoc, List.singleton_append]
    rw [this]; exact hseg
  · show decr l.size_ = _
    simp only [List.length_append, List.length_take, List.length_drop]
    omega
  · rw [← hb]; exact hdead
  · omega
  · intro c hc hnot
    refine hfr c ?_ ?_
    · rintro rfl
      apply hnot
      simp only [footprint, addrs, hl, Option.toList, List.singleton_append, ← List.map_cons]
      exact List.mem_map.2 ⟨_, List.getElem_mem (by omega), rfl⟩
    · rintro rfl
      apply hnot
      simp only [footprint, addrs, List.mem_append, List.mem_map]
      right
      exact ⟨ns[k], List.getElem_mem hk, by rw [hb]⟩

theorem PopFront_of_EraseAfter {α : Type} (h h2 : Heap α) (l l2 : SingleLinkedList)
    (it : BasicIterator) (hsz : 0 < l.size_)
    (hrun : EraseAfter h l l.before_begin = .ok (h2, l2, it)) :
    PopFront h l = .ok (h2, l2) := by
  simp only [EraseAfter, before_begin] at hrun
  simp only [PopFront, gt_iff_lt, hsz, if_true]
  cases hh : l.head_ with
  | none => simp [hh] at hrun
  | some a =>
    simp only [hh, bind, Except.bind] at hrun ⊢
    cases h1 : deref h (some a) with
    | error e => simp [h1] at hrun
    | ok n =>
      simp only [h1] at hrun ⊢
      cases hn : n.next_node with
      | none => simp [hn] at hrun
      | some b =>
        simp only [hn] at hrun ⊢
        cases h3 : deref h (some b) with
        | error e => simp [h3] at hrun
        | ok en =>
          simp only [h3] at hrun ⊢
          cases h4 : setNext h (some a) en.next_node with
          | error e => simp [h4] at hrun
          | ok hp1 =>
            simp only [h4] at hrun ⊢
            cases h5 : delete hp1 (some b) with
            | error e => simp [h5] at hrun
            | ok hp2 =>
              simp only [h5] at hrun ⊢
              cases h6 : deref hp2 (some a) with
              | error e => simp [h6] at hrun
              | ok n2 =>
                simp only [h6] at hrun
                simp only [pure, Except.pure, reduceCtorEq, if_false, Except.ok.injEq,
                  Prod.mk.injEq] at hrun ⊢
                exact ⟨hrun.1, hrun.2.1⟩

theorem PopFront_Rep {α : Type} (h : Heap α) (l : SingleLinkedList) (a : Nat) (x : α)
    (ns : List (Nat × α)) (hrep : Rep h l ((a, x) :: ns)) :
    ∃ h2 l2, PopFront h l = .ok (h2, l2)
      ∧ Rep h2 l2 ns
      ∧ l2.size_ + 1 = l.size_ ∧ l2.head_ = l.head_
      ∧ h2.cells.length = h.cells.length
      ∧ h2.read a = none
      ∧ Frame h h2 (footprint l ((a, x) :: ns)) := by
  obtain ⟨h2, l2, hrun, hrep2, hsz, hhd, hlen, hdead, hfr⟩ :=
    EraseAfter_Rep h l ((a, x) :: ns) 0 hrep (by simp)
  refine ⟨h2, l2, ?_, by simpa using hrep2, hsz, hhd, hlen, by simpa using hdead, hfr⟩
  exact PopFront_of_EraseAfter h h2 l l2 _ (by omega) hrun

theorem PopFront_empty {α : Type} (h : Heap α) (l : SingleLinkedList)
    (hrep : Rep h l ([] : List (Nat × α))) : PopFront h l = .ok (h, l) := by
  obtain ⟨_, _, _, _, hsz⟩ := hrep
  have : l.size_ = 0 := hsz
  simp [PopFront, this, pure, Except.pure]

theorem Frame_refl {α : Type} (h : Heap α) (F : List Nat) : Frame h h F :=
  ⟨Nat.le_refl _, fun _ _ _ => rfl⟩

theorem Frame_trans {α : Type} (h1 h2 h3 : Heap α) (F G : List Nat)
    (h12 : Frame h1 h2 F) (h23 : Frame h2 h3 G) (hsub : ∀ c, c < h1.cells.length → c ∈ G → c ∈ F) :
    Frame h1 h3 F := by
  refine ⟨Nat.le_trans h12.1 h23.1, fun c hc hnot => ?_⟩
  rw [h23.2 c (Nat.lt_of_lt_of_le hc h12.1) (fun hg => hnot (hsub c hc hg)), h12.2 c hc hnot]

theorem ClearLoop_Rep {α : Type} (h : Heap α) (l : SingleLinkedList) (ns : List (Nat × α))
    (fuel : Nat) (hrep : Rep h l ns) (hf : ns.length < fuel) :
    ∃ h2 l2, ClearLoop fuel h l = .ok (h2, l2, ns.length)
      ∧ Rep h2 l2 ([] : List (Nat × α))
      ∧ l2.head_ = l.head_
      ∧ h2.cells.length = h.cells.length
      ∧ (∀ a ∈ addrs ns, h2.read a = none)
      ∧ Frame h h2 (footprint l ns) := by
  induction ns generalizing h l fuel with
  | nil =>
    cases fuel with
    | zero => simp at hf
    | succ k =>
      refine ⟨h, l, ?_, hrep, rfl, rfl, by simp [addrs], Frame_refl _ _⟩
      obtain ⟨_, _, _, _, hsz⟩ := hrep
      have : l.size_ = 0 := hsz
      simp [ClearLoop, this, pure, Except.pure]
  | cons n ns ih =>
    obtain ⟨a, x⟩ := n
    cases fuel with
    | zero => simp at hf
    | succ k =>
      obtain ⟨h1, l1, hrun, hrep1, hsz, hhd, hlen, hdead, hfr⟩ := PopFront_Rep h l a x ns hrep
      obtain ⟨h2, l2, hrun2, hrep2, hhd2, hlen2, hdead2, hfr2⟩ :=
        ih h1 l1 k hrep1 (by simpa using hf)
      have hpos : 0 < l.size_ := by omega
      have hnd : (addrs ((a, x) :: ns)).Nodup := by
        obtain ⟨hd, sv, _, hs, _⟩ := hrep
        obtain ⟨_, nx, _, htl⟩ := hs
        exact Seg_nodup h _ nx htl
      refine ⟨h2, l2, ?_, hrep2, by rw [hhd2, hhd], by rw [hlen2, hlen], ?_, ?_⟩
      · simp [ClearLoop, hpos, hrun, hrun2, bind, Except.bind, pure, Except.pure]
      · intro c hc
        simp only [addrs, List.map_cons, List.mem_cons] at hc
        rcases hc with rfl | hc
        · have hnot : c ∉ footprint l1 ns := by
            intro hmem
            simp only [footprint, List.mem_append] at hmem
            rcases hmem with hm | hm
            · obtain ⟨hd, sv, hl, hs, _⟩ := hrep
              rw [hhd, hl] at hm
              have hcd : c = hd := by simpa using hm
              have := Seg_nodup h _ _ hs
              simp [addrs, hcd] at this
            · simp only [addrs, List.map_cons, List.nodup_cons] at hnd
              exact hnd.1 hm
          have hclt : c < h1.cells.length := by
            rw [hlen]
            obtain ⟨hd, sv, _, hs, _⟩ := hrep
            exact Seg_addr_lt h _ _ _ hs c (by simp [addrs])
          rw [hfr2.2 c hclt hnot]; exact hdead
        · exact hdead2 c hc
      · refine Frame_trans h h1 h2 _ _ hfr hfr2 ?_
        intro c _ hc
        simp only [footprint, List.mem_append] at hc ⊢
        rcases hc with hc | hc
        · left; rw [← hhd]; exact hc
        · right; simp only [addrs, List.map_cons, List.mem_cons]; right; exact hc

theorem ReverseLoop_run {α : Type} (h : Heap α) (cur prev : Ptr) (ns ps : List (Nat × α))
    (fuel : Nat) (hs : Seg h cur ns none) (hp : Seg h prev ps none)
    (hdisj : ∀ a ∈ addrs ns, a ∉ addrs ps) (hf : ns.length < fuel) :
    ∃ h2 q, ReverseLoop fuel h cur prev = .ok (h2, q)
      ∧ Seg h2 q (ns.reverse ++ ps) none
      ∧ h2.cells.length = h.cells.length
      ∧ ∀ c, c ∉ addrs ns → h2.read c = h.read c := by
  induction ns generalizing h cur prev ps fuel with
  | nil =>
    have hc : cur = none := hs
    subst hc
    cases fuel with
    | zero => simp at hf
    | succ k =>
      exact ⟨h, prev, by simp [ReverseLoop, pure, Except.pure], by simpa using hp, rfl,
        fun _ _ => rfl⟩
  | cons n ns ih =>
    obtain ⟨a, x⟩ := n
    have hnd := Seg_nodup h _ cur hs
    obtain ⟨hc, nx, hr, htl⟩ := hs
    subst hc
    have ha : a < h.cells.length := Heap.read_lt h a _ hr
    simp only [addrs, List.map_cons, List.nodup_cons] at hnd
    cases fuel with
    | zero => simp at hf
    | succ k =>
      have hs1 : Seg (h.write a (some ⟨x, prev⟩)) nx ns none := by
        refine Seg_frame h _ ns nx none (fun c hc => ?_) htl
        refine Heap.read_write_other h a c _ ?_
        rintro rfl; exact hnd.1 hc
      have hp1 : Seg (h.write a (some ⟨x, prev⟩)) (some a) ((a, x) :: ps) none := by
        refine ⟨rfl, prev, Heap.read_write_same h a _ ha, ?_⟩
        refine Seg_frame h _ ps prev none (fun c hc => ?_) hp
        refine Heap.read_write_other h a c _ ?_
        rintro rfl; exact hdisj c (by simp [addrs]) hc
      have hdisj1 : ∀ b ∈ addrs ns, b ∉ addrs ((a, x) :: ps) := by
        intro b hb hmem
        simp only [addrs, List.map_cons, List.mem_cons] at hmem
        rcases hmem with rfl | hmem
        · exact hnd.1 hb
        · exact hdisj b (by simp only [addrs, List.map_cons, List.mem_cons]; right; exact hb) hmem
      obtain ⟨h2, q, hrun, hseg, hlen, hfr⟩ :=
        ih (h.write a (some ⟨x, prev⟩)) nx (some a) ((a, x) :: ps) k hs1 hp1 hdisj1
          (by simpa using hf)
      refine ⟨h2, q, ?_, ?_, ?_, ?_⟩
      · simp [ReverseLoop, deref_of_read h a _ hr, setNext_of_read h a _ prev hr, hrun,
          bind, Except.bind]
      · simpa using hseg
      · rw [hlen, Heap.length_write]
      · intro c hc
        simp only [addrs, List.map_cons, List.mem_cons, not_or] at hc
        rw [hfr c hc.2, Heap.read_write_other h a c _ hc.1]

theorem Reverse_Rep {α : Type} (h : Heap α) (l : SingleLinkedList) (ns : List (Nat × α))
    (fuel : Nat) (hrep : Rep h l ns) (hf : ns.length < fuel) :
    ∃ h2, Reverse fuel h l = .ok (h2, l)
      ∧ Rep h2 l ns.reverse
      ∧ h2.cells.length = h.cells.length
      ∧ Frame h h2 (footprint l ns) := by
  obtain ⟨hd, sv, hl, hs, hsz⟩ := hrep
  have hnd := Seg_nodup h _ _ hs
  simp only [addrs, List.map_cons, List.nodup_cons] at hnd
  obtain ⟨_, nx, hr, htl⟩ := hs
  have hhd : hd < h.cells.length := Heap.read_lt h hd _ hr
  obtain ⟨h1, q, hrun, hseg, hlen, hfr⟩ :=
    ReverseLoop_run h nx none ns [] fuel htl rfl (fun _ _ => by simp [addrs]) hf
  have hr1 : h1.read hd = some ⟨sv, nx⟩ := by rw [hfr hd hnd.1]; exact hr
  refine ⟨h1.write hd (some ⟨sv, q⟩), ?_, ⟨hd, sv, hl, ⟨rfl, q, ?_, ?_⟩, ?_⟩, ?_, ?_, ?_⟩
  · simp [Reverse, hl, deref_of_read h hd _ hr, hrun, setNext_of_read h1 hd _ q hr1,
      bind, Except.bind, pure, Except.pure]
  · exact Heap.read_write_same h1 hd _ (by rw [hlen]; exact hhd)
  · rw [List.append_nil] at hseg
    refine Seg_frame h1 _ _ q none (fun c hc => ?_) hseg
    refine Heap.read_write_other h1 hd c _ ?_
    rintro rfl
    apply hnd.1
    simpa [addrs] using hc
  · simpa using hsz
  · rw [Heap.length_write, hlen]
  · rw [Heap.length_write, hlen]
  · intro c _ hnot
    simp only [footprint, hl, Option.toList, List.singleton_append, List.mem_cons, not_or] at hnot
    rw [Heap.read_write_other h1 hd c _ hnot.1, hfr c hnot.2]

theorem Rep_addr_lt {α : Type} (h : Heap α) (l : SingleLinkedList) (ns : List (Nat × α))
    (hrep : Rep h l ns) : ∀ c ∈ footprint l ns, c < h.cells.length := by
  obtain ⟨hd, sv, hl, hs, _⟩ := hrep
  intro c hc
  refine Seg_addr_lt h _ _ _ hs c ?_
  simpa [footprint, hl, addrs] using hc

theorem Rep_frame {α : Type} (h h2 : Heap α) (l : SingleLinkedList) (ns : List (Nat × α))
    (F : List Nat) (hrep : Rep h l ns) (hfr : Frame h h2 F)
    (hdisj : ∀ c ∈ footprint l ns, c ∉ F) : Rep h2 l ns := by
  have hlt := Rep_addr_lt h l ns hrep
  obtain ⟨hd, sv, hl, hs, hsz⟩ := hrep
  refine ⟨hd, sv, hl, Seg_frame h h2 _ _ _ (fun c hc => ?_) hs, hsz⟩
  have hc2 : c ∈ footprint l ns := by simpa [footprint, hl, addrs] using hc
  exact hfr.2 c (hlt c hc2) (hdisj c hc2)

theorem elements_Rep {α : Type} (h : Heap α) (l : SingleLinkedList) (ns : List (Nat × α))
    (fuel : Nat) (hrep : Rep h l ns) (hf : ns.length < fuel) :
    elements fuel h l = .ok (vals ns) := by
  obtain ⟨hd, sv, hl, hs, _⟩ := hrep
  obtain ⟨_, nx, hr, htl⟩ := hs
  simp [elements, SingleLinkedList.begin, hl, deref_of_read h hd _ hr, end_, bind, Except.bind,
    pure, Except.pure, iterate_Seg h ns nx fuel htl hf]

theorem begin_Rep {α : Type} (h : Heap α) (l : SingleLinkedList) (ns : List (Nat × α))
    (hrep : Rep h l ns) : SingleLinkedList.begin h l = .ok (iterTo ns 0) := by
  obtain ⟨hd, sv, hl, hs, _⟩ := hrep
  obtain ⟨_, nx, hr, htl⟩ := hs
  have := Seg_first_null h ns nx htl
  simp [SingleLinkedList.begin, hl, deref_of_read h hd _ hr, bind, Except.bind, pure,
    Except.pure, iterTo, this, List.head?_eq_getElem?]

theorem Seg_read_at {α : Type} (h : Heap α) (ns : List (Nat × α)) (p : Ptr)
    (hs : Seg h p ns none) (j : Nat) (hj : j < ns.length) :
    h.read ns[j].1 = some ⟨ns[j].2, (ns[j + 1]?).map Prod.fst⟩ := by
  induction ns generalizing p j with
  | nil => simp at hj
  | cons n ns ih =>
    obtain ⟨a, x⟩ := n
    obtain ⟨_, nx, hr, htl⟩ := hs
    cases j with
    | zero =>
      have := Seg_first_null h ns nx htl
      simp [hr, this, List.head?_eq_getElem?]
    | succ i =>
      have := ih nx htl i (by simpa using hj)
      simpa using this

theorem dtor_Rep {α : Type} (h : Heap α) (l : SingleLinkedList) (ns : List (Nat × α))
    (fuel : Nat) (hrep : Rep h l ns) (hf : ns.length < fuel) :
    ∃ h2, dtor fuel h l = .ok h2
      ∧ h2.cells.length = h.cells.length
      ∧ (∀ c ∈ footprint l ns, h2.read c = none)
      ∧ Frame h h2 (footprint l ns) := by
  obtain ⟨h1, l1, hrun, hrep1, hhd, hlen, hdead, hfr⟩ := ClearLoop_Rep h l ns fuel hrep hf
  obtain ⟨hd, sv, hl, hs, _⟩ := hrep1
  obtain ⟨_, nx, hr, _⟩ := hs
  have hlt : hd < h1.cells.length := Heap.read_lt h1 hd _ hr
  have hl0 : l.head_ = some hd := by rw [← hhd]; exact hl
  refine ⟨h1.write hd none, ?_, ?_, ?_, ?_, ?_⟩
  · simp [dtor, Clear, hrun, hl, delete_of_read h1 hd _ hr, bind, Except.bind, pure, Except.pure]
  · rw [Heap.length_write, hlen]
  · intro c hc
    simp only [footprint, hl0, Option.toList, List.singleton_append, List.mem_cons] at hc
    by_cases hcd : c = hd
    · subst hcd; exact Heap.read_write_same h1 c _ hlt
    · rw [Heap.read_write_other h1 hd c _ hcd]
      rcases hc with hc | hc
      · exact absurd hc hcd
      · exact hdead c hc
  · rw [Heap.length_write, hlen]
  · intro c hc hnot
    have hcd : c ≠ hd := by
      rintro rfl; exact hnot (by simp [footprint, hl0])
    rw [Heap.read_write_other h1 hd c _ hcd]
    exact hfr.2 c hc hnot

/-- The loop of the range constructor over a source whose iterator after `j`
steps is `pos j`, which yields the values `vs` and reads only the cells `S`. -/
theorem rangeLoop_run {α I : Type} (ops : InputIt α I) (vs : List α) (pos : Nat → I)
    (second : I) (h0 : Heap α) (S : List Nat)
    (hne : ∀ j, j ≤ vs.length → ops.ne (pos j) second = decide (j ≠ vs.length))
    (hstar : ∀ (hx : Heap α) (j : Nat) (hj : j < vs.length),
      (∀ c ∈ S, hx.read c = h0.read c) → ops.star hx (pos j) = .ok vs[j])
    (hinc : ∀ (hx : Heap α) (j : Nat), j < vs.length →
      (∀ c ∈ S, hx.read c = h0.read c) → ops.inc hx (pos j) = .ok (pos (j + 1)))
    (d : Nat) (h : Heap α) (l : SingleLinkedList) (ns : List (Nat × α)) (j fuel : Nat)
    (hd : vs.length = j + d) (hrep : Rep h l ns)
    (hS : ∀ c ∈ S, c < h.cells.length ∧ c ∉ footprint l ns ∧ h.read c = h0.read c)
    (hroom : h.cells.length + d ≤ addrSpace) (hf : d < fuel) :
    ∃ h2 l2 ns2, rangeLoop ops fuel h l (pos j) second = .ok (h2, l2)
      ∧ Rep h2 l2 (ns2 ++ ns)
      ∧ vals ns2 = (vs.drop j).reverse
      ∧ l2.head_ = l.head_
      ∧ h2.cells.length = h.cells.length + d
      ∧ (∀ a ∈ addrs ns2, h.cells.length ≤ a)
      ∧ Frame h h2 (footprint l ns) := by
  induction d generalizing h l ns j fuel with
  | zero =>
    cases fuel with
    | zero => simp at hf
    | succ k =>
      have hj : j = vs.length := by omega
      subst hj
      refine ⟨h, l, [], ?_, by simpa using hrep, ?_, rfl, rfl, by simp [addrs], Frame_refl _ _⟩
      · simp [rangeLoop, hne _ (Nat.le_refl _), pure, Except.pure]
      · simp [vals]
  | succ d ih =>
    cases fuel with
    | zero => simp at hf
    | succ k =>
      have hj : j < vs.length := by omega
      have hSr : ∀ c ∈ S, h.read c = h0.read c := fun c hc => (hS c hc).2.2
      have hlt : h.cells.length < addrSpace := by omega
      obtain ⟨h1, l1, hrun, hrep1, _, hhd1, hlen1, hfr1⟩ :=
        PushFront_Rep h l ns vs[j] hrep hlt
      have hS1 : ∀ c ∈ S, c < h1.cells.length ∧ c ∉ footprint l1 ((h.cells.length, vs[j]) :: ns)
          ∧ h1.read c = h0.read c := by
        intro c hc
        obtain ⟨hc1, hc2, hc3⟩ := hS c hc
        refine ⟨by omega, ?_, by rw [hfr1.2 c hc1 hc2]; exact hc3⟩
        intro hmem
        simp only [footprint, hhd1, addrs, List.map_cons, List.mem_append, List.mem_cons] at hmem
        rcases hmem with hm | hm | hm
        · exact hc2 (by simp only [footprint, List.mem_append]; left; exact hm)
        · omega
        · exact hc2 (by simp only [footprint, List.mem_append]; right; exact hm)
      obtain ⟨h2, l2, ns2, hrun2, hrep2, hvals, hhd2, hlen2, hfresh, hfr2⟩ :=
        ih h1 l1 ((h.cells.length, vs[j]) :: ns) (j + 1) k (by omega) hrep1 hS1 (by omega)
          (by omega)
      refine ⟨h2, l2, ns2 ++ [(h.cells.length, vs[j])], ?_, by simpa using hrep2, ?_,
        by rw [hhd2, hhd1], by omega, ?_, ?_⟩
      · simp [rangeLoop, hne j (by omega), Nat.ne_of_lt hj, hstar h j hj hSr, hrun,
          hinc h1 j hj (fun c hc => (hS1 c hc).2.2), hrun2, bind, Except.bind]
      · rw [List.drop_eq_getElem_cons hj, List.reverse_cons, ← hvals]
        simp [vals]
      · intro a ha
        simp only [addrs, List.map_append, List.map_cons, List.map_nil, List.mem_append,
          List.mem_singleton] at ha
        rcases ha with ha | ha
        · have := hfresh a ha; omega
        · omega
      · refine Frame_trans h h1 h2 _ _ hfr1 hfr2 ?_
        intro c hc hmem
        simp only [footprint, hhd1, addrs, List.map_cons, List.mem_append, List.mem_cons] at hmem
        simp only [footprint, List.mem_append]
        rcases hmem with hm | hm | hm
        · left; exact hm
        · omega
        · right; exact hm

theorem rangeCtor_run {α I : Type} [Inhabited α] (ops : InputIt α I) (vs : List α)
    (pos : Nat → I) (second : I) (h : Heap α) (S : List Nat)
    (hne : ∀ j, j ≤ vs.length → ops.ne (pos j) second = decide (j ≠ vs.length))
    (hstar : ∀ (hx : Heap α) (j : Nat) (hj : j < vs.length),
      (∀ c ∈ S, hx.read c = h.read c) → ops.star hx (pos j) = .ok vs[j])
    (hinc : ∀ (hx : Heap α) (j : Nat), j < vs.length →
      (∀ c ∈ S, hx.read c = h.read c) → ops.inc hx (pos j) = .ok (pos (j + 1)))
    (fuel : Nat) (hS : ∀ c ∈ S, c < h.cells.length)
    (hroom : h.cells.length + 1 + vs.length ≤ addrSpace) (hf : vs.length < fuel) :
    ∃ h2 l2 ns2, rangeCtor ops fuel h (pos 0) second = .ok (h2, l2)
      ∧ Rep h2 l2 ns2
      ∧ vals ns2 = vs
      ∧ l2.head_ = some h.cells.length
      ∧ h2.cells.length = h.cells.length + 1 + vs.length
      ∧ (∀ a ∈ footprint l2 ns2, h.cells.length ≤ a)
      ∧ Frame h h2 [] := by
  obtain ⟨h0, hrun0, hrep0, hlen0, hfr0⟩ := @ctor_Rep α _ h (by omega)
  have hS0 : ∀ c ∈ S, c < h0.cells.length
      ∧ c ∉ footprint ⟨some h.cells.length, 0⟩ ([] : List (Nat × α)) ∧ h0.read c = h.read c := by
    intro c hc
    have := hS c hc
    refine ⟨by omega, ?_, hfr0.2 c this (by simp)⟩
    simp [footprint, addrs]; omega
  obtain ⟨h1, l1, ns1, hrun1, hrep1, hvals1, hhd1, hlen1, hfresh1, hfr1⟩ :=
    rangeLoop_run ops vs pos second h S hne hstar hinc vs.length h0 ⟨some h.cells.length, 0⟩ []
      0 fuel (by omega) hrep0 hS0 (by omega) hf
  rw [List.append_nil] at hrep1
  have hlen_ns : ns1.length = vs.length := by
    have := congrArg List.length hvals1
    simpa [vals] using this
  obtain ⟨h2, hrun2, hrep2, hlen2, hfr2⟩ :=
    Reverse_Rep h1 l1 ns1 fuel hrep1 (by omega)
  have hfp : ∀ a ∈ footprint l1 ns1, h.cells.length ≤ a := by
    intro a ha
    simp only [footprint, hhd1, Option.toList, List.singleton_append, List.mem_cons] at ha
    rcases ha with ha | ha
    · omega
    · have := hfresh1 a ha; omega
  refine ⟨h2, l1, ns1.reverse, ?_, hrep2, ?_, hhd1, by omega, ?_, ?_, ?_⟩
  · simp [rangeCtor, hrun0, hrun1, hrun2, bind, Except.bind]
  · simp [vals] at hvals1 ⊢
    rw [hvals1]; simp
  · intro a ha
    refine hfp a ?_
    simpa [footprint, addrs] using ha
  · omega
  · intro c hc _
    rw [hfr2.2 c (by omega) (fun hm => by have := hfp c hm; omega),
      hfr1.2 c (by omega) (by simp [footprint, addrs]; omega), hfr0.2 c hc (by simp)]

theorem initCtor_run {α : Type} [Inhabited α] (values : List α) (h : Heap α) (fuel : Nat)
    (hroom : h.cells.length + 1 + values.length ≤ addrSpace) (hf : values.length < fuel) :
    ∃ h2 l2 ns2, initCtor fuel h values = .ok (h2, l2)
      ∧ Rep h2 l2 ns2
      ∧ vals ns2 = values
      ∧ l2.head_ = some h.cells.length
      ∧ h2.cells.length = h.cells.length + 1 + values.length
      ∧ (∀ a ∈ footprint l2 ns2, h.cells.length ≤ a)
      ∧ Frame h h2 [] := by
  refine rangeCtor_run (arrayIt values) values (fun j => j) values.length h [] ?_ ?_ ?_ fuel
    (by simp) hroom hf
  · intro j _
    by_cases hj : j = values.length <;> simp [arrayIt, hj]
  · intro hx j hj _
    simp [arrayIt, List.getElem?_eq_getElem hj]
  · intro hx j _ _
    rfl

theorem copyCtor_run {α : Type} [Inhabited α] (h : Heap α) (other : SingleLinkedList)
    (ms : List (Nat × α)) (fuel : Nat) (hrep : Rep h other ms)
    (hroom : h.cells.length + 1 + ms.length ≤ addrSpace) (hf : ms.length < fuel) :
    ∃ h2 l2 ns2, copyCtor fuel h other = .ok (h2, l2)
      ∧ Rep h2 l2 ns2
      ∧ vals ns2 = vals ms
      ∧ l2.head_ = some h.cells.length
      ∧ h2.cells.length = h.cells.length + 1 + ms.length
      ∧ (∀ a ∈ footprint l2 ns2, h.cells.length ≤ a)
      ∧ Frame h h2 [] := by
  have hbegin := begin_Rep h other ms hrep
  have hlt := Rep_addr_lt h other ms hrep
  obtain ⟨hd, sv, hl, hs, _⟩ := hrep
  obtain ⟨_, nx, hr, htl⟩ := hs
  have hlen : (vals ms).length = ms.length := by simp [vals]
  have hne : ∀ j, j ≤ (vals ms).length →
      (@listIt α).ne (iterTo ms j) other.end_ = decide (j ≠ (vals ms).length) := by
    intro j hj
    rw [hlen] at hj ⊢
    rcases Nat.lt_or_ge j ms.length with hlt2 | hge
    · simp [listIt, BasicIterator.ne, iterTo, end_, List.getElem?_eq_getElem hlt2,
        Nat.ne_of_lt hlt2]
    · have : j = ms.length := by omega
      simp [listIt, BasicIterator.ne, iterTo, end_, this]
  have hstar : ∀ (hx : Heap α) (j : Nat) (hj : j < (vals ms).length),
      (∀ c ∈ addrs ms, hx.read c = h.read c) →
      (@listIt α).star hx (iterTo ms j) = .ok (vals ms)[j] := by
    intro hx j hj hS
    have hj2 : j < ms.length := by rw [hlen] at hj; exact hj
    have hrd := Seg_read_at h ms nx htl j hj2
    have hrx : hx.read ms[j].1 = some ⟨ms[j].2, (ms[j + 1]?).map Prod.fst⟩ := by
      rw [hS _ (List.mem_map.2 ⟨ms[j], List.getElem_mem hj2, rfl⟩)]; exact hrd
    simp [listIt, BasicIterator.star, iterTo, List.getElem?_eq_getElem hj2,
      deref_of_read hx _ _ hrx, bind, Except.bind, pure, Except.pure, vals]
  have hinc : ∀ (hx : Heap α) (j : Nat), j < (vals ms).length →
      (∀ c ∈ addrs ms, hx.read c = h.read c) →
      (@listIt α).inc hx (iterTo ms j) = .ok (iterTo ms (j + 1)) := by
    intro hx j hj hS
    have hj2 : j < ms.length := by rw [hlen] at hj; exact hj
    have hrd := Seg_read_at h ms nx htl j hj2
    have hrx : hx.read ms[j].1 = some ⟨ms[j].2, (ms[j + 1]?).map Prod.fst⟩ := by
      rw [hS _ (List.mem_map.2 ⟨ms[j], List.getElem_mem hj2, rfl⟩)]; exact hrd
    simp [listIt, BasicIterator.inc, iterTo, List.getElem?_eq_getElem hj2,
      deref_of_read hx _ _ hrx, bind, Except.bind, pure, Except.pure]
  have hS : ∀ c ∈ addrs ms, c < h.cells.length := by
    intro c hc
    exact hlt c (by simp only [footprint, List.mem_append]; right; exact hc)
  obtain ⟨h2, l2, ns2, hrun, hrest⟩ :=
    rangeCtor_run listIt (vals ms) (fun j => iterTo ms j) other.end_ h (addrs ms) hne hstar hinc
      fuel hS (by rw [hlen]; exact hroom) (by rw [hlen]; exact hf)
  refine ⟨h2, l2, ns2, ?_, ?_⟩
  · simp only [copyCtor, hbegin, bind, Except.bind]; exact hrun
  · simpa [hlen] using hrest

theorem assign_run {α : Type} [Inhabited α] (h : Heap α) (l rhs : SingleLinkedList)
    (ns ms : List (Nat × α)) (fuel : Nat) (hl : Rep h l ns) (hr : Rep h rhs ms)
    (hroom : h.cells.length + 1 + ms.length ≤ addrSpace)
    (hf1 : ms.length < fuel) (hf2 : ns.length < fuel) :
    ∃ h2 l2 ns2, assign fuel h l rhs = .ok (h2, l2)
      ∧ Rep h2 l2 ns2
      ∧ vals ns2 = vals ms
      ∧ (∀ a ∈ footprint l2 ns2, h.cells.length ≤ a)
      ∧ Frame h h2 (footprint l ns) := by
  obtain ⟨h1, l1, ns1, hrun1, hrep1, hvals, _, hlen1, hfresh, hfr1⟩ :=
    copyCtor_run h rhs ms fuel hr hroom hf1
  have hl1 : Rep h1 l ns := Rep_frame h h1 l ns [] hl hfr1 (fun _ _ => by simp)
  obtain ⟨h2, hrun2, hlen2, _, hfr2⟩ := dtor_Rep h1 l ns fuel hl1 hf2
  have hlt := Rep_addr_lt h l ns hl
  refine ⟨h2, l1, ns1, ?_, ?_, hvals, hfresh, ?_⟩
  · have hsw : SingleLinkedList.swap l l1 = (l1, l) := rfl
    simp [assign, hrun1, hsw, hrun2, bind, Except.bind, pure, Except.pure]
  · refine Rep_frame h1 h2 l1 ns1 _ hrep1 hfr2 ?_
    intro c hc hmem
    have h1 := hfresh c hc
    have h2 := hlt c hmem
    omega
  · refine ⟨by omega, fun c hc hnot => ?_⟩
    rw [hfr2.2 c (by omega) hnot, hfr1.2 c hc (by simp)]

theorem Rep_heap123 : Rep heap123 list123 nodes123 :=
  ⟨0, 0, rfl, ⟨rfl, some 3, rfl, rfl, some 2, rfl, rfl, some 1, rfl, rfl, none, rfl, rfl⟩, rfl⟩

theorem Rep_heapNil : Rep heapNil listNil ([] : List (Nat × Nat)) :=
  ⟨0, 0, rfl, ⟨rfl, none, rfl, rfl⟩, rfl⟩

theorem Rep_listA : Rep heapTwo listA nodesA :=
  ⟨0, 0, rfl, ⟨rfl, some 1, rfl, rfl, some 2, rfl, rfl, none, rfl, rfl⟩, rfl⟩

theorem Rep_listB : Rep heapTwo listB nodesB :=
  ⟨3, 0, rfl, ⟨rfl, some 4, rfl, rfl, none, rfl, rfl⟩, rfl⟩

theorem Rep_Inv {α : Type} (h : Heap α) (l : SingleLinkedList) (ns : List (Nat × α))
    (hrep : Rep h l ns) : Inv h l := by
  obtain ⟨hd, sv, hl, hs, hsz⟩ := hrep
  obtain ⟨_, nx, hr, htl⟩ := hs
  refine ⟨hd, ⟨sv, nx⟩, ns, hl, hr, htl, hsz, ?_⟩
  have hfirst := Seg_first_null h ns nx htl
  rw [hsz]
  cases ns with
  | nil => simp [hfirst]
  | cons n ns => simp [hfirst]

theorem Inv_Rep {α : Type} (h : Heap α) (l : SingleLinkedList) (hinv : Inv h l) :
    ∃ ns : List (Nat × α), Rep h l ns := by
  obtain ⟨hd, sn, ns, hl, hr, hs, hsz, _⟩ := hinv
  exact ⟨ns, hd, sn.value, hl, ⟨rfl, sn.next_node, hr, hs⟩, hsz⟩

theorem new_noroom {α : Type} (h : Heap α) (n : Node α) (hfull : ¬ h.cells.length < addrSpace) :
    new h n = .error .badAlloc := by
  simp [new, hfull]

theorem InsertAfter_noroom {α : Type} (h : Heap α) (l : SingleLinkedList) (pos : BasicIterator)
    (v : α) (hfull : ¬ h.cells.length < addrSpace) (r : Heap α × SingleLinkedList × BasicIterator) :
    InsertAfter h l pos v ≠ .ok r := by
  unfold InsertAfter
  split
  · simp
  · cases hd : deref h pos.node_ with
    | error e => simp [bind, Except.bind]
    | ok n => simp [bind, Except.bind, new_noroom h _ hfull]

theorem PushFront_noroom {α : Type} (h : Heap α) (l : SingleLinkedList)
    (v : α) (hfull : ¬ h.cells.length < addrSpace) (r : Heap α × SingleLinkedList) :
    PushFront h l v ≠ .ok r := by
  unfold PushFront
  cases hd : deref h l.head_ with
  | error e => simp [bind, Except.bind]
  | ok n => simp [bind, Except.bind, new_noroom h _ hfull]

/-- A valid mutating call on a list touches only cells of that list and
cells that it allocates. -/
theorem Mutation_run_frame {α : Type} (h : Heap α) (a : SingleLinkedList)
    (ns : List (Nat × α)) (m : Mutation α) (fuel : Nat) (hrep : Rep h a ns)
    (hv : m.valid a ns) (hf : ns.length < fuel) (h3 : Heap α) (a3 : SingleLinkedList)
    (hrun : m.run fuel h a = .ok (h3, a3)) : Frame h h3 (footprint a ns) := by
  cases m with
  | pushFront v =>
    simp only [Mutation.run] at hrun
    by_cases hroom : h.cells.length < addrSpace
    · obtain ⟨h2, l2, hrun2, _, _, _, _, hfr⟩ := PushFront_Rep h a ns v hrep hroom
      rw [hrun2] at hrun
      cases hrun
      exact hfr
    · exact absurd hrun (PushFront_noroom h a v hroom _)
  | popFront =>
    simp only [Mutation.run] at hrun
    cases ns with
    | nil =>
      rw [PopFront_empty h a hrep] at hrun
      cases hrun
      exact Frame_refl _ _
    | cons n ns =>
      obtain ⟨b, x⟩ := n
      obtain ⟨h2, l2, hrun2, _, _, _, _, _, hfr⟩ := PopFront_Rep h a b x ns hrep
      rw [hrun2] at hrun
      cases hrun
      exact hfr
  | insertAfter pos v =>
    obtain ⟨k, hk, hpos⟩ := hv
    subst hpos
    simp only [Mutation.run] at hrun
    by_cases hroom : h.cells.length < addrSpace
    · obtain ⟨h2, l2, hrun2, _, _, _, _, hfr⟩ := InsertAfter_Rep h a ns k v hrep hk hroom
      rw [hrun2] at hrun
      cases hrun
      exact hfr
    · cases hio : InsertAfter h a (posAfter a ns k) v with
      | error e => rw [hio] at hrun; cases hrun
      | ok r => exact absurd hio (InsertAfter_noroom h a _ v hroom r)
  | eraseAfter pos =>
    obtain ⟨k, hk, hpos⟩ := hv
    subst hpos
    simp only [Mutation.run] at hrun
    obtain ⟨h2, l2, hrun2, _, _, _, _, _, hfr⟩ := EraseAfter_Rep h a ns k hrep hk
    rw [hrun2] at hrun
    cases hrun
    exact hfr
  | clear =>
    simp only [Mutation.run, Clear] at hrun
    obtain ⟨h2, l2, hrun2, _, _, _, _, hfr⟩ := ClearLoop_Rep h a ns fuel hrep hf
    rw [hrun2] at hrun
    cases hrun
    exact hfr
  | reverse =>
    simp only [Mutation.run] at hrun
    obtain ⟨h2, hrun2, _, _, hfr⟩ := Reverse_Rep h a ns fuel hrep hf
    rw [hrun2] at hrun
    cases hrun
    exact hfr

/-- Pairwise comparison of two node runs with the element type's `==`. -/
theorem std_equal_Seg {α : Type} [BEq α] (h : Heap α) (ns ms : List (Nat × α)) (p q : Ptr)
    (fuel : Nat) (hp : Seg h p ns none) (hq : Seg h q ms none)
    (hf : min ns.length ms.length < fuel) :
    ∃ r, std_equal fuel h ⟨p⟩ ⟨none⟩ ⟨q⟩ ⟨none⟩ = .ok r
      ∧ (r = true ↔ ns.length = ms.length
          ∧ ∀ i (hi : i < ns.length) (hj : i < ms.length), (ns[i].2 == ms[i].2) = true) := by
  induction ns generalizing ms p q fuel with
  | nil =>
    have hpn : p = none := hp
    subst hpn
    cases fuel with
    | zero => simp at hf
    | succ k =>
      cases ms with
      | nil =>
        have hqn : q = none := hq
        subst hqn
        exact ⟨true, by simp [std_equal, BasicIterator.ne, BasicIterator.eq, pure, Except.pure],
          by simp⟩
      | cons m ms =>
        obtain ⟨b, y⟩ := m
        obtain ⟨hqs, _⟩ := hq
        subst hqs
        exact ⟨false, by simp [std_equal, BasicIterator.ne, BasicIterator.eq, pure, Except.pure],
          by simp⟩
  | cons n ns ih =>
    obtain ⟨a, x⟩ := n
    obtain ⟨hps, nx, hr, htl⟩ := hp
    subst hps
    cases fuel with
    | zero => simp at hf
    | succ k =>
      cases ms with
      | nil =>
        have hqn : q = none := hq
        subst hqn
        exact ⟨false, by simp [std_equal, BasicIterator.ne, BasicIterator.eq, pure, Except.pure],
          by simp⟩
      | cons m ms =>
        obtain ⟨b, y⟩ := m
        obtain ⟨hqs, ny, hr2, htl2⟩ := hq
        subst hqs
        have hk : min ns.length ms.length < k := by
          simp only [List.length_cons] at hf
          omega
        obtain ⟨r, hrun, hiff⟩ := ih ms nx ny k htl htl2 hk
        by_cases hxy : (x == y) = true
        · refine ⟨r, ?_, ?_⟩
          · simp [std_equal, BasicIterator.ne, BasicIterator.star, BasicIterator.inc,
              deref_of_read h a _ hr, deref_of_read h b _ hr2, hxy, hrun, bind, Except.bind,
              pure, Except.pure]
          · rw [hiff]
            constructor
            · rintro ⟨hlen, hall⟩
              refine ⟨by simp [hlen], fun i hi hj => ?_⟩
              cases i with
              | zero => simpa using hxy
              | succ i =>
                simpa using hall i (by simpa using hi) (by simpa using hj)
            · rintro ⟨hlen, hall⟩
              refine ⟨by simpa using hlen, fun i hi hj => ?_⟩
              have := hall (i + 1) (by simpa using hi) (by simpa using hj)
              simpa using this
        · refine ⟨false, ?_, ?_⟩
          · simp [std_equal, BasicIterator.ne, BasicIterator.star, BasicIterator.inc,
              deref_of_read h a _ hr, deref_of_read h b _ hr2, hxy, bind, Except.bind,
              pure, Except.pure]
          · constructor
            · intro hc; cases hc
            · rintro ⟨_, hall⟩
              have := hall 0 (by simp) (by simp)
              exact absurd (by simpa using this) hxy

theorem operator_eq_Rep {α : Type} [BEq α] (h : Heap α) (a b : SingleLinkedList)
    (ns ms : List (Nat × α)) (fuel : Nat) (ha : Rep h a ns) (hb : Rep h b ms)
    (hf : min ns.length ms.length < fuel) :
    ∃ r, operator_eq fuel h a b = .ok r
      ∧ (r = true ↔ ns.length = ms.length
          ∧ ∀ i (hi : i < ns.length) (hj : i < ms.length), (ns[i].2 == ms[i].2) = true) := by
  have hba := begin_Rep h a ns ha
  have hbb := begin_Rep h b ms hb
  obtain ⟨hd1, sv1, _, hs1, _⟩ := ha
  obtain ⟨hd2, sv2, _, hs2, _⟩ := hb
  obtain ⟨_, nx1, _, htl1⟩ := hs1
  obtain ⟨_, nx2, _, htl2⟩ := hs2
  have hf1 := Seg_first_null h ns nx1 htl1
  have hf2 := Seg_first_null h ms nx2 htl2
  obtain ⟨r, hrun, hiff⟩ := std_equal_Seg h ns ms nx1 nx2 fuel htl1 htl2 hf
  have hit1 : iterTo ns 0 = ⟨nx1⟩ := by simp [iterTo, hf1, List.head?_eq_getElem?]
  have hit2 : iterTo ms 0 = ⟨nx2⟩ := by simp [iterTo, hf2, List.head?_eq_getElem?]
  refine ⟨r, ?_, hiff⟩
  simp only [operator_eq, hba, hbb, hit1, hit2, end_, bind, Except.bind]
  exact hrun


theorem std_equal_val {α : Type} [BEq α] (h : Heap α) (ns ms : List (Nat × α)) (p q : Ptr)
    (fuel : Nat) (hp : Seg h p ns none) (hq : Seg h q ms none)
    (hf : min ns.length ms.length < fuel) :
    std_equal fuel h ⟨p⟩ ⟨none⟩ ⟨q⟩ ⟨none⟩ = .ok (seqEq (vals ns) (vals ms)) := by
  induction ns generalizing ms p q fuel with
  | nil =>
    have hpn : p = none := hp
    subst hpn
    cases fuel with
    | zero => simp at hf
    | succ k =>
      cases ms with
      | nil =>
        have hqn : q = none := hq
        subst hqn
        simp [std_equal, BasicIterator.ne, BasicIterator.eq, pure, Except.pure, vals, seqEq]
      | cons m ms =>
        obtain ⟨b, y⟩ := m
        obtain ⟨hqs, _⟩ := hq
        subst hqs
        simp [std_equal, BasicIterator.ne, BasicIterator.eq, pure, Except.pure, vals, seqEq]
  | cons n ns ih =>
    obtain ⟨a, x⟩ := n
    obtain ⟨hps, nx, hr, htl⟩ := hp
    subst hps
    cases fuel with
    | zero => simp at hf
    | succ k =>
      cases ms with
      | nil =>
        have hqn : q = none := hq
        subst hqn
        simp [std_equal, BasicIterator.ne, BasicIterator.eq, pure, Except.pure, vals, seqEq]
      | cons m ms =>
        obtain ⟨b, y⟩ := m
        obtain ⟨hqs, ny, hr2, htl2⟩ := hq
        subst hqs
        have hk : min ns.length ms.length < k := by
          simp only [List.length_cons] at hf
          omega
        have hrec := ih ms nx ny k htl htl2 hk
        by_cases hxy : (x == y) = true
        · simp only [vals] at hrec
          simp [std_equal, BasicIterator.ne, BasicIterator.star, BasicIterator.inc,
            deref_of_read h a _ hr, deref_of_read h b _ hr2, hxy, hrec, bind, Except.bind,
            pure, Except.pure, vals, seqEq]
        · simp [std_equal, BasicIterator.ne, BasicIterator.star, BasicIterator.inc,
            deref_of_read h a _ hr, deref_of_read h b _ hr2, hxy, bind, Except.bind,
            pure, Except.pure, vals, seqEq]

theorem std_lexicographical_compare_val {α : Type} (lt : α → α → Bool) (h : Heap α)
    (ns ms : List (Nat × α)) (p q : Ptr) (fuel : Nat) (hp : Seg h p ns none)
    (hq : Seg h q ms none) (hf : min ns.length ms.length < fuel) :
    std_lexicographical_compare lt fuel h ⟨p⟩ ⟨none⟩ ⟨q⟩ ⟨none⟩
      = .ok (lexLess lt (vals ns) (vals ms)) := by
  induction ns generalizing ms p q fuel with
  | nil =>
    have hpn : p = none := hp
    subst hpn
    cases fuel with
    | zero => simp at hf
    | succ k =>
      cases ms with
      | nil =>
        have hqn : q = none := hq
        subst hqn
        simp [std_lexicographical_compare, BasicIterator.ne, BasicIterator.eq, pure,
          Except.pure, vals, lexLess]
      | cons m ms =>
        obtain ⟨b, y⟩ := m
        obtain ⟨hqs, _⟩ := hq
        subst hqs
        simp [std_lexicographical_compare, BasicIterator.ne, BasicIterator.eq, pure,
          Except.pure, vals, lexLess]
  | cons n ns ih =>
    obtain ⟨a, x⟩ := n
    obtain ⟨hps, nx, hr, htl⟩ := hp
    subst hps
    cases fuel with
    | zero => simp at hf
    | succ k =>
      cases ms with
      | nil =>
        have hqn : q = none := hq
        subst hqn
        simp [std_lexicographical_compare, BasicIterator.ne, BasicIterator.eq, pure,
          Except.pure, vals, lexLess]
      | cons m ms =>
        obtain ⟨b, y⟩ := m
        obtain ⟨hqs, ny, hr2, htl2⟩ := hq
        subst hqs
        have hk : min ns.length ms.length < k := by
          simp only [List.length_cons] at hf
          omega
        have hrec := ih ms nx ny k htl htl2 hk
        simp only [vals] at hrec
        by_cases hxy : lt x y = true
        · simp [std_lexicographical_compare, BasicIterator.ne, BasicIterator.star,
            deref_of_read h a _ hr, deref_of_read h b _ hr2, hxy, bind, Except.bind,
            pure, Except.pure, vals, lexLess]
        · by_cases hyx : lt y x = true
          · simp [std_lexicographical_compare, BasicIterator.ne, BasicIterator.star,
              deref_of_read h a _ hr, deref_of_read h b _ hr2, hxy, hyx, bind, Except.bind,
              pure, Except.pure, vals, lexLess]
          · simp [std_lexicographical_compare, BasicIterator.ne, BasicIterator.star,
              BasicIterator.inc, deref_of_read h a _ hr, deref_of_read h b _ hr2, hxy, hyx,
              hrec, bind, Except.bind, pure, Except.pure, vals, lexLess]

theorem Rep_begin_Seg {α : Type} (h : Heap α) (l : SingleLinkedList) (ns : List (Nat × α))
    (hrep : Rep h l ns) :
    ∃ nx, SingleLinkedList.begin h l = .ok ⟨nx⟩ ∧ Seg h nx ns none := by
  obtain ⟨hd, sv, hl, hs, _⟩ := hrep
  obtain ⟨_, nx, hr, htl⟩ := hs
  refine ⟨nx, ?_, htl⟩
  simp [SingleLinkedList.begin, hl, deref_of_read h hd _ hr, bind, Except.bind, pure, Except.pure]

theorem operator_eq_val {α : Type} [BEq α] (h : Heap α) (a b : SingleLinkedList)
    (ns ms : List (Nat × α)) (fuel : Nat) (ha : Rep h a ns) (hb : Rep h b ms)
    (hf : min ns.length ms.length < fuel) :
    operator_eq fuel h a b = .ok (seqEq (vals ns) (vals ms)) := by
  obtain ⟨nx1, hb1, hs1⟩ := Rep_begin_Seg h a ns ha
  obtain ⟨nx2, hb2, hs2⟩ := Rep_begin_Seg h b ms hb
  simp only [operator_eq, hb1, hb2, end_, bind, Except.bind]
  exact std_equal_val h ns ms nx1 nx2 fuel hs1 hs2 hf

theorem operator_lt_val {α : Type} (lt : α → α → Bool) (h : Heap α) (a b : SingleLinkedList)
    (ns ms : List (Nat × α)) (fuel : Nat) (ha : Rep h a ns) (hb : Rep h b ms)
    (hf : min ns.length ms.length < fuel) :
    operator_lt lt fuel h a b = .ok (lexLess lt (vals ns) (vals ms)) := by
  obtain ⟨nx1, hb1, hs1⟩ := Rep_begin_Seg h a ns ha
  obtain ⟨nx2, hb2, hs2⟩ := Rep_begin_Seg h b ms hb
  simp only [operator_lt, hb1, hb2, end_, bind, Except.bind]
  exact std_lexicographical_compare_val lt h ns ms nx1 nx2 fuel hs1 hs2 hf

theorem lexLess_iff {α : Type} (lt : α → α → Bool) (xs ys : List α) :
    lexLess lt xs ys = true ↔
      ∃ i, (∀ j (h1 : j < xs.length) (h2 : j < ys.length), j < i →
              lt xs[j] ys[j] = false ∧ lt ys[j] xs[j] = false)
        ∧ ((i = xs.length ∧ i < ys.length)
            ∨ ∃ (h1 : i < xs.length) (h2 : i < ys.length), lt xs[i] ys[i] = true) := by
  induction xs generalizing ys with
  | nil =>
    cases ys with
    | nil =>
      simp only [lexLess, List.length_nil]
      constructor
      · intro hc; cases hc
      · rintro ⟨i, _, (⟨_, h2⟩ | ⟨h1, _⟩)⟩
        · exact absurd h2 (Nat.not_lt_zero _)
        · exact absurd h1 (Nat.not_lt_zero _)
    | cons y ys =>
      simp only [lexLess, true_iff]
      exact ⟨0, fun j _ _ hj => absurd hj (Nat.not_lt_zero _), Or.inl ⟨rfl, by simp⟩⟩
  | cons x xs ih =>
    cases ys with
    | nil =>
      simp only [lexLess, List.length_nil, List.length_cons]
      constructor
      · intro hc; cases hc
      · rintro ⟨i, _, (⟨_, h2⟩ | ⟨_, h2, _⟩)⟩
        · exact absurd h2 (Nat.not_lt_zero _)
        · exact absurd h2 (Nat.not_lt_zero _)
    | cons y ys =>
      by_cases hxy : lt x y = true
      · simp only [lexLess, hxy, if_true, true_iff]
        exact ⟨0, fun j _ _ hj => absurd hj (Nat.not_lt_zero _),
          Or.inr ⟨by simp, by simp, by simpa using hxy⟩⟩
      · have hxy2 : lt x y = false := by simpa using hxy
        by_cases hyx : lt y x = true
        · simp only [lexLess, hxy2, hyx, if_true]
          constructor
          · intro hc; cases hc
          · rintro ⟨i, hall, hor⟩
            cases i with
            | zero =>
              rcases hor with ⟨h1, _⟩ | ⟨_, _, h3⟩
              · simp at h1
              · simp only [List.getElem_cons_zero] at h3
                rw [hxy2] at h3; cases h3
            | succ i =>
              have := (hall 0 (by simp) (by simp) (by omega)).2
              simp only [List.getElem_cons_zero] at this
              rw [hyx] at this; cases this
        · have hyx2 : lt y x = false := by simpa using hyx
          simp only [lexLess, hxy2, hyx2]
          rw [show (if false = true then true else if false = true then false
            else lexLess lt xs ys) = lexLess lt xs ys from by simp, ih ys]
          constructor
          · rintro ⟨i, hall, hor⟩
            refine ⟨i + 1, ?_, ?_⟩
            · intro j h1 h2 hj
              cases j with
              | zero => simp [hxy2, hyx2]
              | succ j =>
                simpa using hall j (by simpa using h1) (by simpa using h2) (by omega)
            · rcases hor with ⟨h1, h2⟩ | ⟨h1, h2, h3⟩
              · exact Or.inl ⟨by simp [h1], by simpa using h2⟩
              · exact Or.inr ⟨by simpa using h1, by simpa using h2, by simpa using h3⟩
          · rintro ⟨i, hall, hor⟩
            cases i with
            | zero =>
              rcases hor with ⟨h1, _⟩ | ⟨_, _, h3⟩
              · simp at h1
              · simp only [List.getElem_cons_zero] at h3
                rw [hxy2] at h3; cases h3
            | succ i =>
              refine ⟨i, ?_, ?_⟩
              · intro j h1 h2 hj
                have := hall (j + 1) (by simpa using h1) (by simpa using h2) (by omega)
                simpa using this
              · rcases hor with ⟨h1, h2⟩ | ⟨h1, h2, h3⟩
                · exact Or.inl ⟨by simpa using h1, by simpa using h2⟩
                · exact Or.inr ⟨by simpa using h1, by simpa using h2, by simpa using h3⟩

theorem lexLess_irrefl {α : Type} (lt : α → α → Bool) (hirr : ∀ x, lt x x = false)
    (xs : List α) : lexLess lt xs xs = false := by
  induction xs with
  | nil => rfl
  | cons x xs ih => simp [lexLess, hirr x, ih]

/-- Trichotomy of the element comparisons lifts to sequences. -/
theorem lexLess_trichotomy {α : Type} [BEq α] (lt : α → α → Bool)
    (htri : ∀ x y : α, (lt x y = true ∧ (x == y) = false ∧ lt y x = false)
      ∨ (lt x y = false ∧ (x == y) = true ∧ lt y x = false)
      ∨ (lt x y = false ∧ (x == y) = false ∧ lt y x = true))
    (xs ys : List α) :
    (lexLess lt xs ys = true ∧ seqEq xs ys = false ∧ lexLess lt ys xs = false)
      ∨ (lexLess lt xs ys = false ∧ seqEq xs ys = true ∧ lexLess lt ys xs = false)
      ∨ (lexLess lt xs ys = false ∧ seqEq xs ys = false ∧ lexLess lt ys xs = true) := by
  induction xs generalizing ys with
  | nil =>
    cases ys with
    | nil => simp [lexLess, seqEq]
    | cons y ys => simp [lexLess, seqEq]
  | cons x xs ih =>
    cases ys with
    | nil => simp [lexLess, seqEq]
    | cons y ys =>
      rcases htri x y with ⟨h1, h2, h3⟩ | ⟨h1, h2, h3⟩ | ⟨h1, h2, h3⟩
      · simp [lexLess, seqEq, h1, h2, h3]
      · simpa [lexLess, seqEq, h1, h2, h3] using ih ys
      · simp [lexLess, seqEq, h1, h2, h3]

theorem posAfter_insert {α : Type} (l l1 : SingleLinkedList) (ns : List (Nat × α)) (k : Nat)
    (n : Nat × α) (hhd : l1.head_ = l.head_) (hk : k ≤ ns.length) :
    posAfter l1 (ns.take k ++ n :: ns.drop k) k = posAfter l ns k := by
  cases k with
  | zero => simp [posAfter, before_begin, hhd]
  | succ j =>
    have hj : j < ns.length := hk
    have hlen : j < (ns.take (j + 1)).length := by
      rw [List.length_take]; omega
    simp only [posAfter, iterTo]
    rw [List.getElem?_append_left hlen, List.getElem?_take_of_lt (by omega)]

theorem eq_of_fields (l l2 : SingleLinkedList) (hhd : l2.head_ = l.head_)
    (hsz : l2.size_ = l.size_) : l2 = l := by
  cases l; cases l2
  simp only at hhd hsz
  rw [hhd, hsz]

theorem deref_error {α : Type} (h : Heap α) (p : Ptr) (e : Fault)
    (he : deref h p = .error e) : e = .badAccess := by
  unfold deref at he
  split at he
  · cases he; rfl
  · split at he
    · cases he
    · cases he; rfl

theorem setNext_error {α : Type} (h : Heap α) (p nx : Ptr) (e : Fault)
    (he : setNext h p nx = .error e) : e = .badAccess := by
  unfold setNext at he
  split at he
  · cases he; rfl
  · split at he
    · cases he
    · cases he; rfl

theorem delete_error {α : Type} (h : Heap α) (p : Ptr) (e : Fault)
    (he : delete h p = .error e) : e = .badAccess := by
  unfold delete at he
  split at he
  · cases he
  · split at he
    · cases he
    · cases he; rfl

theorem new_error {α : Type} (h : Heap α) (n : Node α) (e : Fault)
    (he : new h n = .error e) : e = .badAlloc := by
  unfold new at he
  split at he
  · cases he
  · cases he; rfl

/-- The assertion of `InsertAfter` is the only source of the fault `assertion`. -/
theorem InsertAfter_assertion_iff {α : Type} (h : Heap α) (l : SingleLinkedList)
    (pos : BasicIterator) (v : α) :
    InsertAfter h l pos v = .error .assertion ↔ pos.node_ = none := by
  constructor
  · intro hrun
    by_contra hne
    simp only [InsertAfter, hne, if_false, bind, Except.bind] at hrun
    cases h1 : deref h pos.node_ with
    | error e =>
      rw [h1] at hrun
      have := deref_error h _ e h1
      subst this; cases hrun
    | ok n =>
      rw [h1] at hrun
      simp only at hrun
      cases h2 : new h ⟨v, n.next_node⟩ with
      | error e =>
        rw [h2] at hrun
        have := new_error h _ e h2
        subst this; cases hrun
      | ok r =>
        rw [h2] at hrun
        simp only at hrun
        cases h3 : setNext r.1 pos.node_ (some r.2) with
        | error e =>
          rw [h3] at hrun
          have := setNext_error _ _ _ e h3
          subst this; cases hrun
        | ok h4 =>
          rw [h3] at hrun
          cases hrun
  · intro hnone
    simp [InsertAfter, hnone]

/-- The assertion of `EraseAfter` is the only source of the fault `assertion`. -/
theorem EraseAfter_assertion_iff {α : Type} (h : Heap α) (l : SingleLinkedList)
    (pos : BasicIterator) :
    EraseAfter h l pos = .error .assertion ↔
      pos.node_ = none
        ∨ ∃ a n, pos.node_ = some a ∧ h.read a = some n ∧ n.next_node = none := by
  constructor
  · intro hrun
    by_contra hcon
    simp only [not_or] at hcon
    obtain ⟨hne, hno⟩ := hcon
    simp only [EraseAfter, hne, if_false, bind, Except.bind] at hrun
    cases h1 : deref h pos.node_ with
    | error e =>
      rw [h1] at hrun
      have := deref_error h _ e h1
      subst this; cases hrun
    | ok n =>
      rw [h1] at hrun
      simp only at hrun
      have hnn : n.next_node ≠ none := by
        intro hnn
        obtain ⟨a, ha⟩ := Option.ne_none_iff_exists'.1 hne
        apply hno
        refine ⟨a, n, ha, ?_, hnn⟩
        rw [ha] at h1
        unfold deref at h1
        simp only at h1
        split at h1
        · cases h1
          assumption
        · cases h1
      simp only [hnn, if_false] at hrun
      cases h2 : deref h n.next_node with
      | error e =>
        rw [h2] at hrun
        have := deref_error h _ e h2
        subst this; cases hrun
      | ok en =>
        rw [h2] at hrun
        simp only at hrun
        cases h3 : setNext h pos.node_ en.next_node with
        | error e =>
          rw [h3] at hrun
          have := setNext_error _ _ _ e h3
          subst this; cases hrun
        | ok hp1 =>
          rw [h3] at hrun
          simp only at hrun
          cases h4 : delete hp1 n.next_node with
          | error e =>
            rw [h4] at hrun
            have := delete_error _ _ e h4
            subst this; cases hrun
          | ok hp2 =>
            rw [h4] at hrun
            simp only at hrun
            cases h5 : deref hp2 pos.node_ with
            | error e =>
              rw [h5] at hrun
              have := deref_error _ _ e h5
              subst this; cases hrun
            | ok n2 =>
              rw [h5] at hrun
              cases hrun
  · rintro (hnone | ⟨a, n, ha, hr, hnn⟩)
    · simp [EraseAfter, hnone]
    · simp [EraseAfter, ha, deref_of_read h a n hr, hnn, bind, Except.bind]

theorem ClearLoop_empty {α : Type} (h : Heap α) (l : SingleLinkedList) (fuel : Nat)
    (hsz : l.size_ = 0) : ClearLoop (fuel + 1) h l = .ok (h, l, 0) := by
  simp [ClearLoop, hsz, pure, Except.pure]

theorem natLt_trichotomy (x y : Nat) :
    (natLt x y = true ∧ (x == y) = false ∧ natLt y x = false)
      ∨ (natLt x y = false ∧ (x == y) = true ∧ natLt y x = false)
      ∨ (natLt x y = false ∧ (x == y) = false ∧ natLt y x = true) := by
  simp only [natLt, decide_eq_true_eq, decide_eq_false_iff_not, beq_iff_eq, beq_eq_false_iff_ne]
  omega

/-- The nodes of a list object are determined by the heap. -/
theorem Rep_unique {α : Type} (h : Heap α) (l : SingleLinkedList) (ns ms : List (Nat × α))
    (h1 : Rep h l ns) (h2 : Rep h l ms) : ns = ms := by
  obtain ⟨hd, sv, hl, hs, _⟩ := h1
  obtain ⟨hd2, sv2, hl2, hs2, _⟩ := h2
  rw [hl] at hl2
  have hhd : hd = hd2 := Option.some.inj hl2
  subst hhd
  have := Seg_unique h _ _ (some hd) hs hs2
  simp only [List.cons.injEq] at this
  exact this.2

theorem PopFrontN_Rep {α : Type} (h : Heap α) (l : SingleLinkedList) (ns : List (Nat × α))
    (k : Nat) (hrep : Rep h l ns) (hk : k ≤ ns.length) :
    ∃ hk2 lk, PopFrontN k h l = .ok (hk2, lk) ∧ Rep hk2 lk (ns.drop k) := by
  induction k generalizing h l ns with
  | zero => exact ⟨h, l, rfl, by simpa using hrep⟩
  | succ k ih =>
    cases ns with
    | nil => simp at hk
    | cons n ns =>
      obtain ⟨a, x⟩ := n
      obtain ⟨h1, l1, hrun, hrep1, _⟩ := PopFront_Rep h l a x ns hrep
      obtain ⟨h2, l2, hrun2, hrep2⟩ := ih h1 l1 ns hrep1 (by simpa using hk)
      refine ⟨h2, l2, ?_, by simpa using hrep2⟩
      simp [PopFrontN, hrun, hrun2, bind, Except.bind]

/-- The loop of `Clear` is `size_` calls of `PopFront`. -/
theorem ClearLoop_eq_PopFrontN {α : Type} (h : Heap α) (l : SingleLinkedList)
    (ns : List (Nat × α)) (fuel : Nat) (hrep : Rep h l ns) (hf : ns.length < fuel) :
    ClearLoop fuel h l = (PopFrontN ns.length h l).map (fun r => (r.1, r.2, ns.length)) := by
  induction ns generalizing h l fuel with
  | nil =>
    cases fuel with
    | zero => simp at hf
    | succ k =>
      obtain ⟨_, _, _, _, hsz⟩ := hrep
      have : l.size_ = 0 := hsz
      simp [ClearLoop, PopFrontN, this, pure, Except.pure, Except.map]
  | cons n ns ih =>
    obtain ⟨a, x⟩ := n
    cases fuel with
    | zero => simp at hf
    | succ k =>
      obtain ⟨h1, l1, hrun, hrep1, hsz, _⟩ := PopFront_Rep h l a x ns hrep
      have hpos : 0 < l.size_ := by omega
      have hrec := ih h1 l1 k hrep1 (by simpa using hf)
      simp only [ClearLoop, gt_iff_lt, hpos, if_true, hrun, bind, Except.bind, hrec, PopFrontN,
        List.length_cons]
      cases PopFrontN ns.length h1 l1 with
      | error e => rfl
      | ok r => rfl

/-! ## The claims -/

/-- Claim C1: for every sequence `S`, the list built from `S` by the range
constructor, by the initializer-list constructor, and by the copy constructor
from a list holding `S`, is built without a fault (given room for its
`|S| + 1` nodes and fuel for the loops), iterates from `begin()` to `end()`
over exactly `S` in order, and has `GetSize() = |S|`. -/
theorem C1_constructors_keep_order {α : Type} [Inhabited α] (S : List α) (h : Heap α)
    (fuel : Nat) (hroom : h.cells.length + 1 + S.length ≤ addrSpace) (hf : S.length < fuel) :
    (∃ h2 l2, rangeCtor (arrayIt S) fuel h 0 S.length = .ok (h2, l2)
        ∧ elements fuel h2 l2 = .ok S ∧ l2.GetSize = S.length)
    ∧ (∃ h2 l2, initCtor fuel h S = .ok (h2, l2)
        ∧ elements fuel h2 l2 = .ok S ∧ l2.GetSize = S.length)
    ∧ (∀ (other : SingleLinkedList) (ms : List (Nat × α)), Rep h other ms → vals ms = S →
        ∃ h2 l2, copyCtor fuel h other = .ok (h2, l2)
          ∧ elements fuel h2 l2 = .ok S ∧ l2.GetSize = S.length
          ∧ elements fuel h2 other = .ok S) := by
  have hinit : ∃ h2 l2, initCtor fuel h S = .ok (h2, l2)
      ∧ elements fuel h2 l2 = .ok S ∧ l2.GetSize = S.length := by
    obtain ⟨h2, l2, ns2, hrun, hrep, hvals, _⟩ := initCtor_run S h fuel hroom hf
    have hlen : ns2.length = S.length := by
      have := congrArg List.length hvals
      simpa [vals] using this
    refine ⟨h2, l2, hrun, ?_, ?_⟩
    · rw [elements_Rep h2 l2 ns2 fuel hrep (by omega), hvals]
    · obtain ⟨_, _, _, _, hsz⟩ := hrep
      simp [GetSize, hsz, hlen]
  refine ⟨hinit, hinit, ?_⟩
  intro other ms hother hS
  have hlen : ms.length = S.length := by
    have := congrArg List.length hS
    simpa [vals] using this
  obtain ⟨h2, l2, ns2, hrun, hrep, hvals, _, _, _, hfr⟩ :=
    copyCtor_run h other ms fuel hother (by omega) (by omega)
  have hlen2 : ns2.length = S.length := by
    have := congrArg List.length hvals
    simp only [vals, List.length_map] at this
    omega
  have hother2 : Rep h2 other ms := Rep_frame h h2 other ms [] hother hfr (fun _ _ => by simp)
  refine ⟨h2, l2, hrun, ?_, ?_, ?_⟩
  · rw [elements_Rep h2 l2 ns2 fuel hrep (by omega), hvals, hS]
  · obtain ⟨_, _, _, _, hsz⟩ := hrep
    simp [GetSize, hsz, hlen2]
  · rw [elements_Rep h2 other ms fuel hother2 (by omega), hS]

/-- Claim C1, at the sequence {1,2,3,4} in the empty heap, and at the copy of
the list `[1, 2, 3]` of `heap123`. -/
theorem C1_constructors_keep_order_witness :
    (∃ h2 l2, initCtor 5 (Heap.empty : Heap Nat) [1, 2, 3, 4] = .ok (h2, l2)
        ∧ elements 5 h2 l2 = .ok [1, 2, 3, 4] ∧ l2.GetSize = 4)
    ∧ (∃ h2 l2, copyCtor 4 heap123 list123 = .ok (h2, l2)
        ∧ elements 4 h2 l2 = .ok [1, 2, 3] ∧ l2.GetSize = 3
        ∧ elements 4 h2 list123 = .ok [1, 2, 3]) :=
  ⟨(C1_constructors_keep_order [1, 2, 3, 4] Heap.empty 5 (by decide) (by decide)).2.1,
    (C1_constructors_keep_order [1, 2, 3] heap123 4 (by decide) (by decide)).2.2
      list123 nodes123 Rep_heap123 rfl⟩

/-- Claim C2: the list invariant (`size_` is the number of real nodes behind
the sentinel, and the sentinel's next edge is null iff `size_` is zero) holds
for the list that the default constructor and the range constructor build in
any heap (given room for the nodes and fuel for the loops), and every
mutating operation run on a list that satisfies it returns a list that
satisfies it: `PushFront`, `PopFront`, `InsertAfter` and `EraseAfter` at a
position of the list that meets their precondition, `Clear`, `Reverse`,
`swap`, copy assignment and the copy through the range constructor. -/
theorem C2_invariant_preserved {α : Type} [Inhabited α] :
    (∀ h0 : Heap α, h0.cells.length < addrSpace →
        ∃ h2 l2, SingleLinkedList.ctor h0 = .ok (h2, l2) ∧ Inv h2 l2)
    ∧ (∀ (h0 : Heap α) (S : List α) (fuel : Nat), h0.cells.length + 1 + S.length ≤ addrSpace →
        S.length < fuel →
        ∃ h2 l2, rangeCtor (arrayIt S) fuel h0 0 S.length = .ok (h2, l2) ∧ Inv h2 l2)
    ∧ (∀ (h : Heap α) (l : SingleLinkedList), Inv h l →
      (∀ v : α, h.cells.length < addrSpace →
          ∃ h2 l2, PushFront h l v = .ok (h2, l2) ∧ Inv h2 l2)
      ∧ (∃ h2 l2, PopFront h l = .ok (h2, l2) ∧ Inv h2 l2)
      ∧ (∀ (ns : List (Nat × α)) (k : Nat) (v : α), Rep h l ns → k ≤ ns.length →
          h.cells.length < addrSpace →
          ∃ h2 l2 it, InsertAfter h l (posAfter l ns k) v = .ok (h2, l2, it) ∧ Inv h2 l2)
      ∧ (∀ (ns : List (Nat × α)) (k : Nat), Rep h l ns → k < ns.length →
          ∃ h2 l2 it, EraseAfter h l (posAfter l ns k) = .ok (h2, l2, it) ∧ Inv h2 l2)
      ∧ (∀ fuel, l.size_ < fuel → ∃ h2 l2, Clear fuel h l = .ok (h2, l2) ∧ Inv h2 l2)
      ∧ (∀ fuel, l.size_ < fuel → ∃ h2 l2, Reverse fuel h l = .ok (h2, l2) ∧ Inv h2 l2)
      ∧ (∀ other : SingleLinkedList, Inv h other →
          Inv h (SingleLinkedList.swap l other).1 ∧ Inv h (SingleLinkedList.swap l other).2)
      ∧ (∀ (rhs : SingleLinkedList) (ns ms : List (Nat × α)) (fuel : Nat),
          Rep h l ns → Rep h rhs ms → h.cells.length + 1 + ms.length ≤ addrSpace →
          ms.length < fuel → ns.length < fuel →
          ∃ h2 l2, assign fuel h l rhs = .ok (h2, l2) ∧ Inv h2 l2
            ∧ ((∀ c ∈ footprint rhs ms, c ∉ footprint l ns) → Inv h2 rhs))
      ∧ (∀ (S : List α) (fuel : Nat), h.cells.length + 1 + S.length ≤ addrSpace →
          S.length < fuel →
          ∃ h2 l2, rangeCtor (arrayIt S) fuel h 0 S.length = .ok (h2, l2) ∧ Inv h2 l2
            ∧ Inv h2 l)
      ∧ (∀ fuel : Nat, h.cells.length + 1 + l.size_ ≤ addrSpace → l.size_ < fuel →
          ∃ h2 l2, copyCtor fuel h l = .ok (h2, l2) ∧ Inv h2 l2 ∧ Inv h2 l)) := by
  refine ⟨?_, ?_, ?_⟩
  · intro h0 hroom
    obtain ⟨h2, hrun, hrep, _⟩ := @ctor_Rep α _ h0 hroom
    exact ⟨h2, _, hrun, Rep_Inv _ _ _ hrep⟩
  · intro h0 S fuel hroom hf
    obtain ⟨h2, l2, ns2, hrun, hrep2, _⟩ := initCtor_run S h0 fuel hroom hf
    exact ⟨h2, l2, hrun, Rep_Inv _ _ _ hrep2⟩
  intro h l hinv
  obtain ⟨ns0, hrep0⟩ := Inv_Rep h l hinv
  have hsz0 : l.size_ = ns0.length := by
    obtain ⟨_, _, _, _, hsz⟩ := hrep0; exact hsz
  refine ⟨?_, ?_, ?_, ?_, ?_, ?_, ?_, ?_, ?_, ?_⟩
  · intro v hroom
    obtain ⟨h2, l2, hrun, hrep, _⟩ := PushFront_Rep h l ns0 v hrep0 hroom
    exact ⟨h2, l2, hrun, Rep_Inv _ _ _ hrep⟩
  · cases ns0 with
    | nil => exact ⟨h, l, PopFront_empty h l hrep0, hinv⟩
    | cons n ns =>
      obtain ⟨a, x⟩ := n
      obtain ⟨h2, l2, hrun, hrep, _⟩ := PopFront_Rep h l a x ns hrep0
      exact ⟨h2, l2, hrun, Rep_Inv _ _ _ hrep⟩
  · intro ns k v hrep hk hroom
    obtain ⟨h2, l2, hrun, hrep2, _⟩ := InsertAfter_Rep h l ns k v hrep hk hroom
    exact ⟨h2, l2, _, hrun, Rep_Inv _ _ _ hrep2⟩
  · intro ns k hrep hk
    obtain ⟨h2, l2, hrun, hrep2, _⟩ := EraseAfter_Rep h l ns k hrep hk
    exact ⟨h2, l2, _, hrun, Rep_Inv _ _ _ hrep2⟩
  · intro fuel hf
    obtain ⟨h2, l2, hrun, hrep2, _⟩ := ClearLoop_Rep h l ns0 fuel hrep0 (by omega)
    refine ⟨h2, l2, ?_, Rep_Inv _ _ _ hrep2⟩
    simp [Clear, hrun, bind, Except.bind, pure, Except.pure]
  · intro fuel hf
    obtain ⟨h2, hrun, hrep2, _⟩ := Reverse_Rep h l ns0 fuel hrep0 (by omega)
    exact ⟨h2, l, hrun, Rep_Inv _ _ _ hrep2⟩
  · intro other hother
    exact ⟨hother, hinv⟩
  · intro rhs ns ms fuel hl hr hroom hf1 hf2
    obtain ⟨h2, l2, ns2, hrun, hrep2, _, _, hfr⟩ := assign_run h l rhs ns ms fuel hl hr hroom hf1 hf2
    refine ⟨h2, l2, hrun, Rep_Inv _ _ _ hrep2, fun hdisj => ?_⟩
    exact Rep_Inv _ _ _ (Rep_frame h h2 rhs ms _ hr hfr hdisj)
  · intro S fuel hroom hf
    obtain ⟨h2, l2, ns2, hrun, hrep2, _, _, _, _, hfr⟩ := initCtor_run S h fuel hroom hf
    exact ⟨h2, l2, hrun, Rep_Inv _ _ _ hrep2,
      Rep_Inv _ _ _ (Rep_frame h h2 l ns0 [] hrep0 hfr (fun _ _ => by simp))⟩
  · intro fuel hroom hf
    obtain ⟨h2, l2, ns2, hrun, hrep2, _, _, _, _, hfr⟩ :=
      copyCtor_run h l ns0 fuel hrep0 (by omega) (by omega)
    exact ⟨h2, l2, hrun, Rep_Inv _ _ _ hrep2,
      Rep_Inv _ _ _ (Rep_frame h h2 l ns0 [] hrep0 hfr (fun _ _ => by simp))⟩

/-- Claim C2 at the empty heap for the two constructors, and at the list
`[1, 2]` of `heapTwo` for the operations, with the list `[7]` of the same heap
as the other operand of `swap` and of the assignment. -/
theorem C2_invariant_preserved_witness :
    (∃ h2 l2, @SingleLinkedList.ctor Nat _ Heap.empty = .ok (h2, l2) ∧ Inv h2 l2)
    ∧ (∃ h2 l2, rangeCtor (arrayIt [4, 5, 6]) 4 (Heap.empty : Heap Nat) 0 3 = .ok (h2, l2)
        ∧ Inv h2 l2)
    ∧ Inv heapTwo listA
    ∧ (∃ h2 l2, PushFront heapTwo listA 5 = .ok (h2, l2) ∧ Inv h2 l2)
    ∧ (∃ h2 l2, PopFront heapTwo listA = .ok (h2, l2) ∧ Inv h2 l2)
    ∧ (∃ h2 l2 it, InsertAfter heapTwo listA (posAfter listA nodesA 2) 5 = .ok (h2, l2, it)
        ∧ Inv h2 l2)
    ∧ (∃ h2 l2 it, EraseAfter heapTwo listA (posAfter listA nodesA 1) = .ok (h2, l2, it)
        ∧ Inv h2 l2)
    ∧ (∃ h2 l2, Clear 3 heapTwo listA = .ok (h2, l2) ∧ Inv h2 l2)
    ∧ (∃ h2 l2, Reverse 3 heapTwo listA = .ok (h2, l2) ∧ Inv h2 l2)
    ∧ (Inv heapTwo (SingleLinkedList.swap listA listB).1
        ∧ Inv heapTwo (SingleLinkedList.swap listA listB).2)
    ∧ (∃ h2 l2, assign 3 heapTwo listA listB = .ok (h2, l2) ∧ Inv h2 l2 ∧ Inv h2 listB)
    ∧ (∃ h2 l2, rangeCtor (arrayIt [4, 5, 6]) 4 heapTwo 0 3 = .ok (h2, l2) ∧ Inv h2 l2
        ∧ Inv h2 listA)
    ∧ (∃ h2 l2, copyCtor 3 heapTwo listA = .ok (h2, l2) ∧ Inv h2 l2 ∧ Inv h2 listA) :=
  have G := @C2_invariant_preserved Nat _
  have H := G.2.2 heapTwo listA (Rep_Inv _ _ _ Rep_listA)
  ⟨G.1 Heap.empty (by decide),
    G.2.1 Heap.empty [4, 5, 6] 4 (by decide) (by decide),
    Rep_Inv _ _ _ Rep_listA,
    H.1 5 (by decide),
    H.2.1,
    H.2.2.1 nodesA 2 5 Rep_listA (by decide) (by decide),
    H.2.2.2.1 nodesA 1 Rep_listA (by decide),
    H.2.2.2.2.1 3 (by decide),
    H.2.2.2.2.2.1 3 (by decide),
    H.2.2.2.2.2.2.1 listB (Rep_Inv _ _ _ Rep_listB),
    (fun ⟨h2, l2, h1, h3, h4⟩ => ⟨h2, l2, h1, h3, h4 (by decide)⟩)
      (H.2.2.2.2.2.2.2.1 listB nodesA nodesB 3 Rep_listA Rep_listB (by decide) (by decide)
        (by decide)),
    H.2.2.2.2.2.2.2.2.1 [4, 5, 6] 4 (by decide) (by decide),
    H.2.2.2.2.2.2.2.2.2 3 (by decide) (by decide)⟩

/-- Claim C3 fails for a list reached through the public operations when
`EraseAfter` is given a position of another list: with `a` empty and `b`
holding `[7]`, the call `a.EraseAfter(b.before_begin())` passes both
assertions and decrements `a`'s `size_` from 0, so `a.GetSize()` is `2^64 - 1`
and `a.IsEmpty()` is false, while `a.begin() == a.end()` and the traversal of
`a` yields nothing. -/
theorem C3_counterexample :
    (do
        let (h0, a) ← @SingleLinkedList.ctor Nat _ Heap.empty
        let (h1, b) ← @SingleLinkedList.ctor Nat _ h0
        let (h2, b2) ← PushFront h1 b 7
        let (h3, a3, _) ← EraseAfter h2 a b2.before_begin
        let first ← SingleLinkedList.begin h3 a3
        let xs ← elements 2 h3 a3
        pure (a3.GetSize, a3.IsEmpty, first.eq a3.end_, xs))
      = .ok (2 ^ 64 - 1, false, true, [])
    ∧ (2 ^ 64 - 1 : Nat) ≠ 0 :=
  ⟨rfl, by decide⟩

/-- Claim C3, amended: for a list that satisfies the list invariant (which
the constructors establish and the operations preserve when `InsertAfter` and
`EraseAfter` are given a position of the list they are called on), `IsEmpty()`
is `GetSize() == 0`, the traversal from `begin()` to `end()` returns a sequence
that is empty exactly when `GetSize() == 0`, and `begin()` returns an iterator
that equals `end()` exactly when `GetSize() == 0`. -/
theorem C3_empty_characterisations {α : Type} (h : Heap α) (l : SingleLinkedList)
    (hinv : Inv h l) :
    (l.IsEmpty = true ↔ l.GetSize = 0)
    ∧ (∃ xs : List α, (∀ fuel, l.GetSize < fuel → elements fuel h l = .ok xs)
        ∧ (xs = [] ↔ l.GetSize = 0))
    ∧ (∃ first, SingleLinkedList.begin h l = .ok first
        ∧ (first.eq l.end_ = true ↔ l.GetSize = 0)
        ∧ (first = l.end_ ↔ l.GetSize = 0)) := by
  obtain ⟨ns, hrep⟩ := Inv_Rep h l hinv
  have hbegin := begin_Rep h l ns hrep
  have hsz : l.size_ = ns.length := by
    obtain ⟨_, _, _, _, hsz⟩ := hrep; exact hsz
  refine ⟨by simp [SingleLinkedList.IsEmpty, GetSize], ⟨vals ns, ?_, ?_⟩, ⟨iterTo ns 0, hbegin, ?_, ?_⟩⟩
  · intro fuel hf
    exact elements_Rep h l ns fuel hrep (by simp only [GetSize] at hf; omega)
  · simp [vals, GetSize, hsz]
  · cases ns with
    | nil => simp [iterTo, end_, BasicIterator.eq, GetSize, hsz]
    | cons n ns => simp [iterTo, end_, BasicIterator.eq, GetSize, hsz]
  · cases ns with
    | nil => simp [iterTo, end_, GetSize, hsz]
    | cons n ns => simp [iterTo, end_, GetSize, hsz]

/-- Claim C3, amended, at the list `[1, 2, 3]` of `heap123`, which is not empty. -/
theorem C3_empty_characterisations_witness :
    (list123.IsEmpty = true ↔ list123.GetSize = 0)
    ∧ (∃ xs : List Nat, (∀ fuel, list123.GetSize < fuel → elements fuel heap123 list123 = .ok xs)
        ∧ (xs = [] ↔ list123.GetSize = 0))
    ∧ (∃ first, SingleLinkedList.begin heap123 list123 = .ok first
        ∧ (first.eq list123.end_ = true ↔ list123.GetSize = 0)
        ∧ (first = list123.end_ ↔ list123.GetSize = 0)) :=
  C3_empty_characterisations heap123 list123 (Rep_Inv _ _ _ Rep_heap123)

/-- Claim C4: on a list with nodes `ns`, `PushFront(v)` (given room for one
node) returns a list whose first node is new and holds `v`, followed by the
nodes `ns` unchanged; its element sequence is `v` followed by the prior
elements and `GetSize()` is one more. -/
theorem C4_PushFront {α : Type} (h : Heap α) (l : SingleLinkedList) (ns : List (Nat × α))
    (v : α) (hrep : Rep h l ns) (hroom : h.cells.length < addrSpace) :
    ∃ h2 l2, PushFront h l v = .ok (h2, l2)
      ∧ Rep h2 l2 ((h.cells.length, v) :: ns)
      ∧ (∀ fuel, ns.length + 1 < fuel → elements fuel h2 l2 = .ok (v :: vals ns))
      ∧ l2.GetSize = l.GetSize + 1 := by
  obtain ⟨h2, l2, hrun, hrep2, hsz, _⟩ := PushFront_Rep h l ns v hrep hroom
  refine ⟨h2, l2, hrun, hrep2, fun fuel hf => ?_, hsz⟩
  rw [elements_Rep h2 l2 _ fuel hrep2 (by simpa using hf)]
  simp [vals]

/-- Claim C4 at the list `[1, 2, 3]` of `heap123` and the value 9. -/
theorem C4_PushFront_witness :
    ∃ h2 l2, PushFront heap123 list123 9 = .ok (h2, l2)
      ∧ Rep h2 l2 ((4, 9) :: nodes123)
      ∧ (∀ fuel, 3 + 1 < fuel → elements fuel h2 l2 = .ok [9, 1, 2, 3])
      ∧ l2.GetSize = 3 + 1 :=
  C4_PushFront heap123 list123 nodes123 9 Rep_heap123 (by decide)

/-- Claim C5: on a list with nodes `ns`, `PopFront()` returns without a fault;
the list is left with the nodes `ns.tail`, so with the prior elements but the
first, and `GetSize()` is one less when the list was not empty; on the empty
list neither the heap nor the list object changes and the size stays 0. -/
theorem C5_PopFront {α : Type} (h : Heap α) (l : SingleLinkedList) (ns : List (Nat × α))
    (hrep : Rep h l ns) :
    ∃ h2 l2, PopFront h l = .ok (h2, l2)
      ∧ Rep h2 l2 ns.tail
      ∧ (∀ fuel, ns.length < fuel → elements fuel h2 l2 = .ok (vals ns).tail)
      ∧ (ns ≠ [] → l2.GetSize + 1 = l.GetSize)
      ∧ (ns = [] → h2 = h ∧ l2 = l ∧ l2.GetSize = 0) := by
  cases ns with
  | nil =>
    refine ⟨h, l, PopFront_empty h l hrep, hrep, fun fuel hf => ?_, fun hne => absurd rfl hne,
      fun _ => ⟨rfl, rfl, ?_⟩⟩
    · exact elements_Rep h l _ fuel hrep hf
    · obtain ⟨_, _, _, _, hsz⟩ := hrep
      exact hsz
  | cons n ns =>
    obtain ⟨a, x⟩ := n
    obtain ⟨h2, l2, hrun, hrep2, hsz, _⟩ := PopFront_Rep h l a x ns hrep
    refine ⟨h2, l2, hrun, hrep2, fun fuel hf => ?_, fun _ => hsz, fun hnil => by simp at hnil⟩
    rw [elements_Rep h2 l2 ns fuel hrep2 (by simp at hf; omega)]
    simp [vals]

/-- Claim C5 at the list `[1, 2, 3]` of `heap123` and at the empty list of
`heapNil`. -/
theorem C5_PopFront_witness :
    (∃ h2 l2, PopFront heap123 list123 = .ok (h2, l2)
      ∧ Rep h2 l2 [(2, 2), (1, 3)]
      ∧ (∀ fuel, 3 < fuel → elements fuel h2 l2 = .ok [2, 3])
      ∧ l2.GetSize + 1 = 3)
    ∧ (∃ h2 l2, PopFront heapNil listNil = .ok (h2, l2)
      ∧ (∀ fuel, 0 < fuel → elements fuel h2 l2 = .ok ([] : List Nat))
      ∧ h2 = heapNil ∧ l2 = listNil ∧ l2.GetSize = 0) :=
  ⟨(fun ⟨h2, l2, h1, h3, h4, h5, _⟩ => ⟨h2, l2, h1, h3, h4, h5 (by decide)⟩)
      (C5_PopFront heap123 list123 nodes123 Rep_heap123),
    (fun ⟨h2, l2, h1, _, h4, _, h6⟩ => ⟨h2, l2, h1, h4, h6 rfl⟩)
      (C5_PopFront heapNil listNil [] Rep_heapNil)⟩

/-- Claim C6: on a list with the `n` nodes `ns`, at the position `p` that lies
after exactly `k ≤ n` elements (`before_begin()` for `k = 0`), `InsertAfter(p, v)`
(given room for one node) leaves the first `k` nodes, then a new node holding
`v`, then the remaining `n - k` nodes, all prior nodes unchanged; the
elements are the first `k`, then `v`, then the rest; `GetSize()` is one more;
the returned iterator is the one to the new node, which is the element of
index `k`, and dereferences to `v`. -/
theorem C6_InsertAfter {α : Type} (h : Heap α) (l : SingleLinkedList) (ns : List (Nat × α))
    (k : Nat) (v : α) (hrep : Rep h l ns) (hk : k ≤ ns.length)
    (hroom : h.cells.length < addrSpace) :
    ∃ h2 l2 it, InsertAfter h l (posAfter l ns k) v = .ok (h2, l2, it)
      ∧ Rep h2 l2 (ns.take k ++ (h.cells.length, v) :: ns.drop k)
      ∧ (∀ fuel, ns.length + 1 < fuel →
          elements fuel h2 l2 = .ok ((vals ns).take k ++ [v] ++ (vals ns).drop k))
      ∧ l2.GetSize = l.GetSize + 1
      ∧ it.node_ = some h.cells.length
      ∧ it = iterTo (ns.take k ++ (h.cells.length, v) :: ns.drop k) k
      ∧ it.star h2 = .ok v := by
  obtain ⟨h2, l2, hrun, hrep2, hsz, _⟩ := InsertAfter_Rep h l ns k v hrep hk hroom
  have hlen : (ns.take k).length = k := by simp [List.length_take]; omega
  have hidx : (ns.take k ++ (h.cells.length, v) :: ns.drop k)[k]? = some (h.cells.length, v) := by
    rw [List.getElem?_append_right (by omega), hlen]; simp
  have hklt : k < (ns.take k ++ (h.cells.length, v) :: ns.drop k).length := by
    simp [List.length_append]; omega
  refine ⟨h2, l2, _, hrun, hrep2, fun fuel hf => ?_, hsz, rfl, ?_, ?_⟩
  · rw [elements_Rep h2 l2 _ fuel hrep2 (by
      simp only [List.length_append, List.length_take, List.length_cons, List.length_drop]
      omega)]
    simp [vals, List.map_take, List.map_drop]
  · simp [iterTo, hidx]
  · obtain ⟨hd, sv, _, hs, _⟩ := hrep2
    obtain ⟨_, nx, _, htl⟩ := hs
    have hrd := Seg_read_at h2 _ nx htl k hklt
    have hget : (ns.take k ++ (h.cells.length, v) :: ns.drop k)[k] = (h.cells.length, v) := by
      have := List.getElem?_eq_getElem hklt
      rw [hidx] at this
      exact (Option.some.inj this).symm
    rw [hget] at hrd
    simp [BasicIterator.star, deref_of_read h2 _ _ hrd, bind, Except.bind, pure, Except.pure]

/-- Claim C6 at the list `[1, 2, 3]` of `heap123`, after two elements. -/
theorem C6_InsertAfter_witness :
    ∃ h2 l2 it, InsertAfter heap123 list123 (posAfter list123 nodes123 2) 9 = .ok (h2, l2, it)
      ∧ Rep h2 l2 [(3, 1), (2, 2), (4, 9), (1, 3)]
      ∧ (∀ fuel, 3 + 1 < fuel → elements fuel h2 l2 = .ok [1, 2, 9, 3])
      ∧ l2.GetSize = 3 + 1
      ∧ it.node_ = some 4
      ∧ it = iterTo [(3, 1), (2, 2), (4, 9), (1, 3)] 2
      ∧ it.star h2 = .ok 9 :=
  C6_InsertAfter heap123 list123 nodes123 2 9 Rep_heap123 (by decide) (by decide)

/-- Claim C7: on a list with the `n` nodes `ns`, at the position `p` that lies
after exactly `k < n` elements (`before_begin()` for `k = 0`), `EraseAfter(p)`
frees the node of index `k` and leaves the other nodes unchanged and in
order, without allocating; the elements are the prior ones without the one of
index `k`; `GetSize()` is one less; the returned iterator is the one to the
element that now follows `p` (index `k` of the new list), and it is `end()`
exactly when the erased element was the last one. -/
theorem C7_EraseAfter {α : Type} (h : Heap α) (l : SingleLinkedList) (ns : List (Nat × α))
    (k : Nat) (hrep : Rep h l ns) (hk : k < ns.length) :
    ∃ h2 l2 it, EraseAfter h l (posAfter l ns k) = .ok (h2, l2, it)
      ∧ Rep h2 l2 (ns.take k ++ ns.drop (k + 1))
      ∧ h2.cells.length = h.cells.length
      ∧ h2.read ns[k].1 = none
      ∧ (∀ fuel, ns.length < fuel →
          elements fuel h2 l2 = .ok ((vals ns).take k ++ (vals ns).drop (k + 1)))
      ∧ l2.GetSize + 1 = l.GetSize
      ∧ it = iterTo (ns.take k ++ ns.drop (k + 1)) k
      ∧ (it = l2.end_ ↔ k + 1 = ns.length) := by
  obtain ⟨h2, l2, hrun, hrep2, hsz, _, hlen, hdead, _⟩ := EraseAfter_Rep h l ns k hrep hk
  have hlenk : (ns.take k).length = k := by simp [List.length_take]; omega
  have hidx : (ns.take k ++ ns.drop (k + 1))[k]? = ns[k + 1]? := by
    rw [List.getElem?_append_right (by omega), hlenk]; simp
  refine ⟨h2, l2, _, hrun, hrep2, hlen, hdead, fun fuel hf => ?_, hsz, ?_, ?_⟩
  · rw [elements_Rep h2 l2 _ fuel hrep2 (by
      simp only [List.length_append, List.length_take, List.length_drop]
      omega)]
    simp [vals, List.map_take, List.map_drop]
  · simp [iterTo, hidx]
  · simp only [iterTo, end_, BasicIterator.mk.injEq, Option.map_eq_none']
    rw [List.getElem?_eq_none_iff]
    omega

/-- Claim C7 at the list `[1, 2, 3]` that `PushFront(3)`, `PushFront(2)`,
`PushFront(1)` build in the empty heap: `EraseAfter(before_begin())` leaves
`[2, 3]` with size 2, and `InsertAfter(before_begin(), 9)` then gives
`[9, 2, 3]`. -/
theorem C7_EraseAfter_witness :
    (do
        let (h0, l0) ← @SingleLinkedList.ctor Nat _ Heap.empty
        let (h1, l1) ← PushFront h0 l0 3
        let (h2, l2) ← PushFront h1 l1 2
        let (h3, l3) ← PushFront h2 l2 1
        pure (h3.cells, l3)) = .ok (heap123.cells, list123)
    ∧ (∃ h2 l2 it, EraseAfter heap123 list123 list123.before_begin = .ok (h2, l2, it)
        ∧ Rep h2 l2 [(2, 2), (1, 3)]
        ∧ h2.cells.length = 4
        ∧ h2.read 3 = none
        ∧ (∀ fuel, 3 < fuel → elements fuel h2 l2 = .ok [2, 3])
        ∧ l2.GetSize + 1 = 3
        ∧ it = iterTo [(2, 2), (1, 3)] 0
        ∧ (it = l2.end_ ↔ 0 + 1 = 3))
    ∧ (do
        let (h2, l2, _) ← EraseAfter heap123 list123 list123.before_begin
        let xs ← elements 4 h2 l2
        let (h3, l3, _) ← InsertAfter h2 l2 l2.before_begin 9
        let ys ← elements 4 h3 l3
        pure (xs, l2.GetSize, ys)) = .ok ([2, 3], 2, [9, 2, 3]) :=
  ⟨rfl, C7_EraseAfter heap123 list123 nodes123 0 Rep_heap123 (by decide), rfl⟩

/-- Claim C8: on a list with nodes `ns`, `Reverse()` (given fuel for its loop)
returns without a fault and leaves the same nodes in reverse order, so the
former last node is the one behind the sentinel; the elements are the prior
ones reversed, `GetSize()` is unchanged, no cell is allocated, and the empty
list stays empty. -/
theorem C8_Reverse {α : Type} (h : Heap α) (l : SingleLinkedList) (ns : List (Nat × α))
    (fuel : Nat) (hrep : Rep h l ns) (hf : ns.length < fuel) :
    ∃ h2 l2, Reverse fuel h l = .ok (h2, l2)
      ∧ Rep h2 l2 ns.reverse
      ∧ (∀ fuel2, ns.length < fuel2 → elements fuel2 h2 l2 = .ok (vals ns).reverse)
      ∧ l2.GetSize = l.GetSize
      ∧ h2.cells.length = h.cells.length
      ∧ SingleLinkedList.begin h2 l2 = .ok ⟨(ns.getLast?).map Prod.fst⟩
      ∧ (ns = [] → l2.GetSize = 0 ∧ SingleLinkedList.begin h2 l2 = .ok l2.end_) := by
  obtain ⟨h2, hrun, hrep2, hlen, _⟩ := Reverse_Rep h l ns fuel hrep hf
  have hbegin := begin_Rep h2 l _ hrep2
  have hfirst : iterTo ns.reverse 0 = ⟨(ns.getLast?).map Prod.fst⟩ := by
    simp [iterTo, ← List.head?_eq_getElem?, List.head?_reverse]
  refine ⟨h2, l, hrun, hrep2, fun fuel2 hf2 => ?_, rfl, hlen, by rw [hbegin, hfirst], ?_⟩
  · rw [elements_Rep h2 l _ fuel2 hrep2 (by simpa using hf2)]
    simp [vals]
  · intro hnil
    subst hnil
    obtain ⟨_, _, _, _, hsz⟩ := hrep
    exact ⟨hsz, by rw [hbegin]; rfl⟩

/-- Claim C8 at the list `[1, 2, 3]` of `heap123`. -/
theorem C8_Reverse_witness :
    ∃ h2 l2, Reverse 4 heap123 list123 = .ok (h2, l2)
      ∧ Rep h2 l2 [(1, 3), (2, 2), (3, 1)]
      ∧ (∀ fuel2, 3 < fuel2 → elements fuel2 h2 l2 = .ok [3, 2, 1])
      ∧ l2.GetSize = 3
      ∧ h2.cells.length = 4
      ∧ SingleLinkedList.begin h2 l2 = .ok ⟨some 1⟩
      ∧ (nodes123 = [] → l2.GetSize = 0 ∧ SingleLinkedList.begin h2 l2 = .ok l2.end_) :=
  C8_Reverse heap123 list123 nodes123 4 Rep_heap123 (by decide)

/-- Claim C9 fails as stated in two ways.  With an element whose `==` is not
reflexive (`Num.nan`, as the NaN of `double`), after `c = a` on the list
`a = [nan]` the call `c == a` returns false.  And a mutating call on one list
with a position of the other changes the other: after `c = a` on `a = [1, 2]`,
`c.InsertAfter(a.before_begin(), 9)` returns and leaves `a` iterating over
`[9, 1, 2]` with `GetSize()` still 2. -/
theorem C9_counterexample :
    (do
        let (h0, a) ← initCtor 2 (Heap.empty : Heap Num) [Num.nan]
        let (h1, c) ← @SingleLinkedList.ctor Num _ h0
        let (h2, c2) ← assign 2 h1 c a
        let xs ← elements 2 h2 c2
        let r ← operator_eq 2 h2 c2 a
        pure (xs, c2.GetSize, r)) = .ok ([Num.nan], 1, false)
    ∧ (do
        let (h0, a) ← initCtor 3 (Heap.empty : Heap Nat) [1, 2]
        let (h1, c) ← @SingleLinkedList.ctor Nat _ h0
        let (h2, c2) ← assign 3 h1 c a
        let before ← elements 4 h2 a
        let (h3, _, _) ← InsertAfter h2 c2 a.before_begin 9
        let after ← elements 4 h3 a
        pure (before, after, a.GetSize)) = .ok ([1, 2], [9, 1, 2], 2) :=
  ⟨rfl, rfl⟩

/-- Claim C9, amended: for two separate lists `l` and `rhs` with nodes `ns`
and `ms`, the copy assignment `l = rhs` (given room for the copy and fuel for
the loops) returns a list `l2` that owns new nodes holding the elements of
`rhs` in the same order, with `GetSize()` equal to that of `rhs`, while `rhs`
keeps its nodes; `operator==` finds `l2` equal to `rhs` when the element `==`
is reflexive; afterwards a mutating call (`PushFront`, `PopFront`,
`InsertAfter`, `EraseAfter`, `Clear`, `Reverse`) on either list, at a position
of the list it is called on, that returns leaves the nodes, and so the
elements and the size, of the other list unchanged.  The self-assignment
`l = l`, on any list, leaves elements and size as they were. -/
theorem C9_copy_assignment {α : Type} [Inhabited α] [BEq α] :
    (∀ (h : Heap α) (l rhs : SingleLinkedList) (ns ms : List (Nat × α)) (fuel : Nat),
      Rep h l ns → Rep h rhs ms →
      (∀ c ∈ footprint rhs ms, c ∉ footprint l ns) →
      h.cells.length + 1 + ms.length ≤ addrSpace →
      ms.length < fuel → ns.length < fuel →
      ∃ h2 l2 ns2, assign fuel h l rhs = .ok (h2, l2)
        ∧ Rep h2 l2 ns2 ∧ vals ns2 = vals ms ∧ l2.GetSize = rhs.GetSize
        ∧ (∀ a ∈ footprint l2 ns2, h.cells.length ≤ a)
        ∧ elements fuel h2 l2 = .ok (vals ms)
        ∧ Rep h2 rhs ms ∧ elements fuel h2 rhs = .ok (vals ms)
        ∧ ((∀ x : α, (x == x) = true) → operator_eq fuel h2 l2 rhs = .ok true)
        ∧ (∀ (m : Mutation α) (fuel3 : Nat) (h3 : Heap α) (l3 : SingleLinkedList),
            m.valid l2 ns2 → ns2.length < fuel3 → m.run fuel3 h2 l2 = .ok (h3, l3) →
            Rep h3 rhs ms ∧ elements fuel h3 rhs = .ok (vals ms))
        ∧ (∀ (m : Mutation α) (fuel3 : Nat) (h3 : Heap α) (r3 : SingleLinkedList),
            m.valid rhs ms → ms.length < fuel3 → m.run fuel3 h2 rhs = .ok (h3, r3) →
            Rep h3 l2 ns2 ∧ elements fuel h3 l2 = .ok (vals ms)))
    ∧ (∀ (h : Heap α) (l : SingleLinkedList) (ns : List (Nat × α)) (fuel : Nat),
        Rep h l ns → h.cells.length + 1 + ns.length ≤ addrSpace → ns.length < fuel →
        ∃ h2 l2 ns2, assign fuel h l l = .ok (h2, l2)
          ∧ Rep h2 l2 ns2 ∧ vals ns2 = vals ns ∧ l2.GetSize = l.GetSize
          ∧ elements fuel h2 l2 = .ok (vals ns)) := by
  constructor
  · intro h l rhs ns ms fuel hl hr hsep hroom hf1 hf2
    have hszr : rhs.size_ = ms.length := by
      obtain ⟨_, _, _, _, hsz⟩ := hr; exact hsz
    obtain ⟨h2, l2, ns2, hrun, hrep2, hvals, hfresh, hfr⟩ :=
      assign_run h l rhs ns ms fuel hl hr hroom hf1 hf2
    have hlen2 : ns2.length = ms.length := by
      have := congrArg List.length hvals
      simpa [vals] using this
    have hsz2 : l2.size_ = ns2.length := by
      obtain ⟨_, _, _, _, hsz⟩ := hrep2; exact hsz
    have hr2 : Rep h2 rhs ms := Rep_frame h h2 rhs ms _ hr hfr hsep
    have hrlt := Rep_addr_lt h rhs ms hr
    have hdisj : ∀ c ∈ footprint rhs ms, c ∉ footprint l2 ns2 := by
      intro c hc hmem
      have h1 := hrlt c hc
      have h2 := hfresh c hmem
      omega
    refine ⟨h2, l2, ns2, hrun, hrep2, hvals, ?_, hfresh, ?_, hr2, ?_, ?_, ?_, ?_⟩
    · simp only [GetSize]; omega
    · rw [elements_Rep h2 l2 ns2 fuel hrep2 (by omega), hvals]
    · exact elements_Rep h2 rhs ms fuel hr2 hf1
    · intro hrefl
      obtain ⟨r, hrun3, hiff⟩ := operator_eq_Rep h2 l2 rhs ns2 ms fuel hrep2 hr2 (by
        rw [hlen2, Nat.min_self]; exact hf1)
      have hr : r = true := by
        refine hiff.2 ⟨hlen2, fun i hi hj => ?_⟩
        have hv : (vals ns2)[i]? = (vals ms)[i]? := by rw [hvals]
        simp only [vals, List.getElem?_map, List.getElem?_eq_getElem hi,
          List.getElem?_eq_getElem hj, Option.map_some', Option.some.injEq] at hv
        rw [hv]; exact hrefl _
      rw [hrun3, hr]
    · intro m fuel3 h3 l3 hv hf3 hrun3
      have hfr3 := Mutation_run_frame h2 l2 ns2 m fuel3 hrep2 hv hf3 h3 l3 hrun3
      have hr3 : Rep h3 rhs ms := Rep_frame h2 h3 rhs ms _ hr2 hfr3 hdisj
      exact ⟨hr3, elements_Rep h3 rhs ms fuel hr3 hf1⟩
    · intro m fuel3 h3 r3 hv hf3 hrun3
      have hfr3 := Mutation_run_frame h2 rhs ms m fuel3 hr2 hv hf3 h3 r3 hrun3
      have hl3 : Rep h3 l2 ns2 := Rep_frame h2 h3 l2 ns2 _ hrep2 hfr3
        (fun c hc hmem => hdisj c hmem hc)
      refine ⟨hl3, ?_⟩
      rw [elements_Rep h3 l2 ns2 fuel hl3 (by omega), hvals]
  · intro h l ns fuel hl hroom2 hf2
    have hszl : l.size_ = ns.length := by
      obtain ⟨_, _, _, _, hsz⟩ := hl; exact hsz
    obtain ⟨h2, l2, ns2, hrun, hrep2, hvals, _, _⟩ :=
      assign_run h l l ns ns fuel hl hl hroom2 hf2 hf2
    have hlen2 : ns2.length = ns.length := by
      have := congrArg List.length hvals
      simpa [vals] using this
    have hsz2 : l2.size_ = ns2.length := by
      obtain ⟨_, _, _, _, hsz⟩ := hrep2; exact hsz
    refine ⟨h2, l2, ns2, hrun, hrep2, hvals, ?_, ?_⟩
    · simp only [GetSize]; omega
    · rw [elements_Rep h2 l2 ns2 fuel hrep2 (by omega), hvals]

/-- Claim C9, amended, at the lists `[1, 2]` and `[7]` of `heapTwo`: after the
assignment both hold `[7]`, and a `PushFront` on either leaves the other at
`[7]`; the self-assignment of the only list of `heap123` keeps `[1, 2, 3]`. -/
theorem C9_copy_assignment_witness :
    (∃ h2 l2 ns2, assign 3 heapTwo listA listB = .ok (h2, l2)
      ∧ Rep h2 l2 ns2 ∧ vals ns2 = [7] ∧ l2.GetSize = 1
      ∧ elements 3 h2 l2 = .ok [7]
      ∧ Rep h2 listB nodesB ∧ elements 3 h2 listB = .ok [7]
      ∧ operator_eq 3 h2 l2 listB = .ok true)
    ∧ (∃ h2 l2 ns2, assign 4 heap123 list123 list123 = .ok (h2, l2)
        ∧ Rep h2 l2 ns2 ∧ vals ns2 = [1, 2, 3] ∧ l2.GetSize = 3
        ∧ elements 4 h2 l2 = .ok [1, 2, 3])
    ∧ (do
        let (h2, l2) ← assign 3 heapTwo listA listB
        let (h3, l3) ← PushFront h2 l2 5
        let (h4, r4) ← PushFront h3 listB 6
        let xs ← elements 3 h4 l3
        let ys ← elements 3 h4 r4
        let zs ← elements 3 h3 listB
        pure (xs, ys, zs)) = .ok ([5, 7], [6, 7], [7]) :=
  have G := @C9_copy_assignment Nat _ _
  ⟨(fun ⟨h2, l2, ns2, h1, h3, h4, h5, _, h6, h7, h8, h9, _⟩ =>
      ⟨h2, l2, ns2, h1, h3, h4, h5, h6, h7, h8, h9 (fun x => beq_self_eq_true x)⟩)
      (G.1 heapTwo listA listB nodesA nodesB 3 Rep_listA Rep_listB
        (by decide) (by decide) (by decide) (by decide)),
    G.2 heap123 list123 nodes123 4 Rep_heap123 (by decide) (by decide), rfl⟩

/-- Claim C10: for lists `a` and `b` with nodes `ns` and `ms`, `operator==`
(given fuel for the shorter list) returns a result, and the result is true if
and only if the lists have the same number of elements and at every index the
element of `a` is `==` to the element of `b`; it is false whenever the lengths
differ, also when one list is the start of the other. -/
theorem C10_operator_eq {α : Type} [BEq α] (h : Heap α) (a b : SingleLinkedList)
    (ns ms : List (Nat × α)) (fuel : Nat) (ha : Rep h a ns) (hb : Rep h b ms)
    (hf : min ns.length ms.length < fuel) :
    ∃ r, operator_eq fuel h a b = .ok r
      ∧ (r = true ↔ a.GetSize = b.GetSize
          ∧ ∀ i (hi : i < ns.length) (hj : i < ms.length), (ns[i].2 == ms[i].2) = true)
      ∧ (a.GetSize ≠ b.GetSize → r = false) := by
  obtain ⟨r, hrun, hiff⟩ := operator_eq_Rep h a b ns ms fuel ha hb hf
  have hsz1 : a.size_ = ns.length := by
    obtain ⟨_, _, _, _, hsz⟩ := ha; exact hsz
  have hsz2 : b.size_ = ms.length := by
    obtain ⟨_, _, _, _, hsz⟩ := hb; exact hsz
  have hiff2 : r = true ↔ a.GetSize = b.GetSize
      ∧ ∀ i (hi : i < ns.length) (hj : i < ms.length), (ns[i].2 == ms[i].2) = true := by
    rw [hiff]; simp only [GetSize, hsz1, hsz2]
  refine ⟨r, hrun, hiff2, fun hne => ?_⟩
  cases r with
  | false => rfl
  | true => exact absurd (hiff2.1 rfl).1 hne

/-- Claim C10 at the lists `[1, 2]` and `[7]` of `heapTwo`, which differ. -/
theorem C10_operator_eq_witness :
    ∃ r, operator_eq 2 heapTwo listA listB = .ok r
      ∧ (r = true ↔ listA.GetSize = listB.GetSize
          ∧ ∀ i (hi : i < nodesA.length) (hj : i < nodesB.length),
              (nodesA[i].2 == nodesB[i].2) = true)
      ∧ (listA.GetSize ≠ listB.GetSize → r = false) :=
  C10_operator_eq heapTwo listA listB nodesA nodesB 2 Rep_listA Rep_listB (by decide)

/-- Claim C11: for lists `a` and `b` with elements `xs` and `ys`, `operator<`
(given fuel for the shorter list) returns a result, and the result is true if
and only if there is an index `i` such that at every index before `i` neither
element is less than the other, and either `i` is the length of `a` and less
than the length of `b`, or `i` is within both lists and `xs[i] < ys[i]`.  When
the element `<` is irreflexive the result is false for lists with the same
elements, so no list is less than itself. -/
theorem C11_operator_lt {α : Type} (lt : α → α → Bool) (h : Heap α) (a b : SingleLinkedList)
    (ns ms : List (Nat × α)) (fuel : Nat) (ha : Rep h a ns) (hb : Rep h b ms)
    (hf : min ns.length ms.length < fuel) :
    (∃ r, operator_lt lt fuel h a b = .ok r
      ∧ (r = true ↔
          ∃ i, (∀ j (h1 : j < (vals ns).length) (h2 : j < (vals ms).length), j < i →
                  lt (vals ns)[j] (vals ms)[j] = false ∧ lt (vals ms)[j] (vals ns)[j] = false)
            ∧ ((i = a.GetSize ∧ i < b.GetSize)
                ∨ ∃ (h1 : i < (vals ns).length) (h2 : i < (vals ms).length),
                    lt (vals ns)[i] (vals ms)[i] = true))
      ∧ ((∀ x, lt x x = false) → vals ns = vals ms → r = false))
    ∧ ((∀ x, lt x x = false) → ns.length < fuel → operator_lt lt fuel h a a = .ok false) := by
  have hsza : a.GetSize = (vals ns).length := by
    obtain ⟨_, _, _, _, hsz⟩ := ha
    simp [GetSize, hsz, vals]
  have hszb : b.GetSize = (vals ms).length := by
    obtain ⟨_, _, _, _, hsz⟩ := hb
    simp [GetSize, hsz, vals]
  refine ⟨⟨lexLess lt (vals ns) (vals ms), operator_lt_val lt h a b ns ms fuel ha hb hf, ?_, ?_⟩,
    fun hirr hf2 => ?_⟩
  · rw [lexLess_iff, hsza, hszb]
  · intro hirr hv
    rw [hv]; exact lexLess_irrefl lt hirr _
  · rw [operator_lt_val lt h a a ns ns fuel ha ha (by rw [Nat.min_self]; exact hf2),
      lexLess_irrefl lt hirr]

/-- Claim C11 at the lists `[1, 2]` and `[7]` of `heapTwo`, and on the lists
of the examples, built by the initializer-list constructor: `[1,2,3] < [1,2,4]`,
`[1,2] < [1,2,3]`, `[] < [1]`, `[1,2,3] == [1,2,3]` and not `[1,2,3] < [1,2,3]`. -/
theorem C11_operator_lt_witness :
    ((∃ r, operator_lt natLt 3 heapTwo listA listB = .ok r
      ∧ (r = true ↔
          ∃ i, (∀ j (h1 : j < (vals nodesA).length) (h2 : j < (vals nodesB).length), j < i →
                  natLt (vals nodesA)[j] (vals nodesB)[j] = false
                    ∧ natLt (vals nodesB)[j] (vals nodesA)[j] = false)
            ∧ ((i = listA.GetSize ∧ i < listB.GetSize)
                ∨ ∃ (h1 : i < (vals nodesA).length) (h2 : i < (vals nodesB).length),
                    natLt (vals nodesA)[i] (vals nodesB)[i] = true))
      ∧ ((∀ x, natLt x x = false) → vals nodesA = vals nodesB → r = false))
      ∧ operator_lt natLt 3 heapTwo listA listA = .ok false)
    ∧ operator_lt natLt 2 heapTwo listA listB = .ok true
    ∧ (do
        let (h1, a) ← initCtor 4 (Heap.empty : Heap Nat) [1, 2, 3]
        let (h2, b) ← initCtor 4 h1 [1, 2, 4]
        let (h3, c) ← initCtor 4 h2 [1, 2]
        let (h4, d) ← initCtor 4 h3 []
        let (h5, e) ← initCtor 4 h4 [1]
        let (h6, f) ← initCtor 4 h5 [1, 2, 3]
        let r1 ← operator_lt natLt 4 h6 a b
        let r2 ← operator_lt natLt 4 h6 c a
        let r3 ← operator_lt natLt 4 h6 d e
        let r4 ← operator_eq 4 h6 a f
        let r5 ← operator_lt natLt 4 h6 a f
        let r6 ← operator_lt natLt 4 h6 a a
        pure [r1, r2, r3, r4, r5, r6]) = .ok [true, true, true, true, false, false] :=
  have H := C11_operator_lt natLt heapTwo listA listB nodesA nodesB 3 Rep_listA Rep_listB
    (by decide)
  ⟨⟨H.1, H.2 (fun x => by simp [natLt]) (by decide)⟩, rfl, rfl⟩

/-- Claim C12: for lists `a` and `b`, all six comparison operators return
(given fuel for the shorter list), and with `e` the result of `a == b`, `l` of
`a < b` and `g` of `b < a`: `a != b` is `!e`, `a <= b` is `l || e`, `a > b` is
`g`, and `a >= b` is `g || e`. -/
theorem C12_derived_operators {α : Type} [BEq α] (lt : α → α → Bool) (h : Heap α)
    (a b : SingleLinkedList) (ns ms : List (Nat × α)) (fuel : Nat) (ha : Rep h a ns)
    (hb : Rep h b ms) (hf : min ns.length ms.length < fuel) :
    ∃ e l g, operator_eq fuel h a b = .ok e
      ∧ operator_lt lt fuel h a b = .ok l
      ∧ operator_lt lt fuel h b a = .ok g
      ∧ operator_ne fuel h a b = .ok (!e)
      ∧ operator_le lt fuel h a b = .ok (l || e)
      ∧ operator_gt lt fuel h a b = .ok g
      ∧ operator_ge lt fuel h a b = .ok (g || e) := by
  have he := operator_eq_val h a b ns ms fuel ha hb hf
  have hl := operator_lt_val lt h a b ns ms fuel ha hb hf
  have hg := operator_lt_val lt h b a ms ns fuel hb ha (by rw [Nat.min_comm]; exact hf)
  refine ⟨_, _, _, he, hl, hg, ?_, ?_, hg, ?_⟩
  · simp [operator_ne, he, bind, Except.bind, pure, Except.pure]
  · cases hlv : lexLess lt (vals ns) (vals ms) with
    | true => simp [operator_le, hl, hlv, bind, Except.bind, pure, Except.pure]
    | false => simp [operator_le, hl, hlv, he, bind, Except.bind]
  · cases hgv : lexLess lt (vals ms) (vals ns) with
    | true => simp [operator_ge, hg, hgv, bind, Except.bind, pure, Except.pure]
    | false => simp [operator_ge, hg, hgv, he, bind, Except.bind]

/-- Claim C12 at the lists `[1, 2]` and `[7]` of `heapTwo`. -/
theorem C12_derived_operators_witness :
    (∃ e l g, operator_eq 2 heapTwo listA listB = .ok e
      ∧ operator_lt natLt 2 heapTwo listA listB = .ok l
      ∧ operator_lt natLt 2 heapTwo listB listA = .ok g
      ∧ operator_ne 2 heapTwo listA listB = .ok (!e)
      ∧ operator_le natLt 2 heapTwo listA listB = .ok (l || e)
      ∧ operator_gt natLt 2 heapTwo listA listB = .ok g
      ∧ operator_ge natLt 2 heapTwo listA listB = .ok (g || e))
    ∧ (do
        let e ← operator_eq 2 heapTwo listA listB
        let l ← operator_lt natLt 2 heapTwo listA listB
        let n ← operator_ne 2 heapTwo listA listB
        let le ← operator_le natLt 2 heapTwo listA listB
        let g ← operator_gt natLt 2 heapTwo listA listB
        let ge ← operator_ge natLt 2 heapTwo listA listB
        pure [e, l, n, le, g, ge]) = .ok [false, true, true, true, false, false] :=
  ⟨C12_derived_operators natLt heapTwo listA listB nodesA nodesB 2 Rep_listA Rep_listB
    (by decide), rfl⟩

/-- Claim C13: on a list with nodes `ns`, `PushFront(v)` followed by
`PopFront()` (given room for one node) returns a list object equal to the one
before, owning the same nodes `ns`, so with the same elements and the same
`GetSize()`. -/
theorem C13_PushFront_PopFront {α : Type} (h : Heap α) (l : SingleLinkedList)
    (ns : List (Nat × α)) (v : α) (hrep : Rep h l ns) (hroom : h.cells.length < addrSpace) :
    ∃ h1 l1 h2 l2, PushFront h l v = .ok (h1, l1)
      ∧ PopFront h1 l1 = .ok (h2, l2)
      ∧ Rep h2 l2 ns
      ∧ (∀ fuel, ns.length < fuel →
          elements fuel h2 l2 = .ok (vals ns) ∧ elements fuel h l = .ok (vals ns))
      ∧ l2.GetSize = l.GetSize
      ∧ l2 = l := by
  obtain ⟨h1, l1, hrun1, hrep1, hsz1, hhd1, _⟩ := PushFront_Rep h l ns v hrep hroom
  obtain ⟨h2, l2, hrun2, hrep2, hsz2, hhd2, _⟩ := PopFront_Rep h1 l1 _ v ns hrep1
  have hsz : l2.size_ = l.size_ := by omega
  refine ⟨h1, l1, h2, l2, hrun1, hrun2, hrep2, fun fuel hf => ?_, hsz, ?_⟩
  · exact ⟨elements_Rep h2 l2 ns fuel hrep2 hf, elements_Rep h l ns fuel hrep hf⟩
  · exact eq_of_fields l l2 (by rw [hhd2, hhd1]) hsz

/-- Claim C13 at the list `[1, 2, 3]` of `heap123` and the value 9. -/
theorem C13_PushFront_PopFront_witness :
    ∃ h1 l1 h2 l2, PushFront heap123 list123 9 = .ok (h1, l1)
      ∧ PopFront h1 l1 = .ok (h2, l2)
      ∧ Rep h2 l2 nodes123
      ∧ (∀ fuel, 3 < fuel →
          elements fuel h2 l2 = .ok [1, 2, 3] ∧ elements fuel heap123 list123 = .ok [1, 2, 3])
      ∧ l2.GetSize = 3
      ∧ l2 = list123 :=
  C13_PushFront_PopFront heap123 list123 nodes123 9 Rep_heap123 (by decide)

/-- Claim C14: on a list with the `n` nodes `ns`, at the position `p` that
lies after exactly `k ≤ n` elements (`before_begin()` or an iterator to a real
element), `InsertAfter(p, v)` (given room for one node) followed by
`EraseAfter(p)` returns without a fault, so the precondition of `EraseAfter`
holds; the list object is equal to the one before and owns the same nodes
`ns`, so elements and `GetSize()` are restored; the iterator that `EraseAfter`
returns is the one to the element that followed `p` before the insertion, and
is `end()` when there was none. -/
theorem C14_InsertAfter_EraseAfter {α : Type} (h : Heap α) (l : SingleLinkedList)
    (ns : List (Nat × α)) (k : Nat) (v : α) (hrep : Rep h l ns) (hk : k ≤ ns.length)
    (hroom : h.cells.length < addrSpace) :
    ∃ h1 l1 it1 h2 l2 it2, InsertAfter h l (posAfter l ns k) v = .ok (h1, l1, it1)
      ∧ EraseAfter h1 l1 (posAfter l ns k) = .ok (h2, l2, it2)
      ∧ Rep h2 l2 ns
      ∧ (∀ fuel, ns.length < fuel →
          elements fuel h2 l2 = .ok (vals ns) ∧ elements fuel h l = .ok (vals ns))
      ∧ l2.GetSize = l.GetSize
      ∧ l2 = l
      ∧ it2 = iterTo ns k
      ∧ (it2 = l.end_ ↔ k = ns.length) := by
  obtain ⟨h1, l1, hrun1, hrep1, hsz1, hhd1, _⟩ := InsertAfter_Rep h l ns k v hrep hk hroom
  have hlenk : (ns.take k).length = k := by rw [List.length_take]; omega
  have hk1 : k < (ns.take k ++ (h.cells.length, v) :: ns.drop k).length := by
    rw [List.length_append, hlenk, List.length_cons]; omega
  obtain ⟨h2, l2, hrun2, hrep2, hsz2, hhd2, _⟩ := EraseAfter_Rep h1 l1 _ k hrep1 hk1
  have hpos := posAfter_insert l l1 ns k (h.cells.length, v) hhd1 hk
  rw [hpos] at hrun2
  have hback : (ns.take k ++ (h.cells.length, v) :: ns.drop k).take k
      ++ (ns.take k ++ (h.cells.length, v) :: ns.drop k).drop (k + 1) = ns := by
    rw [List.take_append_of_le_length (by omega), List.take_take, Nat.min_self,
      List.drop_append_eq_append_drop, hlenk]
    have h1 : k + 1 - k = 1 := by omega
    rw [h1, List.drop_eq_nil_of_le (by omega)]
    simp [List.take_append_drop]
  rw [hback] at hrep2
  have hit : iterTo (ns.take k ++ (h.cells.length, v) :: ns.drop k) (k + 1) = iterTo ns k := by
    simp only [iterTo]
    rw [List.getElem?_append_right (by omega), hlenk]
    simp
  have hsz : l2.size_ = l.size_ := by omega
  refine ⟨h1, l1, _, h2, l2, _, hrun1, hrun2, hrep2, fun fuel hf => ?_, hsz, ?_, hit, ?_⟩
  · exact ⟨elements_Rep h2 l2 ns fuel hrep2 hf, elements_Rep h l ns fuel hrep hf⟩
  · exact eq_of_fields l l2 (by rw [hhd2, hhd1]) hsz
  · rw [hit]
    simp only [iterTo, end_, BasicIterator.mk.injEq, Option.map_eq_none']
    rw [List.getElem?_eq_none_iff]
    omega

/-- Claim C14 at the list `[1, 2, 3]` of `heap123`, after one element. -/
theorem C14_InsertAfter_EraseAfter_witness :
    ∃ h1 l1 it1 h2 l2 it2,
      InsertAfter heap123 list123 (posAfter list123 nodes123 1) 9 = .ok (h1, l1, it1)
      ∧ EraseAfter h1 l1 (posAfter list123 nodes123 1) = .ok (h2, l2, it2)
      ∧ Rep h2 l2 nodes123
      ∧ (∀ fuel, 3 < fuel →
          elements fuel h2 l2 = .ok [1, 2, 3] ∧ elements fuel heap123 list123 = .ok [1, 2, 3])
      ∧ l2.GetSize = 3
      ∧ l2 = list123
      ∧ it2 = iterTo nodes123 1
      ∧ (it2 = list123.end_ ↔ 1 = 3) :=
  C14_InsertAfter_EraseAfter heap123 list123 nodes123 1 9 Rep_heap123 (by decide) (by decide)

/-- Claim C15: on a list with nodes `ns`, two `Reverse()` calls (given fuel
for the loop) return and leave the same nodes in the original order, so the
original elements and `GetSize()`. -/
theorem C15_Reverse_twice {α : Type} (h : Heap α) (l : SingleLinkedList)
    (ns : List (Nat × α)) (fuel : Nat) (hrep : Rep h l ns) (hf : ns.length < fuel) :
    ∃ h1 l1 h2 l2, Reverse fuel h l = .ok (h1, l1)
      ∧ Reverse fuel h1 l1 = .ok (h2, l2)
      ∧ Rep h2 l2 ns
      ∧ (∀ fuel2, ns.length < fuel2 →
          elements fuel2 h2 l2 = .ok (vals ns) ∧ elements fuel2 h l = .ok (vals ns))
      ∧ l2.GetSize = l.GetSize
      ∧ l2 = l := by
  obtain ⟨h1, hrun1, hrep1, _⟩ := Reverse_Rep h l ns fuel hrep hf
  obtain ⟨h2, hrun2, hrep2, _⟩ := Reverse_Rep h1 l ns.reverse fuel hrep1 (by simpa using hf)
  rw [List.reverse_reverse] at hrep2
  exact ⟨h1, l, h2, l, hrun1, hrun2, hrep2,
    fun fuel2 hf2 => ⟨elements_Rep h2 l ns fuel2 hrep2 hf2, elements_Rep h l ns fuel2 hrep hf2⟩,
    rfl, rfl⟩

/-- Claim C15 at the list `[1, 2, 3]` of `heap123`. -/
theorem C15_Reverse_twice_witness :
    ∃ h1 l1 h2 l2, Reverse 4 heap123 list123 = .ok (h1, l1)
      ∧ Reverse 4 h1 l1 = .ok (h2, l2)
      ∧ Rep h2 l2 nodes123
      ∧ (∀ fuel2, 3 < fuel2 →
          elements fuel2 h2 l2 = .ok [1, 2, 3] ∧ elements fuel2 heap123 list123 = .ok [1, 2, 3])
      ∧ l2.GetSize = 3
      ∧ l2 = list123 :=
  C15_Reverse_twice heap123 list123 nodes123 4 Rep_heap123 (by decide)

/-- Claim C16: on a list that satisfies the invariant, `Clear()` returns
whenever the fuel exceeds `GetSize()`; its result is that of exactly
`GetSize()` calls of `PopFront` in a row, which is the count its loop reports,
and after fewer calls the size is still positive; with `ns` the nodes of the
list, every real node is freed, the sentinel is kept, no cell is allocated
and the cells outside the list are untouched; the list is left empty:
`GetSize() == 0`, `IsEmpty()` holds, `begin()` is `end()` and the traversal
yields nothing.  On an empty list no `PopFront` is called and neither heap
nor list object changes. -/
theorem C16_Clear {α : Type} (h : Heap α) (l : SingleLinkedList) (fuel : Nat)
    (hinv : Inv h l) (hf : l.GetSize < fuel) :
    ∃ h2 l2, Clear fuel h l = .ok (h2, l2)
      ∧ ClearLoop fuel h l = .ok (h2, l2, l.GetSize)
      ∧ PopFrontN l.GetSize h l = .ok (h2, l2)
      ∧ (∀ k, k < l.GetSize →
          ∃ hk lk, PopFrontN k h l = .ok (hk, lk) ∧ 0 < lk.GetSize ∧ Inv hk lk)
      ∧ (∀ ns : List (Nat × α), Rep h l ns →
          ns.length = l.GetSize
          ∧ (∀ a ∈ addrs ns, h2.read a = none)
          ∧ Frame h h2 (footprint l ns)
          ∧ (∀ k, k < l.GetSize →
              ∃ hk lk, PopFrontN k h l = .ok (hk, lk) ∧ Rep hk lk (ns.drop k)))
      ∧ l2.head_ = l.head_
      ∧ h2.cells.length = h.cells.length
      ∧ Rep h2 l2 ([] : List (Nat × α))
      ∧ Inv h2 l2
      ∧ l2.GetSize = 0
      ∧ l2.IsEmpty = true
      ∧ SingleLinkedList.begin h2 l2 = .ok l2.end_
      ∧ (∀ fuel2, elements (fuel2 + 1) h2 l2 = .ok ([] : List α))
      ∧ (l.GetSize = 0 → h2 = h ∧ l2 = l) := by
  obtain ⟨ns, hrep⟩ := Inv_Rep h l hinv
  have hsz : l.size_ = ns.length := by
    obtain ⟨_, _, _, _, hsz⟩ := hrep; exact hsz
  have hfn : ns.length < fuel := by simp only [GetSize] at hf; omega
  obtain ⟨h2, l2, hrun, hrep2, hhd, hlen, hdead, hfr⟩ := ClearLoop_Rep h l ns fuel hrep hfn
  have hsz2 : l2.size_ = 0 := by
    obtain ⟨_, _, _, _, hsz⟩ := hrep2; exact hsz
  have hbegin := begin_Rep h2 l2 _ hrep2
  have hrun2 : ClearLoop fuel h l = .ok (h2, l2, l.GetSize) := by
    rw [hrun]; simp [GetSize, hsz]
  have hpop : PopFrontN l.GetSize h l = .ok (h2, l2) := by
    have heq := ClearLoop_eq_PopFrontN h l ns fuel hrep hfn
    rw [hrun] at heq
    simp only [GetSize, hsz]
    cases hp : PopFrontN ns.length h l with
    | error e => rw [hp] at heq; cases heq
    | ok r =>
      rw [hp] at heq
      simp only [Except.map, Except.ok.injEq, Prod.mk.injEq] at heq
      obtain ⟨r1, r2⟩ := r
      simp only at heq
      rw [heq.1, heq.2.1]
  have hstage : ∀ k, k < l.GetSize →
      ∃ hk lk, PopFrontN k h l = .ok (hk, lk) ∧ 0 < lk.GetSize ∧ Rep hk lk (ns.drop k) := by
    intro k hk
    have hk2 : k < ns.length := by simp only [GetSize] at hk; omega
    obtain ⟨hk3, lk, hrunk, hrepk⟩ := PopFrontN_Rep h l ns k hrep (by omega)
    refine ⟨hk3, lk, hrunk, ?_, hrepk⟩
    obtain ⟨_, _, _, _, hszk⟩ := hrepk
    simp only [GetSize, hszk, List.length_drop]
    omega
  refine ⟨h2, l2, ?_, hrun2, hpop, fun k hk => ?_, fun ms hms => ?_, hhd, hlen, hrep2,
    Rep_Inv _ _ _ hrep2, hsz2, ?_, ?_, fun fuel2 => ?_, fun hzero => ?_⟩
  · simp [Clear, hrun, bind, Except.bind, pure, Except.pure]
  · obtain ⟨hk3, lk, hrunk, hpos, hrepk⟩ := hstage k hk
    exact ⟨hk3, lk, hrunk, hpos, Rep_Inv _ _ _ hrepk⟩
  · have hmn : ms = ns := Rep_unique h l ms ns hms hrep
    subst hmn
    refine ⟨by simp only [GetSize]; omega, hdead, hfr, fun k hk => ?_⟩
    obtain ⟨hk3, lk, hrunk, _, hrepk⟩ := hstage k hk
    exact ⟨hk3, lk, hrunk, hrepk⟩
  · simp [SingleLinkedList.IsEmpty, hsz2]
  · rw [hbegin]; rfl
  · exact elements_Rep h2 l2 [] (fuel2 + 1) hrep2 (by simp)
  · cases fuel with
    | zero => exact absurd hf (Nat.not_lt_zero _)
    | succ k =>
      rw [ClearLoop_empty h l k hzero] at hrun2
      simp only [Except.ok.injEq, Prod.mk.injEq] at hrun2
      exact ⟨hrun2.1.symm, hrun2.2.1.symm⟩

/-- Claim C16 at the list `[1, 2, 3]` of `heap123` (three `PopFront` calls,
the cells 3, 2 and 1 freed, only the sentinel left) and at the empty list of
`heapNil` (no call, nothing changed). -/
theorem C16_Clear_witness :
    (∃ h2 l2, Clear 4 heap123 list123 = .ok (h2, l2)
      ∧ ClearLoop 4 heap123 list123 = .ok (h2, l2, 3)
      ∧ PopFrontN 3 heap123 list123 = .ok (h2, l2)
      ∧ (∀ a ∈ [3, 2, 1], h2.read a = none)
      ∧ Frame heap123 h2 [0, 3, 2, 1]
      ∧ l2.head_ = some 0
      ∧ h2.cells.length = 4
      ∧ Rep h2 l2 ([] : List (Nat × Nat))
      ∧ l2.GetSize = 0
      ∧ l2.IsEmpty = true
      ∧ SingleLinkedList.begin h2 l2 = .ok l2.end_
      ∧ (∀ fuel2, elements (fuel2 + 1) h2 l2 = .ok ([] : List Nat)))
    ∧ (∃ h2 l2, Clear 1 heapNil listNil = .ok (h2, l2)
      ∧ ClearLoop 1 heapNil listNil = .ok (h2, l2, 0)
      ∧ PopFrontN 0 heapNil listNil = .ok (h2, l2)
      ∧ l2.GetSize = 0
      ∧ h2 = heapNil ∧ l2 = listNil)
    ∧ (Clear 4 heap123 list123).map (fun r => (r.1.cells, r.2))
        = .ok ([some ⟨0, none⟩, none, none, none], ⟨some 0, 0⟩) :=
  ⟨(fun ⟨h2, l2, h1, h3, h4, _, h6, h7, h8, h9, _, h11, h12, h13, h14, _⟩ =>
      ⟨h2, l2, h1, h3, h4, (h6 nodes123 Rep_heap123).2.1, (h6 nodes123 Rep_heap123).2.2.1,
        h7, h8, h9, h11, h12, h13, h14⟩)
      (C16_Clear heap123 list123 4 (Rep_Inv _ _ _ Rep_heap123) (by decide)),
    (fun ⟨h2, l2, h1, h3, h4, _, _, _, _, _, _, h11, _, _, _, h15⟩ =>
      ⟨h2, l2, h1, h3, h4, h11, h15 rfl⟩)
      (C16_Clear heapNil listNil 1 (Rep_Inv _ _ _ Rep_heapNil) (by decide)),
    rfl⟩

/-- Claim C17: `a.swap(b)` on two different list objects leaves `a` with the
head pointer and size, hence the nodes, elements and `GetSize()`, that `b`
had, and `b` with those of `a`, and touches no other object; the free
function `swap` does the same; swapping twice restores both objects; swapping
an object with itself leaves it unchanged. -/
theorem C17_swap (σ : Store) (i j : Nat) :
    (i ≠ j → (σ.swap i j) i = σ j ∧ (σ.swap i j) j = σ i
        ∧ ((σ.swap i j) i, (σ.swap i j) j) = SingleLinkedList.swap (σ i) (σ j))
    ∧ (∀ k, k ≠ i → k ≠ j → (σ.swap i j) k = σ k)
    ∧ (∀ {α : Type} (h : Heap α) (ns ms : List (Nat × α)), i ≠ j →
        Rep h (σ i) ns → Rep h (σ j) ms →
        Rep h ((σ.swap i j) i) ms ∧ Rep h ((σ.swap i j) j) ns
          ∧ ((σ.swap i j) i).GetSize = (σ j).GetSize
          ∧ ((σ.swap i j) j).GetSize = (σ i).GetSize
          ∧ ∀ fuel, elements fuel h ((σ.swap i j) i) = elements fuel h (σ j)
              ∧ elements fuel h ((σ.swap i j) j) = elements fuel h (σ i))
    ∧ SLL.swap σ i j = σ.swap i j
    ∧ (σ.swap i j).swap i j = σ
    ∧ σ.swap i i = σ := by
  have hij : i ≠ j → (σ.swap i j) i = σ j ∧ (σ.swap i j) j = σ i := by
    intro hne
    have hji : j ≠ i := Ne.symm hne
    constructor
    · simp [Store.swap, Store.set, hne, hji]
    · simp [Store.swap, Store.set, hne, hji]
  have hother : ∀ k, k ≠ i → k ≠ j → (σ.swap i j) k = σ k := by
    intro k hki hkj
    simp [Store.swap, Store.set, hki, hkj]
  have hself : ∀ τ : Store, τ.swap i i = τ := by
    intro τ
    funext k
    by_cases hk : k = i
    · subst hk; simp [Store.swap, Store.set]
    · simp [Store.swap, Store.set, hk]
  refine ⟨fun hne => ⟨(hij hne).1, (hij hne).2, ?_⟩, hother, ?_, rfl, ?_, hself σ⟩
  · rw [(hij hne).1, (hij hne).2]; rfl
  · intro α h ns ms hne hi hj
    rw [(hij hne).1, (hij hne).2]
    exact ⟨hj, hi, rfl, rfl, fun _ => ⟨rfl, rfl⟩⟩
  · by_cases hne : i = j
    · subst hne
      rw [hself σ, hself σ]
    · funext k
      have hji : j ≠ i := fun hc => hne hc.symm
      by_cases hki : k = i
      · subst hki
        simp [Store.swap, Store.set, hne, hji]
      · by_cases hkj : k = j
        · subst hkj
          simp [Store.swap, Store.set, hne, hji]
        · simp [Store.swap, Store.set, hki, hkj]

/-- Claim C17 at the store `storeAB`, whose variable 0 is the list `[1, 2]`
and whose variable 1 is the list `[7]` of `heapTwo`. -/
theorem C17_swap_witness :
    ((storeAB.swap 0 1) 0 = listB ∧ (storeAB.swap 0 1) 1 = listA
        ∧ ((storeAB.swap 0 1) 0, (storeAB.swap 0 1) 1) = SingleLinkedList.swap listA listB)
    ∧ (Rep heapTwo ((storeAB.swap 0 1) 0) nodesB ∧ Rep heapTwo ((storeAB.swap 0 1) 1) nodesA
        ∧ ((storeAB.swap 0 1) 0).GetSize = 1
        ∧ ((storeAB.swap 0 1) 1).GetSize = 2
        ∧ ∀ fuel, elements fuel heapTwo ((storeAB.swap 0 1) 0) = elements fuel heapTwo listB
            ∧ elements fuel heapTwo ((storeAB.swap 0 1) 1) = elements fuel heapTwo listA)
    ∧ (storeAB.swap 0 1).swap 0 1 = storeAB
    ∧ storeAB.swap 0 0 = storeAB :=
  have H := C17_swap storeAB 0 1
  ⟨H.1 (by decide), H.2.2.1 heapTwo nodesA nodesB (by decide) Rep_listA Rep_listB,
    H.2.2.2.2.1, (C17_swap storeAB 0 0).2.2.2.2.2⟩

/-- Claim C18: `InsertAfter(pos, v)` trips its assertion exactly when `pos` is
the null (past-the-end) iterator; `EraseAfter(pos)` trips its assertion exactly
when `pos` is null or refers to a live node whose next edge is null.  On a
list with nodes `ns`, at a position after `k ≤ n` elements `InsertAfter`
returns when there is room for a node and otherwise only reports `bad_alloc`;
at a position after `k < n` elements `EraseAfter` returns; at the position
after all `n` elements (the last element, or `before_begin()` of an empty
list) `EraseAfter` trips the assertion. -/
theorem C18_precondition_checks {α : Type} (h : Heap α) (l : SingleLinkedList)
    (ns : List (Nat × α)) (hrep : Rep h l ns) :
    (∀ (pos : BasicIterator) (v : α),
        InsertAfter h l pos v = .error .assertion ↔ pos.node_ = none)
    ∧ (∀ pos : BasicIterator,
        EraseAfter h l pos = .error .assertion ↔
          pos.node_ = none
            ∨ ∃ a n, pos.node_ = some a ∧ h.read a = some n ∧ n.next_node = none)
    ∧ (∀ (k : Nat) (v : α), k ≤ ns.length →
        (h.cells.length < addrSpace → ∃ r, InsertAfter h l (posAfter l ns k) v = .ok r)
        ∧ (¬ h.cells.length < addrSpace →
            InsertAfter h l (posAfter l ns k) v = .error .badAlloc))
    ∧ (∀ k : Nat, k < ns.length → ∃ r, EraseAfter h l (posAfter l ns k) = .ok r)
    ∧ EraseAfter h l (posAfter l ns ns.length) = .error .assertion := by
  have hrep0 := hrep
  obtain ⟨hd, sv, hl, hs, _⟩ := hrep
  have hnode : ∀ k (hk : k < ((hd, sv) :: ns).length),
      h.read (((hd, sv) :: ns)[k]).1
        = some ⟨(((hd, sv) :: ns)[k]).2, ((((hd, sv) :: ns)[k + 1]?).map Prod.fst)⟩ :=
    fun k hk => Seg_read_at h _ (some hd) hs k hk
  refine ⟨fun pos v => InsertAfter_assertion_iff h l pos v,
    fun pos => EraseAfter_assertion_iff h l pos, fun k v hk => ⟨fun hroom => ?_, fun hfull => ?_⟩,
    fun k hk => ?_, ?_⟩
  · obtain ⟨h2, l2, hrun, _⟩ := InsertAfter_Rep h l ns k v hrep0 hk hroom
    exact ⟨_, hrun⟩
  · have hk1 : k < ((hd, sv) :: ns).length := by simp; omega
    rw [posAfter_node l ns hd sv k hl hk1]
    simp [InsertAfter, deref_of_read h _ _ (hnode k hk1), new_noroom h _ hfull, bind,
      Except.bind]
  · obtain ⟨h2, l2, hrun, _⟩ := EraseAfter_Rep h l ns k hrep0 hk
    exact ⟨_, hrun⟩
  · have hk1 : ns.length < ((hd, sv) :: ns).length := by simp
    rw [EraseAfter_assertion_iff, posAfter_node l ns hd sv ns.length hl hk1]
    right
    refine ⟨_, _, rfl, hnode ns.length hk1, ?_⟩
    simp

/-- Claim C18 at the list `[1, 2, 3]` of `heap123`: the null iterator trips
both assertions, the iterator to the last element trips that of `EraseAfter`,
and the other positions give results. -/
theorem C18_precondition_checks_witness :
    (InsertAfter heap123 list123 list123.end_ 9 = .error .assertion)
    ∧ (EraseAfter heap123 list123 list123.end_ = .error .assertion)
    ∧ (∃ r, InsertAfter heap123 list123 (posAfter list123 nodes123 3) 9 = .ok r)
    ∧ (∃ r, EraseAfter heap123 list123 (posAfter list123 nodes123 2) = .ok r)
    ∧ EraseAfter heap123 list123 (posAfter list123 nodes123 3) = .error .assertion
    ∧ EraseAfter heapNil listNil listNil.before_begin = .error .assertion :=
  have H := C18_precondition_checks heap123 list123 nodes123 Rep_heap123
  ⟨(H.1 list123.end_ 9).2 rfl, (H.2.1 list123.end_).2 (Or.inl rfl),
    (H.2.2.1 3 9 (by decide)).1 (by decide), H.2.2.2.1 2 (by decide), H.2.2.2.2,
    (C18_precondition_checks heapNil listNil [] Rep_heapNil).2.2.2.2⟩

/-- Claim C19: on a list with nodes `ns`, `InsertAfter(before_begin(), v)` and
`PushFront(v)` give the same heap and list object (and fail alike when there
is no room), and the iterator that `InsertAfter` returns is `begin()` of the
result; on a non-empty list `EraseAfter(before_begin())` and `PopFront()` give
the same heap and list object, and the iterator that `EraseAfter` returns is
`begin()` of the result. -/
theorem C19_sentinel_unifies {α : Type} (h : Heap α) (l : SingleLinkedList)
    (ns : List (Nat × α)) (v : α) (hrep : Rep h l ns) :
    (PushFront h l v = (InsertAfter h l l.before_begin v).map (fun r => (r.1, r.2.1)))
    ∧ (h.cells.length < addrSpace →
        ∃ h2 l2 it, InsertAfter h l l.before_begin v = .ok (h2, l2, it)
          ∧ PushFront h l v = .ok (h2, l2)
          ∧ Rep h2 l2 ((h.cells.length, v) :: ns)
          ∧ SingleLinkedList.begin h2 l2 = .ok it)
    ∧ (ns ≠ [] →
        ∃ h2 l2 it, EraseAfter h l l.before_begin = .ok (h2, l2, it)
          ∧ PopFront h l = .ok (h2, l2)
          ∧ Rep h2 l2 ns.tail
          ∧ SingleLinkedList.begin h2 l2 = .ok it) := by
  have hl : ∃ hd, l.head_ = some hd := by
    obtain ⟨hd, _, hl, _⟩ := hrep; exact ⟨hd, hl⟩
  obtain ⟨hd, hl⟩ := hl
  have heq := PushFront_eq_InsertAfter h l v hd hl
  refine ⟨heq, fun hroom => ?_, fun hne => ?_⟩
  · obtain ⟨h2, l2, hrun, hrep2, _⟩ := InsertAfter_Rep h l ns 0 v hrep (Nat.zero_le _) hroom
    simp only [posAfter, List.take_zero, List.drop_zero, List.nil_append] at hrun hrep2
    refine ⟨h2, l2, _, hrun, ?_, hrep2, ?_⟩
    · rw [heq, hrun]; rfl
    · rw [begin_Rep h2 l2 _ hrep2]; simp [iterTo]
  · cases ns with
    | nil => exact absurd rfl hne
    | cons n ns =>
      obtain ⟨h2, l2, hrun, hrep2, hsz, _⟩ := EraseAfter_Rep h l (n :: ns) 0 hrep (by simp)
      simp only [posAfter, List.take_zero, List.nil_append, List.drop_succ_cons,
        List.drop_zero] at hrun hrep2
      have hpos : 0 < l.size_ := by omega
      refine ⟨h2, l2, _, hrun, PopFront_of_EraseAfter h h2 l l2 _ hpos hrun, hrep2, ?_⟩
      rw [begin_Rep h2 l2 _ hrep2]
      cases ns with
      | nil => simp [iterTo]
      | cons m ns => simp [iterTo]

/-- Claim C19 at the list `[1, 2, 3]` of `heap123` and the value 9. -/
theorem C19_sentinel_unifies_witness :
    (PushFront heap123 list123 9
        = (InsertAfter heap123 list123 list123.before_begin 9).map (fun r => (r.1, r.2.1)))
    ∧ (∃ h2 l2 it, InsertAfter heap123 list123 list123.before_begin 9 = .ok (h2, l2, it)
          ∧ PushFront heap123 list123 9 = .ok (h2, l2)
          ∧ Rep h2 l2 ((4, 9) :: nodes123)
          ∧ SingleLinkedList.begin h2 l2 = .ok it)
    ∧ (∃ h2 l2 it, EraseAfter heap123 list123 list123.before_begin = .ok (h2, l2, it)
          ∧ PopFront heap123 list123 = .ok (h2, l2)
          ∧ Rep h2 l2 [(2, 2), (1, 3)]
          ∧ SingleLinkedList.begin h2 l2 = .ok it) :=
  have H := C19_sentinel_unifies heap123 list123 nodes123 9 Rep_heap123
  ⟨H.1, H.2.1 (by decide), H.2.2 (by decide)⟩

/-- Claim C20: when for all elements exactly one of `x < y`, `x == y`, `y < x`
holds, then for lists `a` and `b` all comparisons return (given fuel for the
shorter list) and exactly one of `a < b`, `a == b`, `a > b` is true; `a <= b`
is true exactly when `b < a` is false, and `a >= b` is true exactly when
`a < b` is false. -/
theorem C20_total_order {α : Type} [BEq α] (lt : α → α → Bool)
    (htri : ∀ x y : α, (lt x y = true ∧ (x == y) = false ∧ lt y x = false)
      ∨ (lt x y = false ∧ (x == y) = true ∧ lt y x = false)
      ∨ (lt x y = false ∧ (x == y) = false ∧ lt y x = true))
    (h : Heap α) (a b : SingleLinkedList) (ns ms : List (Nat × α)) (fuel : Nat)
    (ha : Rep h a ns) (hb : Rep h b ms) (hf : min ns.length ms.length < fuel) :
    ∃ l e g le ge, operator_lt lt fuel h a b = .ok l
      ∧ operator_eq fuel h a b = .ok e
      ∧ operator_gt lt fuel h a b = .ok g
      ∧ operator_lt lt fuel h b a = .ok g
      ∧ operator_le lt fuel h a b = .ok le
      ∧ operator_ge lt fuel h a b = .ok ge
      ∧ ((l = true ∧ e = false ∧ g = false) ∨ (l = false ∧ e = true ∧ g = false)
          ∨ (l = false ∧ e = false ∧ g = true))
      ∧ (le = true ↔ g = false)
      ∧ (ge = true ↔ l = false) := by
  have he := operator_eq_val h a b ns ms fuel ha hb hf
  have hl := operator_lt_val lt h a b ns ms fuel ha hb hf
  have hg := operator_lt_val lt h b a ms ns fuel hb ha (by rw [Nat.min_comm]; exact hf)
  have htr := lexLess_trichotomy lt htri (vals ns) (vals ms)
  refine ⟨lexLess lt (vals ns) (vals ms), seqEq (vals ns) (vals ms),
    lexLess lt (vals ms) (vals ns),
    lexLess lt (vals ns) (vals ms) || seqEq (vals ns) (vals ms),
    lexLess lt (vals ms) (vals ns) || seqEq (vals ns) (vals ms),
    hl, he, hg, hg, ?_, ?_, htr, ?_, ?_⟩
  · cases hlv : lexLess lt (vals ns) (vals ms) with
    | true => simp [operator_le, hl, hlv, bind, Except.bind, pure, Except.pure]
    | false => simp [operator_le, hl, hlv, he, bind, Except.bind]
  · cases hgv : lexLess lt (vals ms) (vals ns) with
    | true => simp [operator_ge, hg, hgv, bind, Except.bind, pure, Except.pure]
    | false => simp [operator_ge, hg, hgv, he, bind, Except.bind]
  · rcases htr with ⟨h1, h2, h3⟩ | ⟨h1, h2, h3⟩ | ⟨h1, h2, h3⟩ <;> simp [h1, h2, h3]
  · rcases htr with ⟨h1, h2, h3⟩ | ⟨h1, h2, h3⟩ | ⟨h1, h2, h3⟩ <;> simp [h1, h2, h3]

/-- Claim C20 at the lists `[1, 2]` and `[7]` of `heapTwo`, with the order and
equality of `Nat`. -/
theorem C20_total_order_witness :
    ∃ l e g le ge, operator_lt natLt 2 heapTwo listA listB = .ok l
      ∧ operator_eq 2 heapTwo listA listB = .ok e
      ∧ operator_gt natLt 2 heapTwo listA listB = .ok g
      ∧ operator_lt natLt 2 heapTwo listB listA = .ok g
      ∧ operator_le natLt 2 heapTwo listA listB = .ok le
      ∧ operator_ge natLt 2 heapTwo listA listB = .ok ge
      ∧ ((l = true ∧ e = false ∧ g = false) ∨ (l = false ∧ e = true ∧ g = false)
          ∨ (l = false ∧ e = false ∧ g = true))
      ∧ (le = true ↔ g = false)
      ∧ (ge = true ↔ l = false) :=
  C20_total_order natLt natLt_trichotomy heapTwo listA listB nodesA nodesB 2 Rep_listA Rep_listB
    (by decide)

end SLL
